import Mathlib

/-!
# Verification of the capmap sparse-range algebra and capability-graph scanner

This file gives a shallow embedding, in Lean 4, of the core of the
capablevms/compartment-mapper library: the `Range` interval type
(include/capmap-range.h), the `SparseRange` ordered interval set and its
`combine`/`remove`/`overlaps`/`includes` algorithms (capmap-range.cc), the
`LoadCapMap`/`LoadMap` classifiers and `Mapper::scan` traversal engine
(src/capmap.cc, include/capmap.h), and the test-harness entry point
(tests/tests.cc).

Machine integers (`ptraddr_t`, `size_t`, both 64-bit) are modelled as `Nat`
with explicit reduction modulo `2 ^ 64` at every operation where the C++
unsigned arithmetic can wrap.  `std::set<Range>` (ordered by the `last`
field only) is modelled as a `List Range` sorted strictly by `last`;
`std::set::lower_bound` becomes `List.dropWhile`, and `std::set::insert`
becomes `setInsert`, which is a no-op when an element with the same `last`
is already present, exactly like inserting an equivalent key into a
`std::set`.
-/

/-- `2 ^ 64`: one past the largest representable 64-bit address. -/
def W64 : Nat := 2 ^ 64

/-- `sizeof(void *__capability)`: the capability word size.  The source
static-asserts 128-bit capabilities (print_raw_cap), so this is 16. -/
def capW : Nat := 16

/-- `capmap::Range`: a contiguous closed interval `[base_, last_]` over a
64-bit address space.  Empty iff `last_ < base_`. -/
structure Range where
  base : Nat
  last : Nat
deriving DecidableEq, Repr

namespace Range

/-- `Range::Range()`: an arbitrary empty range, `base_ = UINT64_MAX, last_ = 0`. -/
def emptyR : Range := ⟨W64 - 1, 0⟩

/-- `Range::from_base_last(base, last)`. -/
def from_base_last (base last : Nat) : Range := ⟨base, last⟩

/-- `Range::from_base_limit(base, limit)` is `from_base_last(base, limit - 1)`;
the `limit - 1` is 64-bit unsigned arithmetic, hence the explicit wrap. -/
def from_base_limit (base limit : Nat) : Range :=
  from_base_last base ((limit + (W64 - 1)) % W64)

/-- `Range::from_base_length(base, length)` is
`from_base_last(base, base + length - 1)` in wrapping 64-bit arithmetic. -/
def from_base_length (base length : Nat) : Range :=
  from_base_last base ((base + length + (W64 - 1)) % W64)

/-- `Range::full_64bit()`: the full address space `[0, UINT64_MAX]`. -/
def full_64bit : Range := from_base_last 0 (W64 - 1)

/-- `Range::is_empty()`: `last_ < base_`. -/
def is_empty (r : Range) : Bool := r.last < r.base

/-- `Range::overlaps(other)`: `base_ <= other.last_ && last_ >= other.base_`. -/
def overlapsB (r other : Range) : Bool := r.base ≤ other.last && other.base ≤ r.last

/-- `Range::includes(Range other)`: `base_ <= other.base_ && last_ >= other.last_`. -/
def includesB (r other : Range) : Bool := r.base ≤ other.base && other.last ≤ r.last

/-- `Range::includes(ptraddr_t addr)`: `base_ <= addr && last_ >= addr`. -/
def includesA (r : Range) (addr : Nat) : Bool := r.base ≤ addr && addr ≤ r.last

/-- `Range::follows(other)`: `base_ > 0 && base_ == other.last_ + 1`,
where `other.last_ + 1` wraps at 64 bits. -/
def followsB (r other : Range) : Bool := 0 < r.base && r.base = (other.last + 1) % W64

/-- `Range::preceeds(other)`: `other.follows(*this)`. -/
def preceedsB (r other : Range) : Bool := followsB other r

/-- The combinability test of `Range::try_combine`:
`overlaps(other) || preceeds(other) || follows(other)`. -/
def touchB (r other : Range) : Bool := r.overlapsB other || r.preceedsB other || r.followsB other

/-- The merged value written by a successful `Range::try_combine`:
`base_ = min(base_, other.base_); last_ = max(last_, other.last_)`. -/
def mrg (r other : Range) : Range := ⟨min r.base other.base, max r.last other.last⟩

/-- `Range::try_combine(other)`: returns the success flag together with the
(possibly updated) receiver value. -/
def try_combine (r other : Range) : Bool × Range :=
  if r.touchB other then (true, r.mrg other) else (false, r)

/-- `cheri_align_up(x, m)` for a power-of-two `m`, with 64-bit wrap of the
intermediate `x + m - 1`. -/
def alignUp (x m : Nat) : Nat := ((x + m - 1) % W64) / m * m

/-- `cheri_align_down(x, m)`. -/
def alignDown (x m : Nat) : Nat := x / m * m

/-- `Range::shrink_to_alignment(multiple)` (result value): align the base up
and the limit down; empty ranges are unmodified.  `last_ + 1` and the final
`- 1` are wrapping 64-bit operations. -/
def shrunk_to_alignment (r : Range) (m : Nat) : Range :=
  if r.is_empty then r
  else ⟨alignUp r.base m, (alignDown ((r.last + 1) % W64) m + (W64 - 1)) % W64⟩

/-- Well-formedness of a `Range` as a pair of 64-bit machine words. -/
def wf (r : Range) : Prop := r.base < W64 ∧ r.last < W64

instance : DecidablePred wf := fun r => by unfold wf; infer_instance

/-- Semantic membership of an address in a range (the set denoted by `r`). -/
def memA (r : Range) (a : Nat) : Prop := r.base ≤ a ∧ a ≤ r.last

instance (r : Range) (a : Nat) : Decidable (r.memA a) := by unfold memA; infer_instance

/-- A range is semantically non-empty iff `base_ ≤ last_`. -/
def ne (r : Range) : Prop := r.base ≤ r.last

instance (r : Range) : Decidable (r.ne) := by unfold ne; infer_instance

end Range

/-- The gap relation underlying the `SparseRange` representation invariant:
`x` ends strictly more than one address before `y` begins, so `x` and `y`
neither overlap nor abut. -/
def gapR (x y : Range) : Prop := x.last + 1 < y.base

instance (x y : Range) : Decidable (gapR x y) := by unfold gapR; infer_instance

/-- `std::set<Range>::insert` on the model: insert into the list sorted by
`last`, doing nothing if an element with the same `last` (an equivalent key
under `Range::operator<`) is already present. -/
def setInsert (r : Range) : List Range → List Range
  | [] => [r]
  | x :: xs =>
    if r.last < x.last then r :: x :: xs
    else if x.last < r.last then x :: setInsert r xs
    else x :: xs

/-- The left-moving loop of `SparseRange::combine`: `other` repeatedly
`try_combine`s the predecessor range; the input list is the prefix before
`repl_start` in reverse order (nearest predecessor first).  Returns the
fully combined `other` together with the unconsumed (still reversed)
remainder. -/
def lwalk (other : Range) : List Range → Range × List Range
  | [] => (other, [])
  | p :: ps =>
    match other.try_combine p with
    | (true, o) => lwalk o ps
    | (false, _) => (other, p :: ps)

/-- The right-moving loop of `SparseRange::combine`: `other` repeatedly
`try_combine`s the element at `repl_end` and advances.  Returns the fully
combined `other` together with the unconsumed suffix. -/
def rwalk (other : Range) : List Range → Range × List Range
  | [] => (other, [])
  | x :: xs =>
    match other.try_combine x with
    | (true, o) => rwalk o xs
    | (false, _) => (other, x :: xs)

namespace SparseRange

/-- The body of `SparseRange::combine(Range)` after the initial look-up has
split the set into the ranges `A` strictly below `other` (by `last`) and the
ranges `B` from `lower_bound(other)` on.  The iterator adjustment, the two
`while` loops (`lwalk`/`rwalk`) and the erase-and-insert are mirrored
case by case. -/
def combineGo (other : Range) (A B : List Range) : List Range :=
  match B with
  | [] =>
    -- lower_bound() == end(): step repl_start back unconditionally.
    match A.reverse with
    | [] => [other]  -- unreachable: A = l is non-empty
    | aL :: restRev =>
      let lw := lwalk other restRev
      let rw := rwalk lw.1 [aL]
      setInsert rw.1 (lw.2.reverse ++ rw.2)
  | b :: _ =>
    if A.isEmpty then
      -- lower_bound() == begin(): no step back, no pre-combine.
      let rw := rwalk other B
      setInsert rw.1 rw.2
    else
      match other.try_combine b with
      | (true, o1) =>
        -- other absorbed the lower_bound; walk left from it, then right.
        let lw := lwalk o1 A.reverse
        let rw := rwalk lw.1 B
        setInsert rw.1 (lw.2.reverse ++ rw.2)
      | (false, _) =>
        -- step repl_start back; the stepped-to element is retried by the
        -- right-moving loop.
        match A.reverse with
        | [] => [other]  -- unreachable: A is non-empty here
        | aL :: restRev =>
          let lw := lwalk other restRev
          let rw := rwalk lw.1 (aL :: B)
          setInsert rw.1 (lw.2.reverse ++ rw.2)

/-- `SparseRange::combine(Range)` on the sorted-list model of the
`std::set<Range>`.  `lower_bound(other)` is the first element whose `last`
is not below `other.last`, i.e. the head of `dropWhile`. -/
def combine (l : List Range) (other : Range) : List Range :=
  if other.is_empty then l
  else
    match l with
    | [] => [other]
    | _ :: _ =>
      combineGo other (l.takeWhile fun x => x.last < other.last)
        (l.dropWhile fun x => x.last < other.last)

/-- The body of `SparseRange::remove(Range)` once the iterator adjustment
has designated the element `cur` (the set being `pre ++ cur :: suf`): if
`cur` does not overlap, return the set unchanged; otherwise collect the
contiguous run of overlapping ranges around `cur`, erase it, and insert the
at most two residual ranges. -/
def removeGo (other : Range) (l pre : List Range) (cur : Range) (suf : List Range) :
    List Range :=
  if !cur.overlapsB other then l
  else
    let lwr := pre.reverse.takeWhile fun x => x.overlapsB other
    let keptPreRev := pre.reverse.dropWhile fun x => x.overlapsB other
    let rwr := suf.takeWhile fun x => x.overlapsB other
    let keptSuf := suf.dropWhile fun x => x.overlapsB other
    let first := lwr.getLast?.getD cur
    let lastE := rwr.getLast?.getD cur
    let lres :=
      if first.base < other.base then Range.from_base_limit first.base other.base
      else Range.emptyR
    let hres :=
      if other.last < lastE.last then Range.from_base_last ((other.last + 1) % W64) lastE.last
      else Range.emptyR
    let kept := keptPreRev.reverse ++ keptSuf
    let k1 := if lres.is_empty then kept else setInsert lres kept
    if hres.is_empty then k1 else setInsert hres k1

/-- `SparseRange::remove(Range)` on the sorted-list model.  The iterator
adjustment steps `repl_start` back when the lower bound is past-the-end or
fails to overlap `other` (and a predecessor exists). -/
def remove (l : List Range) (other : Range) : List Range :=
  if other.is_empty then l
  else
    match l with
    | [] => []
    | _ :: _ =>
      let A := l.takeWhile fun x => x.last < other.last
      match l.dropWhile fun x => x.last < other.last with
      | [] =>
        match A.reverse with
        | [] => l  -- unreachable: A = l is non-empty
        | aL :: restRev => removeGo other l restRev.reverse aL []
      | b :: bs =>
        if A.isEmpty then removeGo other l [] b bs
        else if b.overlapsB other then removeGo other l A b bs
        else
          match A.reverse with
          | [] => l  -- unreachable: A is non-empty here
          | aL :: restRev => removeGo other l restRev.reverse aL (b :: bs)

/-- `SparseRange::overlaps(Range)`: probe the lower-bound candidate and, if
needed, its predecessor. -/
def overlapsQ (l : List Range) (other : Range) : Bool :=
  if other.is_empty then false
  else
    let A := l.takeWhile fun x => x.last < other.last
    let B := l.dropWhile fun x => x.last < other.last
    (match B with
     | c :: _ => c.overlapsB other
     | [] => false) ||
    (match A.reverse with
     | p :: _ => p.overlapsB other
     | [] => false)

/-- `SparseRange::includes(Range)`: the unique candidate is the lower bound. -/
def includesQ (l : List Range) (other : Range) : Bool :=
  if other.is_empty then false
  else
    match l.dropWhile fun x => x.last < other.last with
    | c :: _ => c.includesB other
    | [] => false

/-- `SparseRange::includes(ptraddr_t addr)`:
`includes(Range::from_base_last(addr, addr))`. -/
def includesAddr (l : List Range) (addr : Nat) : Bool :=
  includesQ l (Range.from_base_last addr addr)

/-- `SparseRange::combine(SparseRange)`: combine every part in set order. -/
def combineAll (l : List Range) (parts : List Range) : List Range :=
  parts.foldl combine l

/-- `SparseRange::remove(std::set<Range> const&)`: remove every part in set
order. -/
def removeAll (l : List Range) (parts : List Range) : List Range :=
  parts.foldl remove l

/-- The `SparseRange` representation invariant on the sorted-list model:
every part is semantically non-empty and representable in 64 bits, and
consecutive parts are separated by a gap of at least one address (no
overlap, no adjacency); by transitivity the parts are strictly sorted. -/
def Wf (l : List Range) : Prop :=
  (∀ x ∈ l, x.ne ∧ x.wf) ∧ l.Chain' gapR

instance (l : List Range) : Decidable (Wf l) := by unfold Wf; infer_instance

/-- Semantic membership of an address in the union of the parts. -/
def covers (l : List Range) (a : Nat) : Prop := ∃ x ∈ l, x.memA a

instance (l : List Range) (a : Nat) : Decidable (covers l a) := by
  unfold covers; infer_instance

end SparseRange

/-! ## Basic arithmetic and Range lemmas -/

theorem W64_eq : W64 = 18446744073709551616 := by norm_num [W64]

theorem Range.is_empty_false_iff (r : Range) : r.is_empty = false ↔ r.ne := by
  simp [Range.is_empty, Range.ne, Nat.not_lt]

theorem Range.is_empty_true_iff (r : Range) : r.is_empty = true ↔ ¬ r.ne := by
  simp [Range.is_empty, Range.ne]

/-- The combinability test succeeds exactly when the two non-empty ranges
overlap or abut, i.e. when neither leaves a gap before the other. -/
theorem Range.touchB_iff {r s : Range} (hr : r.wf) (hs : s.wf) (hrne : r.ne)
    (hsne : s.ne) : r.touchB s = true ↔ r.base ≤ s.last + 1 ∧ s.base ≤ r.last + 1 := by
  obtain ⟨hr1, hr2⟩ := hr
  obtain ⟨hs1, hs2⟩ := hs
  have hW := W64_eq
  unfold Range.touchB Range.overlapsB Range.preceedsB Range.followsB Range.ne at *
  simp only [Bool.or_eq_true, Bool.and_eq_true, decide_eq_true_eq]
  rcases Nat.lt_or_ge (r.last + 1) W64 with h1 | h1
  · rw [Nat.mod_eq_of_lt h1]
    rcases Nat.lt_or_ge (s.last + 1) W64 with h2 | h2
    · rw [Nat.mod_eq_of_lt h2]; omega
    · have : s.last = W64 - 1 := by omega
      have : (s.last + 1) % W64 = 0 := by
        rw [this]; rw [Nat.sub_add_cancel (by omega), Nat.mod_self]
      rw [this]; omega
  · have : r.last = W64 - 1 := by omega
    have h3 : (r.last + 1) % W64 = 0 := by
      rw [this]; rw [Nat.sub_add_cancel (by omega), Nat.mod_self]
    rw [h3]
    rcases Nat.lt_or_ge (s.last + 1) W64 with h2 | h2
    · rw [Nat.mod_eq_of_lt h2]; omega
    · have : s.last = W64 - 1 := by omega
      have h4 : (s.last + 1) % W64 = 0 := by
        rw [this]; rw [Nat.sub_add_cancel (by omega), Nat.mod_self]
      rw [h4]; omega

theorem Range.mrg_ne {r s : Range} (hrne : r.ne) : (r.mrg s).ne := by
  unfold Range.ne Range.mrg at *; simp; omega

theorem Range.mrg_wf {r s : Range} (hr : r.wf) (hs : s.wf) : (r.mrg s).wf := by
  unfold Range.wf Range.mrg at *; simp; omega

/-- A touching merge is exact: the merged interval covers precisely the
union of the two inputs. -/
theorem Range.mrg_memA {r s : Range} (hrne : r.ne) (hsne : s.ne)
    (h1 : r.base ≤ s.last + 1) (h2 : s.base ≤ r.last + 1) (a : Nat) :
    (r.mrg s).memA a ↔ r.memA a ∨ s.memA a := by
  unfold Range.memA Range.mrg Range.ne at *; simp; omega

/-- Repeated merging, as performed along a `lwalk`/`rwalk`. -/
def Range.foldMrg (o : Range) (M : List Range) : Range := M.foldl Range.mrg o

@[simp] theorem Range.foldMrg_nil (o : Range) : o.foldMrg [] = o := rfl

@[simp] theorem Range.foldMrg_cons (o x : Range) (M : List Range) :
    o.foldMrg (x :: M) = (o.mrg x).foldMrg M := rfl

/-! ## List helper lemmas -/

theorem dropWhile_head_not {α : Type} (p : α → Bool) (l : List α) :
    ∀ x ∈ (l.dropWhile p).head?, p x = false := by
  induction l with
  | nil => simp [List.dropWhile]
  | cons y ys ih =>
    intro x hx
    rw [List.dropWhile_cons] at hx
    by_cases h : p y = true
    · rw [if_pos h] at hx
      exact ih x hx
    · rw [if_neg h] at hx
      simp only [List.head?_cons, Option.mem_def, Option.some.injEq] at hx
      subst hx
      exact Bool.eq_false_iff.mpr h

theorem chain'_gapR_pairwise {l : List Range} (hne : ∀ x ∈ l, x.ne)
    (hc : l.Chain' gapR) : l.Pairwise gapR := by
  induction l with
  | nil => simp
  | cons x xs ih =>
    rw [List.chain'_cons'] at hc
    refine List.pairwise_cons.mpr ⟨?_, ih (fun y hy => hne y (by simp [hy])) hc.2⟩
    intro y hy
    match xs, hy with
    | z :: t, hy =>
      have hxz : gapR x z := hc.1 z rfl
      have pxs := ih (fun y hy => hne y (by simp [hy])) hc.2
      rcases List.mem_cons.mp hy with h | h
      · exact h ▸ hxz
      · have hzy : gapR z y := (List.pairwise_cons.mp pxs).1 y h
        have hzne : z.ne := hne z (by simp)
        unfold gapR Range.ne at *
        omega

/-- In a gap-sorted list every element at or after one whose `last` is at
least `c` also has `last` at least `c`. -/
theorem gap_sorted_all_ge {B : List Range} (hp : B.Pairwise gapR)
    (hne : ∀ x ∈ B, x.ne) (c : Nat) (hhead : ∀ b ∈ B.head?, c ≤ b.last) :
    ∀ x ∈ B, c ≤ x.last := by
  match B with
  | [] => simp
  | b :: bs =>
    intro x hx
    have hb : c ≤ b.last := hhead b rfl
    rcases List.mem_cons.mp hx with h | h
    · exact h ▸ hb
    · have := (List.pairwise_cons.mp hp).1 x h
      have := hne x hx
      unfold gapR Range.ne at *
      omega

/-! ## Walk lemmas -/

theorem rwalk_cons (o x : Range) (xs : List Range) :
    rwalk o (x :: xs) = if o.touchB x = true then rwalk (o.mrg x) xs else (o, x :: xs) := by
  by_cases h : o.touchB x = true <;> simp [rwalk, Range.try_combine, h]

theorem lwalk_eq_rwalk (o : Range) (l : List Range) : lwalk o l = rwalk o l := by
  induction l generalizing o with
  | nil => rfl
  | cons x xs ih =>
    rw [rwalk_cons]
    by_cases h : o.touchB x = true <;> simp [lwalk, Range.try_combine, h, ih]

/-- Characterisation of `rwalk`: it consumes a prefix `M` of its input,
merging every consumed element into the accumulator (each merge being a
touching, hence exact-union, merge), and stops at the first element that
does not combine. -/
theorem rwalk_spec (B : List Range) (o : Range) (hone : o.ne) (howf : o.wf)
    (hB : ∀ x ∈ B, x.ne ∧ x.wf) :
    ∃ M K, B = M ++ K ∧ rwalk o B = (o.foldMrg M, K) ∧
      (o.foldMrg M).ne ∧ (o.foldMrg M).wf ∧
      o.last ≤ (o.foldMrg M).last ∧ (o.foldMrg M).base ≤ o.base ∧
      (∀ a, (o.foldMrg M).memA a ↔ o.memA a ∨ ∃ x ∈ M, x.memA a) ∧
      (∀ c, c < o.base → (∀ x ∈ M, c < x.base) → c < (o.foldMrg M).base) ∧
      (∀ c, o.last ≤ c → (∀ x ∈ M, x.last ≤ c) → (o.foldMrg M).last ≤ c) ∧
      (∀ z ∈ K.head?, (o.foldMrg M).touchB z = false) := by
  induction B generalizing o with
  | nil =>
    exact ⟨[], [], rfl, rfl, hone, howf, le_refl _, le_refl _,
      by simp [Range.memA], fun c hc _ => hc, fun c hc _ => hc, by simp⟩
  | cons x xs ih =>
    have hxne : x.ne := (hB x (by simp)).1
    have hxwf : x.wf := (hB x (by simp)).2
    by_cases ht : o.touchB x = true
    · have hstep : rwalk o (x :: xs) = rwalk (o.mrg x) xs := by
        rw [rwalk_cons, if_pos ht]
      have htc := (Range.touchB_iff howf hxwf hone hxne).mp ht
      obtain ⟨M, K, hsplit, heq, hne', hwf', hlast, hbase, hmem, hlb, hub, hstop⟩ :=
        ih (o.mrg x) (Range.mrg_ne hone) (Range.mrg_wf howf hxwf)
          (fun y hy => hB y (by simp [hy]))
      refine ⟨x :: M, K, by simp [hsplit], by rw [hstep, heq]; rfl, hne', hwf',
        ?_, ?_, ?_, ?_, ?_, ?_⟩
      · calc o.last ≤ (o.mrg x).last := by unfold Range.mrg; simp
          _ ≤ _ := hlast
      · calc (Range.foldMrg (o.mrg x) M).base ≤ (o.mrg x).base := hbase
          _ ≤ o.base := by unfold Range.mrg; simp
      · intro a
        rw [show Range.foldMrg o (x :: M) = Range.foldMrg (o.mrg x) M from rfl, hmem a,
          Range.mrg_memA hone hxne htc.1 htc.2 a]
        constructor
        · rintro (⟨h | h⟩ | ⟨y, hy, h⟩)
          · exact Or.inl h
          · exact Or.inr ⟨x, by simp, h⟩
          · exact Or.inr ⟨y, by simp [hy], h⟩
        · rintro (h | ⟨y, hy, h⟩)
          · exact Or.inl (Or.inl h)
          · rcases List.mem_cons.mp hy with rfl | hy
            · exact Or.inl (Or.inr h)
            · exact Or.inr ⟨y, hy, h⟩
      · intro c hc hall
        refine hlb c ?_ (fun y hy => hall y (by simp [hy]))
        have := hall x (by simp)
        unfold Range.mrg; simp; omega
      · intro c hc hall
        refine hub c ?_ (fun y hy => hall y (by simp [hy]))
        have := hall x (by simp)
        unfold Range.mrg; simp; omega
      · exact hstop
    · have hstep : rwalk o (x :: xs) = (o, x :: xs) := by
        rw [rwalk_cons, if_neg ht]
      refine ⟨[], x :: xs, rfl, by rw [hstep]; rfl, hone, howf, le_refl _, le_refl _,
        by simp [Range.memA], fun c hc _ => hc, fun c hc _ => hc, ?_⟩
      intro z hz
      simp at hz
      subst hz
      simpa using ht

/-! ## Assembly lemmas -/

theorem covers_append (P S : List Range) (a : Nat) :
    SparseRange.covers (P ++ S) a ↔ SparseRange.covers P a ∨ SparseRange.covers S a := by
  unfold SparseRange.covers
  constructor
  · rintro ⟨x, hx, hm⟩
    rcases List.mem_append.mp hx with h | h
    · exact Or.inl ⟨x, h, hm⟩
    · exact Or.inr ⟨x, h, hm⟩
  · rintro (⟨x, hx, hm⟩ | ⟨x, hx, hm⟩)
    · exact ⟨x, List.mem_append.mpr (Or.inl hx), hm⟩
    · exact ⟨x, List.mem_append.mpr (Or.inr hx), hm⟩

theorem covers_reverse (P : List Range) (a : Nat) :
    SparseRange.covers P.reverse a ↔ SparseRange.covers P a := by
  unfold SparseRange.covers
  simp

theorem covers_cons (x : Range) (S : List Range) (a : Nat) :
    SparseRange.covers (x :: S) a ↔ x.memA a ∨ SparseRange.covers S a := by
  unfold SparseRange.covers
  simp

@[simp] theorem covers_nil (a : Nat) : ¬ SparseRange.covers [] a := by
  unfold SparseRange.covers; simp

theorem setInsert_middle (m : Range) (P S : List Range)
    (hP : ∀ x ∈ P, x.last < m.last) (hS : ∀ z ∈ S.head?, m.last < z.last) :
    setInsert m (P ++ S) = P ++ m :: S := by
  induction P with
  | nil =>
    match S with
    | [] => rfl
    | z :: zs =>
      have := hS z rfl
      simp [setInsert, this]
  | cons x P' ih =>
    have hx := hP x (by simp)
    have h1 : ¬ m.last < x.last := by omega
    simp only [List.cons_append, setInsert, if_neg h1, if_pos hx, List.append_eq]
    rw [ih (fun y hy => hP y (by simp [hy]))]

/-- In a gap-sorted list of non-empty ranges that all sit left of `m` (the
final one with a gap), every `last` is strictly below `m.last`. -/
theorem all_last_lt_of_gapLast {P : List Range} {m : Range}
    (hne : ∀ x ∈ P, x.ne) (hPc : P.Pairwise gapR)
    (hgl : ∀ y ∈ P.getLast?, gapR y m) (hmne : m.ne) :
    ∀ x ∈ P, x.last < m.last := by
  rcases hP : P with _ | ⟨q, qs⟩
  · simp
  · subst hP
    have hnil : q :: qs ≠ [] := by simp
    have hlast : gapR ((q :: qs).getLast hnil) m := by
      refine hgl _ ?_
      rw [List.getLast?_eq_getLast _ hnil]
      rfl
    have hdec := List.dropLast_append_getLast hnil
    intro x hx
    rw [← hdec] at hx hPc
    rcases List.mem_append.mp hx with h | h
    · have hg1 := (List.pairwise_append.mp hPc).2.2 x h ((q :: qs).getLast hnil) (by simp)
      have hgne : ((q :: qs).getLast hnil).ne := hne _ (List.getLast_mem hnil)
      unfold gapR Range.ne at *
      omega
    · simp at h
      subst h
      unfold gapR Range.ne at *
      omega

/-- Put the absorbed range `m` back between the kept prefix and suffix:
the `std::set` insert lands exactly there, and the result satisfies the
representation invariant. -/
theorem assemble (P : List Range) (m : Range) (S : List Range)
    (hPw : ∀ x ∈ P, x.ne ∧ x.wf) (hPc : P.Chain' gapR)
    (hgl : ∀ y ∈ P.getLast?, gapR y m)
    (hmne : m.ne) (hmwf : m.wf)
    (hgr : ∀ z ∈ S.head?, gapR m z)
    (hSc : S.Chain' gapR) (hSw : ∀ x ∈ S, x.ne ∧ x.wf) :
    setInsert m (P ++ S) = P ++ m :: S ∧ SparseRange.Wf (P ++ m :: S) := by
  have hPpw : P.Pairwise gapR :=
    chain'_gapR_pairwise (fun x hx => (hPw x hx).1) hPc
  have hPlt : ∀ x ∈ P, x.last < m.last :=
    all_last_lt_of_gapLast (fun x hx => (hPw x hx).1) hPpw hgl hmne
  have hSlt : ∀ z ∈ S.head?, m.last < z.last := by
    intro z hz
    have h1 := hgr z hz
    have h2 : z.ne := (hSw z (List.mem_of_mem_head? hz)).1
    unfold gapR Range.ne at *
    omega
  refine ⟨setInsert_middle m P S hPlt hSlt, ?_, ?_⟩
  · intro x hx
    rcases List.mem_append.mp hx with h | h
    · exact hPw x h
    · rcases List.mem_cons.mp h with rfl | h
      · exact ⟨hmne, hmwf⟩
      · exact hSw x h
  · rw [List.chain'_append]
    refine ⟨hPc, ?_, ?_⟩
    · rw [List.chain'_cons']
      exact ⟨hgr, hSc⟩
    · intro y hy z hz
      simp at hz
      subst hz
      exact hgl y hy

/-- A failed combinability test against a range known to end at or below the
accumulator leaves a gap on the left. -/
theorem gap_left_of_not_touch {o y : Range} (ho : o.ne) (how : o.wf)
    (hy : y.ne) (hyw : y.wf) (hle : y.last ≤ o.last)
    (hnt : o.touchB y = false) : y.last + 1 < o.base := by
  have h := (Range.touchB_iff how hyw ho hy).not.mp (by simp [hnt])
  unfold Range.ne at *
  omega

/-- A failed combinability test against a range known to begin at or above
the accumulator's base leaves a gap on the right. -/
theorem gap_right_of_not_touch {o z : Range} (ho : o.ne) (how : o.wf)
    (hz : z.ne) (hzw : z.wf) (hge : o.base ≤ z.last + 1)
    (hnt : o.touchB z = false) : o.last + 1 < z.base := by
  have h := (Range.touchB_iff how hzw ho hz).not.mp (by simp [hnt])
  unfold Range.ne at *
  omega

/-- Facts about the `lower_bound` split of a well-formed sparse range list at
threshold `c`: the prefix is exactly the parts ending below `c`, the suffix
the parts ending at or above it, each side inherits the chain, and every
prefix part gaps every suffix part. -/
theorem split_facts (l : List Range) (c : Nat) (hw : ∀ x ∈ l, x.ne)
    (hc : l.Chain' gapR) :
    (∀ x ∈ l.takeWhile (fun x => x.last < c), x.last < c) ∧
    (∀ x ∈ l.dropWhile (fun x => x.last < c), c ≤ x.last) ∧
    (l.takeWhile (fun x => x.last < c)).Chain' gapR ∧
    (l.dropWhile (fun x => x.last < c)).Chain' gapR ∧
    (∀ x ∈ l.takeWhile (fun x => x.last < c),
      ∀ y ∈ l.dropWhile (fun x => x.last < c), gapR x y) := by
  have hAB : (l.takeWhile (fun x => x.last < c)) ++ (l.dropWhile (fun x => x.last < c)) = l :=
    List.takeWhile_append_dropWhile _ _
  have hcc := hc
  rw [← hAB] at hcc
  have hpw : l.Pairwise gapR := chain'_gapR_pairwise hw hc
  have hpwc := hpw
  rw [← hAB] at hpwc
  have hBsub : ∀ x ∈ l.dropWhile (fun x => x.last < c), x ∈ l := by
    intro x hx
    rw [← hAB]
    exact List.mem_append.mpr (Or.inr hx)
  refine ⟨?_, ?_, (List.chain'_append.mp hcc).1, (List.chain'_append.mp hcc).2.1,
    (List.pairwise_append.mp hpwc).2.2⟩
  · intro x hx
    have := List.mem_takeWhile_imp hx
    simpa using this
  · refine gap_sorted_all_ge ((List.pairwise_append.mp hpwc).2.1)
      (fun x hx => hw x (hBsub x hx)) c ?_
    intro b hb
    have := dropWhile_head_not (fun x => decide (x.last < c)) l b hb
    simpa using this

theorem SparseRange.combine_empty (l : List Range) (r : Range)
    (h : r.is_empty = true) : SparseRange.combine l r = l := by
  unfold SparseRange.combine
  rw [h]
  rfl

theorem SparseRange.combine_eq_go (l : List Range) (r : Range)
    (hne : r.is_empty = false) (hl : l ≠ []) :
    SparseRange.combine l r =
      SparseRange.combineGo r (l.takeWhile fun x => x.last < r.last)
        (l.dropWhile fun x => x.last < r.last) := by
  unfold SparseRange.combine
  rw [hne]
  match l, hl with
  | x :: xs, _ => rfl

theorem covers_iff_exists (M : List Range) (a : Nat) :
    SparseRange.covers M a ↔ ∃ x ∈ M, x.memA a := Iff.rfl

/-- Master correctness lemma for `SparseRange::combine` with a non-empty
range: the result is an untouched prefix and suffix around a single
absorbed range that includes `r`, it satisfies the representation
invariant, and it covers exactly the union of the old parts and `r`. -/
theorem combine_master (l : List Range) (r : Range) (hWf : SparseRange.Wf l)
    (hrwf : r.wf) (hrne : r.ne) :
    ∃ P m S, SparseRange.combine l r = P ++ m :: S ∧ SparseRange.Wf (P ++ m :: S) ∧
      m.includesB r = true ∧
      (∀ a, SparseRange.covers (P ++ m :: S) a ↔ SparseRange.covers l a ∨ r.memA a) := by
  obtain ⟨hparts, hchain⟩ := hWf
  have hre : r.is_empty = false := (Range.is_empty_false_iff r).mpr hrne
  by_cases hlnil : l = []
  · subst hlnil
    refine ⟨[], r, [], ?_, ?_, ?_, ?_⟩
    · rw [SparseRange.combine, hre]
      rfl
    · exact ⟨fun x hx => by simp at hx; subst hx; exact ⟨hrne, hrwf⟩, by simp⟩
    · simp [Range.includesB]
    · intro a
      rw [List.nil_append, covers_cons]
      simp
  · have hgo := SparseRange.combine_eq_go l r hre hlnil
    have hneW : ∀ x ∈ l, x.ne := fun x hx => (hparts x hx).1
    have hwfW : ∀ x ∈ l, x.wf := fun x hx => (hparts x hx).2
    obtain ⟨hAlt, hBge, hAc, hBc, hABgap⟩ := split_facts l r.last hneW hchain
    set A := l.takeWhile (fun x => x.last < r.last) with hAdef
    set B := l.dropWhile (fun x => x.last < r.last) with hBdef
    have hAB : A ++ B = l := List.takeWhile_append_dropWhile _ _
    have hAmem : ∀ x ∈ A, x ∈ l := by
      intro x hx
      rw [← hAB]
      exact List.mem_append.mpr (Or.inl hx)
    have hBmem : ∀ x ∈ B, x ∈ l := by
      intro x hx
      rw [← hAB]
      exact List.mem_append.mpr (Or.inr hx)
    have hApw : A.Pairwise gapR := chain'_gapR_pairwise (fun x hx => hneW x (hAmem x hx)) hAc
    cases hBv : B with
    | nil =>
      -- lower_bound() == end().
      have hAl : A = l := by rw [← hAB, hBv, List.append_nil]
      have hAne : A ≠ [] := by rw [hAl]; exact hlnil
      cases hAr : A.reverse with
      | nil => exact absurd (List.reverse_eq_nil_iff.mp hAr) hAne
      | cons aL restRev =>
        have hAdec : A = restRev.reverse ++ [aL] := by
          rw [← List.reverse_reverse A, hAr, List.reverse_cons]
        have hrestA : ∀ x ∈ restRev, x ∈ A := by
          intro x hx
          rw [hAdec]
          exact List.mem_append.mpr (Or.inl (List.mem_reverse.mpr hx))
        have haLA : aL ∈ A := by rw [hAdec]; simp
        have haLne : aL.ne := hneW aL (hAmem _ haLA)
        have haLwf : aL.wf := hwfW aL (hAmem _ haLA)
        have haLlt : aL.last < r.last := hAlt aL haLA
        have hgapAL : ∀ y ∈ restRev, gapR y aL := by
          intro y hy
          have hpw2 := hApw
          rw [hAdec] at hpw2
          exact (List.pairwise_append.mp hpw2).2.2 y (List.mem_reverse.mpr hy) aL (by simp)
        obtain ⟨M1, K1, hsplit1, heq1, ho1ne, ho1wf, ho1last, ho1base, ho1mem, ho1lb, ho1ub,
          hstop1⟩ := rwalk_spec restRev r hrne hrwf
            (fun x hx => ⟨hneW x (hAmem x (hrestA x hx)), hwfW x (hAmem x (hrestA x hx))⟩)
        simp only [← covers_iff_exists] at ho1mem
        have hM1rest : ∀ x ∈ M1, x ∈ restRev := by
          intro x hx
          rw [hsplit1]
          exact List.mem_append.mpr (Or.inl hx)
        have hK1rest : ∀ x ∈ K1, x ∈ restRev := by
          intro x hx
          rw [hsplit1]
          exact List.mem_append.mpr (Or.inr hx)
        have hlw : lwalk r restRev = (r.foldMrg M1, K1) := by
          rw [lwalk_eq_rwalk]
          exact heq1
        have hgoEq : SparseRange.combineGo r A B =
            setInsert (rwalk (r.foldMrg M1) [aL]).1
              (K1.reverse ++ (rwalk (r.foldMrg M1) [aL]).2) := by
          rw [hBv]
          simp only [SparseRange.combineGo, hAr, hlw]
        have hArr : A = K1.reverse ++ (M1.reverse ++ [aL]) := by
          rw [hAdec, hsplit1, List.reverse_append, List.append_assoc]
        have hPw : ∀ x ∈ K1.reverse, x.ne ∧ x.wf := by
          intro x hx
          have := hK1rest x (List.mem_reverse.mp hx)
          exact ⟨hneW x (hAmem x (hrestA x this)), hwfW x (hAmem x (hrestA x this))⟩
        have hPc : K1.reverse.Chain' gapR := by
          have hc2 := hAc
          rw [hArr] at hc2
          exact (List.chain'_append.mp hc2).1
        by_cases htA : (r.foldMrg M1).touchB aL = true
        · -- aL absorbed by the right-moving loop
          have hrw : rwalk (r.foldMrg M1) [aL] = ((r.foldMrg M1).mrg aL, []) := by
            rw [rwalk_cons, if_pos htA]
            rfl
          have hgl : ∀ y ∈ K1.reverse.getLast?, gapR y ((r.foldMrg M1).mrg aL) := by
            intro y hy
            rw [List.getLast?_reverse] at hy
            have hyK1 : y ∈ K1 := List.mem_of_mem_head? hy
            have hyA : y ∈ A := hrestA y (hK1rest y hyK1)
            have hygap : y.last + 1 < (r.foldMrg M1).base :=
              gap_left_of_not_touch ho1ne ho1wf (hneW y (hAmem y hyA)) (hwfW y (hAmem y hyA))
                (le_trans (le_of_lt (hAlt y hyA)) ho1last) (hstop1 y hy)
            have hyaL := hgapAL y (hK1rest y hyK1)
            show y.last + 1 < min (r.foldMrg M1).base aL.base
            unfold gapR at hyaL
            omega
          obtain ⟨hins, hWfR⟩ := assemble K1.reverse ((r.foldMrg M1).mrg aL) [] hPw hPc hgl
            (Range.mrg_ne ho1ne) (Range.mrg_wf ho1wf haLwf) (by simp) (by simp) (by simp)
          refine ⟨K1.reverse, (r.foldMrg M1).mrg aL, [], ?_, hWfR, ?_, ?_⟩
          · rw [hgo, hgoEq, hrw]
            exact hins
          · have h1 : ((r.foldMrg M1).mrg aL).base ≤ r.base :=
              le_trans (by unfold Range.mrg; simp) ho1base
            have h2 : r.last ≤ ((r.foldMrg M1).mrg aL).last :=
              le_trans ho1last (by unfold Range.mrg; simp)
            unfold Range.includesB
            simp only [Bool.and_eq_true, decide_eq_true_eq]
            exact ⟨h1, h2⟩
          · intro a
            have htc := (Range.touchB_iff ho1wf haLwf ho1ne haLne).mp htA
            have hmm := Range.mrg_memA ho1ne haLne htc.1 htc.2 a
            have ho1m := ho1mem a
            rw [covers_append, covers_cons, covers_reverse]
            have hlcov : SparseRange.covers l a ↔ SparseRange.covers A a := by rw [hAl]
            have hAcov : SparseRange.covers A a ↔
                SparseRange.covers restRev a ∨ aL.memA a := by
              rw [hAdec, covers_append, covers_reverse, covers_cons]
              simp
            have hrest : SparseRange.covers restRev a ↔
                SparseRange.covers M1 a ∨ SparseRange.covers K1 a := by
              rw [hsplit1, covers_append]
            rw [hlcov, hAcov, hrest]
            simp only [covers_nil, or_false]
            rw [hmm, ho1m]
            generalize SparseRange.covers K1 a = p1
            generalize SparseRange.covers M1 a = p2
            generalize r.memA a = p3
            generalize aL.memA a = p4
            clear * - p1 p2 p3 p4
            tauto
        · -- aL kept: the left-moving loop consumed nothing
          have htAf : (r.foldMrg M1).touchB aL = false := (Bool.not_eq_true _).mp htA
          have hM1nil : M1 = [] := by
            cases hM1 : M1 with
            | nil => rfl
            | cons x0 M1' =>
              exfalso
              have hx0M1 : x0 ∈ M1 := by rw [hM1]; simp
              have hx0rest := hM1rest x0 hx0M1
              have hx0A : x0 ∈ A := hrestA x0 hx0rest
              have hx0ne : x0.ne := hneW x0 (hAmem _ hx0A)
              have hgap0 : gapR x0 aL := hgapAL x0 hx0rest
              have hmem0 : (r.foldMrg M1).memA x0.base :=
                (ho1mem x0.base).mpr (Or.inr
                  (show SparseRange.covers M1 x0.base from ⟨x0, hx0M1, le_refl _, hx0ne⟩))
              have hnt : aL.last + 1 < (r.foldMrg M1).base :=
                gap_left_of_not_touch ho1ne ho1wf haLne haLwf
                  (le_trans (le_of_lt haLlt) ho1last) htAf
              have hb0 : (r.foldMrg M1).base ≤ x0.base := hmem0.1
              unfold gapR Range.ne at *
              omega
          subst hM1nil
          have hK1v : K1 = restRev := by simpa using hsplit1.symm
          simp only [Range.foldMrg_nil] at htAf hgoEq
          have hrw : rwalk r [aL] = (r, [aL]) := by
            rw [rwalk_cons, if_neg (by simp [htAf])]
          have hgl : ∀ y ∈ A.getLast?, gapR y r := by
            intro y hy
            rw [hAdec, List.getLast?_concat] at hy
            simp at hy
            subst hy
            exact gap_left_of_not_touch hrne hrwf haLne haLwf (le_of_lt haLlt) htAf
          obtain ⟨hins, hWfR⟩ := assemble A r []
            (fun x hx => ⟨hneW x (hAmem x hx), hwfW x (hAmem x hx)⟩) hAc hgl hrne hrwf
            (by simp) (by simp) (by simp)
          have hins2 : setInsert r (restRev.reverse ++ [aL]) = A ++ [r] := by
            rw [← hAdec]
            simpa using hins
          refine ⟨A, r, [], ?_, hWfR, ?_, ?_⟩
          · rw [hgo, hgoEq, hrw]
            show setInsert r (K1.reverse ++ [aL]) = A ++ [r]
            rw [hK1v]
            exact hins2
          · simp [Range.includesB]
          · intro a
            rw [covers_append, covers_cons, hAl]
            simp
    | cons b bs =>
      have hbB : b ∈ B := by rw [hBv]; simp
      have hbne : b.ne := hneW b (hBmem b hbB)
      have hbwf : b.wf := hwfW b (hBmem b hbB)
      have hbge : r.last ≤ b.last := hBge b hbB
      by_cases hAe : A = []
      · -- lower_bound() == begin()
        have hBl : B = l := by rw [← hAB, hAe, List.nil_append]
        obtain ⟨M2, K2, hsplit2, heq2, hmne, hmwf, hmlast, hmbase, hmmem, hmlb, hmub, hstop2⟩ :=
          rwalk_spec (b :: bs) r hrne hrwf
            (fun x hx => ⟨hneW x (hBmem x (hBv ▸ hx)), hwfW x (hBmem x (hBv ▸ hx))⟩)
        simp only [← covers_iff_exists] at hmmem
        have hgoEq : SparseRange.combineGo r A B =
            setInsert (r.foldMrg M2) K2 := by
          rw [hBv, hAe]
          simp only [SparseRange.combineGo, List.isEmpty_nil, if_true]
          rw [heq2]
        have hK2B : ∀ x ∈ K2, x ∈ B := by
          intro x hx
          rw [hBv, hsplit2]
          exact List.mem_append.mpr (Or.inr hx)
        have hM2B : ∀ x ∈ M2, x ∈ B := by
          intro x hx
          rw [hBv, hsplit2]
          exact List.mem_append.mpr (Or.inl hx)
        have hgr : ∀ z ∈ K2.head?, gapR (r.foldMrg M2) z := by
          intro z hz
          have hzB := hK2B z (List.mem_of_mem_head? hz)
          exact gap_right_of_not_touch hmne hmwf (hneW z (hBmem z hzB)) (hwfW z (hBmem z hzB))
            (by have := hBge z hzB; unfold Range.ne at hrne; omega) (hstop2 z hz)
        have hSc : K2.Chain' gapR := by
          have hc2 := hBc
          rw [hBv, hsplit2] at hc2
          exact (List.chain'_append.mp hc2).2.1
        obtain ⟨hins, hWfR⟩ := assemble [] (r.foldMrg M2) K2 (by simp) (by simp) (by simp)
          hmne hmwf hgr hSc
          (fun x hx => ⟨hneW x (hBmem x (hK2B x hx)), hwfW x (hBmem x (hK2B x hx))⟩)
        refine ⟨[], r.foldMrg M2, K2, ?_, hWfR, ?_, ?_⟩
        · rw [hgo, hgoEq]
          simpa using hins
        · unfold Range.includesB
          simp only [Bool.and_eq_true, decide_eq_true_eq]
          exact ⟨hmbase, hmlast⟩
        · intro a
          have hmm := hmmem a
          rw [List.nil_append, covers_cons]
          have hlcov : SparseRange.covers l a ↔
              SparseRange.covers M2 a ∨ SparseRange.covers K2 a := by
            rw [← hBl, hBv, hsplit2, covers_append]
          rw [hlcov, hmm]
          generalize SparseRange.covers M2 a = p1
          generalize SparseRange.covers K2 a = p2
          generalize r.memA a = p3
          clear * - p1 p2 p3
          tauto
      · -- a predecessor exists
        have hAe' : A.isEmpty = false := by
          cases hA2 : A with
          | nil => exact absurd hA2 hAe
          | cons x xs => rfl
        cases hAr : A.reverse with
        | nil => exact absurd (List.reverse_eq_nil_iff.mp hAr) hAe
        | cons aL restRev =>
          have hAdec : A = restRev.reverse ++ [aL] := by
            rw [← List.reverse_reverse A, hAr, List.reverse_cons]
          have hrestA : ∀ x ∈ restRev, x ∈ A := by
            intro x hx
            rw [hAdec]
            exact List.mem_append.mpr (Or.inl (List.mem_reverse.mpr hx))
          have haLA : aL ∈ A := by rw [hAdec]; simp
          have haLne : aL.ne := hneW aL (hAmem _ haLA)
          have haLwf : aL.wf := hwfW aL (hAmem _ haLA)
          have haLlt : aL.last < r.last := hAlt aL haLA
          have hgapAL : ∀ y ∈ restRev, gapR y aL := by
            intro y hy
            have hpw2 := hApw
            rw [hAdec] at hpw2
            exact (List.pairwise_append.mp hpw2).2.2 y (List.mem_reverse.mpr hy) aL (by simp)
          by_cases htb : r.touchB b = true
          · -- the lower bound combines immediately
            have htry : r.try_combine b = (true, r.mrg b) := by
              rw [Range.try_combine, if_pos htb]
            have htcb := (Range.touchB_iff hrwf hbwf hrne hbne).mp htb
            obtain ⟨M1, K1, hsplit1, heq1, ho2ne, ho2wf, ho2last, ho2base, ho2mem, ho2lb,
              ho2ub, hstop1⟩ := rwalk_spec A.reverse (r.mrg b) (Range.mrg_ne hrne)
                (Range.mrg_wf hrwf hbwf)
                (fun x hx => ⟨hneW x (hAmem x (List.mem_reverse.mp hx)),
                  hwfW x (hAmem x (List.mem_reverse.mp hx))⟩)
            simp only [← covers_iff_exists] at ho2mem
            have hlw : lwalk (r.mrg b) A.reverse = ((r.mrg b).foldMrg M1, K1) := by
              rw [lwalk_eq_rwalk]
              exact heq1
            have hM1A : ∀ x ∈ M1, x ∈ A := by
              intro x hx
              refine List.mem_reverse.mp ?_
              rw [hsplit1]
              exact List.mem_append.mpr (Or.inl hx)
            have hK1A : ∀ x ∈ K1, x ∈ A := by
              intro x hx
              refine List.mem_reverse.mp ?_
              rw [hsplit1]
              exact List.mem_append.mpr (Or.inr hx)
            obtain ⟨M2, K2, hsplit2, heq2, hmne, hmwf, hmlast, hmbase, hmmem, hmlb, hmub,
              hstop2⟩ := rwalk_spec (b :: bs) ((r.mrg b).foldMrg M1) ho2ne ho2wf
                (fun x hx => ⟨hneW x (hBmem x (hBv ▸ hx)), hwfW x (hBmem x (hBv ▸ hx))⟩)
            simp only [← covers_iff_exists] at hmmem
            have hM2B : ∀ x ∈ M2, x ∈ B := by
              intro x hx
              rw [hBv, hsplit2]
              exact List.mem_append.mpr (Or.inl hx)
            have hK2B : ∀ x ∈ K2, x ∈ B := by
              intro x hx
              rw [hBv, hsplit2]
              exact List.mem_append.mpr (Or.inr hx)
            have hgoEq : SparseRange.combineGo r A B =
                setInsert (((r.mrg b).foldMrg M1).foldMrg M2) (K1.reverse ++ K2) := by
              rw [hBv]
              simp only [SparseRange.combineGo, hAe', Bool.false_eq_true, if_false, htry,
                hlw, heq2]
            have hArr : A = K1.reverse ++ M1.reverse := by
              rw [← List.reverse_reverse A, hsplit1, List.reverse_append]
            have hPw : ∀ x ∈ K1.reverse, x.ne ∧ x.wf := by
              intro x hx
              have := hK1A x (List.mem_reverse.mp hx)
              exact ⟨hneW x (hAmem x this), hwfW x (hAmem x this)⟩
            have hPc : K1.reverse.Chain' gapR := by
              have hc2 := hAc
              rw [hArr] at hc2
              exact (List.chain'_append.mp hc2).1
            have hgl : ∀ y ∈ K1.reverse.getLast?,
                gapR y (((r.mrg b).foldMrg M1).foldMrg M2) := by
              intro y hy
              rw [List.getLast?_reverse] at hy
              have hyK1 : y ∈ K1 := List.mem_of_mem_head? hy
              have hyA : y ∈ A := hK1A y hyK1
              have hygap : y.last + 1 < ((r.mrg b).foldMrg M1).base :=
                gap_left_of_not_touch ho2ne ho2wf (hneW y (hAmem y hyA)) (hwfW y (hAmem y hyA))
                  (by
                    have h1 := hAlt y hyA
                    have h2 : r.last ≤ (r.mrg b).last := by unfold Range.mrg; simp
                    omega)
                  (hstop1 y hy)
              refine hmlb (y.last + 1) hygap ?_
              intro x hx
              exact hABgap y hyA x (hM2B x hx)
            have hgr : ∀ z ∈ K2.head?, gapR (((r.mrg b).foldMrg M1).foldMrg M2) z := by
              intro z hz
              have hzB := hK2B z (List.mem_of_mem_head? hz)
              refine gap_right_of_not_touch hmne hmwf (hneW z (hBmem z hzB))
                (hwfW z (hBmem z hzB)) ?_ (hstop2 z hz)
              have h1 : (((r.mrg b).foldMrg M1).foldMrg M2).base ≤ r.base := by
                refine le_trans (le_trans hmbase ho2base) ?_
                unfold Range.mrg
                simp
              have h2 := hBge z hzB
              unfold Range.ne at hrne
              omega
            have hSc : K2.Chain' gapR := by
              have hc2 := hBc
              rw [hBv, hsplit2] at hc2
              exact (List.chain'_append.mp hc2).2.1
            obtain ⟨hins, hWfR⟩ := assemble K1.reverse (((r.mrg b).foldMrg M1).foldMrg M2) K2
              hPw hPc hgl hmne hmwf hgr hSc
              (fun x hx => ⟨hneW x (hBmem x (hK2B x hx)), hwfW x (hBmem x (hK2B x hx))⟩)
            refine ⟨K1.reverse, ((r.mrg b).foldMrg M1).foldMrg M2, K2, ?_, hWfR, ?_, ?_⟩
            · rw [hgo, hgoEq]
              exact hins
            · unfold Range.includesB
              simp only [Bool.and_eq_true, decide_eq_true_eq]
              constructor
              · refine le_trans (le_trans hmbase ho2base) ?_
                unfold Range.mrg
                simp
              · refine le_trans ?_ (le_trans ho2last hmlast)
                unfold Range.mrg
                simp
            · intro a
              have hmm := hmmem a
              have ho2m := ho2mem a
              have hrb := Range.mrg_memA hrne hbne htcb.1 htcb.2 a
              rw [covers_append, covers_cons, covers_reverse]
              have hlcov : SparseRange.covers l a ↔
                  SparseRange.covers A a ∨ SparseRange.covers B a := by
                rw [← hAB, covers_append]
              have hAcov : SparseRange.covers A a ↔
                  SparseRange.covers K1 a ∨ SparseRange.covers M1 a := by
                rw [hArr, covers_append, covers_reverse, covers_reverse]
              have hBcov : SparseRange.covers B a ↔
                  SparseRange.covers M2 a ∨ SparseRange.covers K2 a := by
                rw [hBv, hsplit2, covers_append]
              have hbcovB : b.memA a → SparseRange.covers B a := by
                intro h
                exact ⟨b, hbB, h⟩
              have hbcov2 : b.memA a → SparseRange.covers M2 a ∨ SparseRange.covers K2 a :=
                fun h => hBcov.mp (hbcovB h)
              rw [hlcov, hAcov, hBcov, hmm, ho2m, hrb]
              revert hbcov2
              generalize SparseRange.covers K1 a = p1
              generalize SparseRange.covers M1 a = p2
              generalize SparseRange.covers M2 a = p3
              generalize SparseRange.covers K2 a = p4
              generalize r.memA a = p5
              generalize b.memA a = p6
              clear * - p1 p2 p3 p4 p5 p6
              tauto
          · -- the lower bound does not combine: step back to aL
            have htbf : r.touchB b = false := (Bool.not_eq_true _).mp htb
            have htry : r.try_combine b = (false, r) := by
              rw [Range.try_combine, if_neg (by simp [htbf])]
            have hbgap : r.last + 1 < b.base :=
              gap_right_of_not_touch hrne hrwf hbne hbwf
                (by unfold Range.ne at hrne; omega) htbf
            obtain ⟨M1, K1, hsplit1, heq1, ho1ne, ho1wf, ho1last, ho1base, ho1mem, ho1lb,
              ho1ub, hstop1⟩ := rwalk_spec restRev r hrne hrwf
                (fun x hx => ⟨hneW x (hAmem x (hrestA x hx)), hwfW x (hAmem x (hrestA x hx))⟩)
            simp only [← covers_iff_exists] at ho1mem
            have hM1rest : ∀ x ∈ M1, x ∈ restRev := by
              intro x hx
              rw [hsplit1]
              exact List.mem_append.mpr (Or.inl hx)
            have hK1rest : ∀ x ∈ K1, x ∈ restRev := by
              intro x hx
              rw [hsplit1]
              exact List.mem_append.mpr (Or.inr hx)
            have hlw : lwalk r restRev = (r.foldMrg M1, K1) := by
              rw [lwalk_eq_rwalk]
              exact heq1
            have hgoEq : SparseRange.combineGo r A B =
                setInsert (rwalk (r.foldMrg M1) (aL :: B)).1
                  (K1.reverse ++ (rwalk (r.foldMrg M1) (aL :: B)).2) := by
              rw [hBv]
              simp only [SparseRange.combineGo, hAe', Bool.false_eq_true, if_false, htry,
                hAr, hlw]
            have ho1ub' : (r.foldMrg M1).last = r.last := by
              refine le_antisymm (ho1ub r.last (le_refl _) ?_) ho1last
              intro x hx
              exact le_of_lt (hAlt x (hrestA x (hM1rest x hx)))
            have hArr : A = K1.reverse ++ (M1.reverse ++ [aL]) := by
              rw [hAdec, hsplit1, List.reverse_append, List.append_assoc]
            have hPw : ∀ x ∈ K1.reverse, x.ne ∧ x.wf := by
              intro x hx
              have := hK1rest x (List.mem_reverse.mp hx)
              exact ⟨hneW x (hAmem x (hrestA x this)), hwfW x (hAmem x (hrestA x this))⟩
            have hPc : K1.reverse.Chain' gapR := by
              have hc2 := hAc
              rw [hArr] at hc2
              exact (List.chain'_append.mp hc2).1
            by_cases htA : (r.foldMrg M1).touchB aL = true
            · -- aL absorbed, then the walk stops at b
              have hm0last : ((r.foldMrg M1).mrg aL).last = r.last := by
                unfold Range.mrg
                simp only
                omega
              have hntb : ((r.foldMrg M1).mrg aL).touchB b = false := by
                cases hx : ((r.foldMrg M1).mrg aL).touchB b with
                | false => rfl
                | true =>
                  exfalso
                  have := (Range.touchB_iff (Range.mrg_wf ho1wf haLwf) hbwf
                    (Range.mrg_ne ho1ne) hbne).mp hx
                  omega
              have hrwEq : rwalk (r.foldMrg M1) (aL :: B) = ((r.foldMrg M1).mrg aL, B) := by
                rw [hBv, rwalk_cons, if_pos htA, rwalk_cons, if_neg (by simp [hntb]), ← hBv]
              have hgl : ∀ y ∈ K1.reverse.getLast?, gapR y ((r.foldMrg M1).mrg aL) := by
                intro y hy
                rw [List.getLast?_reverse] at hy
                have hyK1 : y ∈ K1 := List.mem_of_mem_head? hy
                have hyA : y ∈ A := hrestA y (hK1rest y hyK1)
                have hygap : y.last + 1 < (r.foldMrg M1).base :=
                  gap_left_of_not_touch ho1ne ho1wf (hneW y (hAmem y hyA)) (hwfW y (hAmem y hyA))
                    (le_trans (le_of_lt (hAlt y hyA)) ho1last) (hstop1 y hy)
                have hyaL := hgapAL y (hK1rest y hyK1)
                show y.last + 1 < min (r.foldMrg M1).base aL.base
                unfold gapR at hyaL
                omega
              have hgr : ∀ z ∈ B.head?, gapR ((r.foldMrg M1).mrg aL) z := by
                intro z hz
                rw [hBv] at hz
                simp at hz
                subst hz
                unfold gapR
                omega
              obtain ⟨hins, hWfR⟩ := assemble K1.reverse ((r.foldMrg M1).mrg aL) B hPw hPc hgl
                (Range.mrg_ne ho1ne) (Range.mrg_wf ho1wf haLwf) hgr hBc
                (fun x hx => ⟨hneW x (hBmem x hx), hwfW x (hBmem x hx)⟩)
              refine ⟨K1.reverse, (r.foldMrg M1).mrg aL, B, ?_, hWfR, ?_, ?_⟩
              · rw [hgo, hgoEq, hrwEq]
                exact hins
              · have h1 : ((r.foldMrg M1).mrg aL).base ≤ r.base :=
                  le_trans (by unfold Range.mrg; simp) ho1base
                unfold Range.includesB
                simp only [Bool.and_eq_true, decide_eq_true_eq]
                exact ⟨h1, by omega⟩
              · intro a
                have htc := (Range.touchB_iff ho1wf haLwf ho1ne haLne).mp htA
                have hmm := Range.mrg_memA ho1ne haLne htc.1 htc.2 a
                have ho1m := ho1mem a
                rw [covers_append, covers_cons, covers_reverse]
                have hlcov : SparseRange.covers l a ↔
                    SparseRange.covers A a ∨ SparseRange.covers B a := by
                  rw [← hAB, covers_append]
                have hAcov : SparseRange.covers A a ↔
                    (SparseRange.covers K1 a ∨ SparseRange.covers M1 a) ∨ aL.memA a := by
                  rw [hArr, covers_append, covers_append, covers_reverse, covers_reverse,
                    covers_cons]
                  simp [or_assoc]
                rw [hlcov, hAcov, hmm, ho1m]
                generalize SparseRange.covers K1 a = p1
                generalize SparseRange.covers M1 a = p2
                generalize aL.memA a = p3
                generalize SparseRange.covers B a = p4
                generalize r.memA a = p5
                clear * - p1 p2 p3 p4 p5
                tauto
            · -- aL kept: the left walk consumed nothing and the insert lands after A
              have htAf : (r.foldMrg M1).touchB aL = false := (Bool.not_eq_true _).mp htA
              have hM1nil : M1 = [] := by
                cases hM1 : M1 with
                | nil => rfl
                | cons x0 M1' =>
                  exfalso
                  have hx0M1 : x0 ∈ M1 := by rw [hM1]; simp
                  have hx0rest := hM1rest x0 hx0M1
                  have hx0A : x0 ∈ A := hrestA x0 hx0rest
                  have hx0ne : x0.ne := hneW x0 (hAmem _ hx0A)
                  have hgap0 : gapR x0 aL := hgapAL x0 hx0rest
                  have hmem0 : (r.foldMrg M1).memA x0.base :=
                    (ho1mem x0.base).mpr (Or.inr
                      (show SparseRange.covers M1 x0.base from ⟨x0, hx0M1, le_refl _, hx0ne⟩))
                  have hnt : aL.last + 1 < (r.foldMrg M1).base :=
                    gap_left_of_not_touch ho1ne ho1wf haLne haLwf
                      (le_trans (le_of_lt haLlt) ho1last) htAf
                  have hb0 : (r.foldMrg M1).base ≤ x0.base := hmem0.1
                  unfold gapR Range.ne at *
                  omega
              subst hM1nil
              have hK1v : K1 = restRev := by simpa using hsplit1.symm
              simp only [Range.foldMrg_nil] at htAf hgoEq
              have hrwEq : rwalk r (aL :: B) = (r, aL :: B) := by
                rw [rwalk_cons, if_neg (by simp [htAf])]
              have hgl : ∀ y ∈ A.getLast?, gapR y r := by
                intro y hy
                rw [hAdec, List.getLast?_concat] at hy
                simp at hy
                subst hy
                exact gap_left_of_not_touch hrne hrwf haLne haLwf (le_of_lt haLlt) htAf
              have hgr : ∀ z ∈ B.head?, gapR r z := by
                intro z hz
                rw [hBv] at hz
                simp at hz
                subst hz
                exact hbgap
              obtain ⟨hins, hWfR⟩ := assemble A r B
                (fun x hx => ⟨hneW x (hAmem x hx), hwfW x (hAmem x hx)⟩) hAc hgl hrne hrwf
                hgr hBc (fun x hx => ⟨hneW x (hBmem x hx), hwfW x (hBmem x hx)⟩)
              have hins2 : setInsert r (restRev.reverse ++ (aL :: B)) = A ++ r :: B := by
                rw [← hins, hAdec, List.append_assoc, List.singleton_append]
              refine ⟨A, r, B, ?_, hWfR, ?_, ?_⟩
              · rw [hgo, hgoEq, hrwEq]
                show setInsert r (K1.reverse ++ (aL :: B)) = A ++ r :: B
                rw [hK1v]
                exact hins2
              · simp [Range.includesB]
              · intro a
                rw [covers_append, covers_cons, ← hAB, covers_append]
                generalize SparseRange.covers A a = p1
                generalize SparseRange.covers B a = p2
                generalize r.memA a = p3
                clear * - p1 p2 p3
                tauto

/-! ## Remove lemmas -/

theorem Range.overlapsB_iff (x r : Range) :
    x.overlapsB r = true ↔ x.base ≤ r.last ∧ r.base ≤ x.last := by
  simp [Range.overlapsB]

theorem all_last_le_getLast {P : List Range} (hne : ∀ x ∈ P, x.ne)
    (hp : P.Pairwise gapR) : ∀ x ∈ P, ∀ y ∈ P.getLast?, x.last ≤ y.last := by
  rcases hP : P with _ | ⟨q, qs⟩
  · simp
  · subst hP
    have hnil : q :: qs ≠ [] := by simp
    have hdec := List.dropLast_append_getLast hnil
    intro x hx y hy
    rw [List.getLast?_eq_getLast _ hnil, Option.mem_def, Option.some.injEq] at hy
    subst hy
    rw [← hdec] at hx hp
    rcases List.mem_append.mp hx with h | h
    · have hg1 := (List.pairwise_append.mp hp).2.2 x h ((q :: qs).getLast hnil) (by simp)
      have hgne : ((q :: qs).getLast hnil).ne := hne _ (List.getLast_mem hnil)
      unfold gapR Range.ne at *
      omega
    · simp at h
      subst h
      exact le_refl _

theorem all_base_gt_of_head {S : List Range} (hne : ∀ x ∈ S, x.ne)
    (hp : S.Pairwise gapR) (c : Nat) (hhead : ∀ z ∈ S.head?, c < z.base) :
    ∀ z ∈ S, c < z.base := by
  match S with
  | [] => simp
  | z0 :: zs =>
    intro z hz
    have h0 : c < z0.base := hhead z0 rfl
    rcases List.mem_cons.mp hz with h | h
    · exact h ▸ h0
    · have hg := (List.pairwise_cons.mp hp).1 z h
      have := hne z0 (by simp)
      unfold gapR Range.ne at *
      omega

theorem Range.emptyR_not_memA (a : Nat) : ¬ Range.emptyR.memA a := by
  rintro ⟨h1, h2⟩
  simp only [Range.emptyR] at h1 h2
  rw [W64_eq] at h1
  omega

/-- Head decomposition of a walked run `L.reverse ++ c :: R`: its head is
`L.getLast?.getD c`. -/
theorem run_head_decomp (L R : List Range) (c : Range) :
    ∃ t, L.reverse ++ c :: R = (L.getLast?.getD c) :: t ∧
      ∀ x, (x ∈ L ∨ x = c ∨ x ∈ R) → x = L.getLast?.getD c ∨ x ∈ t := by
  rcases hL : L.reverse with _ | ⟨f0, t0⟩
  · have hLnil : L = [] := List.reverse_eq_nil_iff.mp hL
    subst hLnil
    refine ⟨R, by simp, ?_⟩
    rintro x (h | h | h)
    · simp at h
    · exact Or.inl (by simp [h])
    · exact Or.inr h
  · have hgl : L.getLast?.getD c = f0 := by
      rw [← List.head?_reverse, hL]
      rfl
    refine ⟨t0 ++ c :: R, by rw [hgl, List.cons_append], ?_⟩
    rintro x (h | h | h)
    · have hx2 : x ∈ f0 :: t0 := by rw [← hL]; exact List.mem_reverse.mpr h
      rcases List.mem_cons.mp hx2 with h2 | h2
      · exact Or.inl (h2.trans hgl.symm)
      · exact Or.inr (List.mem_append.mpr (Or.inl h2))
    · exact Or.inr (List.mem_append.mpr (Or.inr (by simp [h])))
    · exact Or.inr (List.mem_append.mpr (Or.inr (by simp [h])))

/-- Last-element decomposition of a walked run `L.reverse ++ c :: R`: its last
element is `R.getLast?.getD c`. -/
theorem run_last_decomp (L R : List Range) (c : Range) :
    ∃ i, L.reverse ++ c :: R = i ++ [R.getLast?.getD c] ∧
      ∀ x, (x ∈ L ∨ x = c ∨ x ∈ R) → x ∈ i ∨ x = R.getLast?.getD c := by
  rcases R with _ | ⟨w, ws⟩
  · refine ⟨L.reverse, by simp, ?_⟩
    rintro x (h | h | h)
    · exact Or.inl (List.mem_reverse.mpr h)
    · exact Or.inr (by simp [h])
    · simp at h
  · have hnnil : (w :: ws : List Range) ≠ [] := by simp
    have hlastv : (w :: ws).getLast?.getD c = (w :: ws).getLast hnnil := by
      rw [List.getLast?_eq_getLast _ hnnil]
      rfl
    have hdecr := List.dropLast_append_getLast hnnil
    refine ⟨L.reverse ++ c :: (w :: ws).dropLast, ?_, ?_⟩
    · rw [List.append_assoc, hlastv, List.cons_append]
      exact congrArg (fun t => L.reverse ++ c :: t) hdecr.symm
    · rintro x (h | h | h)
      · exact Or.inl (List.mem_append.mpr (Or.inl (List.mem_reverse.mpr h)))
      · exact Or.inl (List.mem_append.mpr (Or.inr (by simp [h])))
      · have hx2 : x ∈ (w :: ws).dropLast ++ [(w :: ws).getLast hnnil] := by
          rw [hdecr]; exact h
        rcases List.mem_append.mp hx2 with h2 | h2
        · exact Or.inl (List.mem_append.mpr (Or.inr (by simp [h2])))
        · simp at h2
          exact Or.inr (by rw [hlastv, h2])

/-- Master correctness lemma for the body of `SparseRange::remove` once the
iterator adjustment has designated `cur` (with the set split as
`pre ++ cur :: suf`): the result satisfies the representation invariant and
covers exactly the old parts minus `r`. -/
theorem removeGo_master (r : Range) (l pre : List Range) (cur : Range) (suf : List Range)
    (hrne : r.ne) (hrwf : r.wf)
    (hdec : l = pre ++ cur :: suf)
    (hw : ∀ x ∈ l, x.ne ∧ x.wf) (hc : l.Chain' gapR)
    (hpre_lt : ∀ x ∈ pre, x.last < r.last)
    (hsuf_ge : ∀ x ∈ suf, r.last ≤ x.last)
    (hcomplete : cur.overlapsB r = false → ∀ x ∈ l, x.overlapsB r = false) :
    SparseRange.Wf (SparseRange.removeGo r l pre cur suf) ∧
      ∀ a, SparseRange.covers (SparseRange.removeGo r l pre cur suf) a ↔
        SparseRange.covers l a ∧ ¬ r.memA a := by
  have hneW : ∀ x ∈ l, x.ne := fun x hx => (hw x hx).1
  have hwfW : ∀ x ∈ l, x.wf := fun x hx => (hw x hx).2
  have hpw : l.Pairwise gapR := chain'_gapR_pairwise hneW hc
  cases hcur : cur.overlapsB r with
  | false =>
    have hresu : SparseRange.removeGo r l pre cur suf = l := by
      rw [SparseRange.removeGo, hcur]
      rfl
    rw [hresu]
    refine ⟨⟨hw, hc⟩, ?_⟩
    intro a
    constructor
    · intro hca
      refine ⟨hca, ?_⟩
      rintro ⟨hra1, hra2⟩
      obtain ⟨x, hx, hxa1, hxa2⟩ := hca
      have hno := hcomplete hcur x hx
      rw [Bool.eq_false_iff] at hno
      exact hno ((Range.overlapsB_iff x r).mpr ⟨by omega, by omega⟩)
    · exact fun h => h.1
  | true =>
    have hcurl : cur ∈ l := by rw [hdec]; simp
    have hcne : cur.ne := hneW cur hcurl
    have hcwf : cur.wf := hwfW cur hcurl
    set lwr := pre.reverse.takeWhile (fun x => x.overlapsB r) with hlwrdef
    set keptPreRev := pre.reverse.dropWhile (fun x => x.overlapsB r) with hkprdef
    set rwr := suf.takeWhile (fun x => x.overlapsB r) with hrwrdef
    set keptSuf := suf.dropWhile (fun x => x.overlapsB r) with hksfdef
    set first := lwr.getLast?.getD cur with hfirstdef
    set lastE := rwr.getLast?.getD cur with hlastEdef
    set lres := (if first.base < r.base then Range.from_base_limit first.base r.base
      else Range.emptyR) with hlresdef
    set hresR := (if r.last < lastE.last then
      Range.from_base_last ((r.last + 1) % W64) lastE.last else Range.emptyR) with hhresdef
    have hunf : SparseRange.removeGo r l pre cur suf =
        (if hresR.is_empty then
          (if lres.is_empty then keptPreRev.reverse ++ keptSuf
           else setInsert lres (keptPreRev.reverse ++ keptSuf))
         else setInsert hresR
          (if lres.is_empty then keptPreRev.reverse ++ keptSuf
           else setInsert lres (keptPreRev.reverse ++ keptSuf))) := by
      rw [SparseRange.removeGo, hcur]
      rfl
    -- split of pre and suf around the overlapped run
    have hprs : lwr ++ keptPreRev = pre.reverse := List.takeWhile_append_dropWhile _ _
    have hsufs : rwr ++ keptSuf = suf := List.takeWhile_append_dropWhile _ _
    have hpre2 : pre = keptPreRev.reverse ++ lwr.reverse := by
      rw [← List.reverse_reverse pre, ← hprs, List.reverse_append]
    have hldec3 : l = keptPreRev.reverse ++ ((lwr.reverse ++ cur :: rwr) ++ keptSuf) := by
      rw [hdec, hpre2, ← hsufs]
      simp [List.append_assoc]
    -- memberships
    have hpreL : ∀ x ∈ pre, x ∈ l := by
      intro x hx
      rw [hdec]
      exact List.mem_append.mpr (Or.inl hx)
    have hsufL : ∀ x ∈ suf, x ∈ l := by
      intro x hx
      rw [hdec]
      exact List.mem_append.mpr (Or.inr (List.mem_cons.mpr (Or.inr hx)))
    have hlwr_pre : ∀ x ∈ lwr, x ∈ pre := by
      intro x hx
      exact List.mem_reverse.mp ((List.takeWhile_sublist _).mem hx)
    have hkpr_pre : ∀ x ∈ keptPreRev, x ∈ pre := by
      intro x hx
      exact List.mem_reverse.mp ((List.dropWhile_sublist _).mem hx)
    have hrwr_suf : ∀ x ∈ rwr, x ∈ suf := fun x hx => (List.takeWhile_sublist _).mem hx
    have hksf_suf : ∀ x ∈ keptSuf, x ∈ suf := fun x hx => (List.dropWhile_sublist _).mem hx
    have hrun_l : ∀ x, (x ∈ lwr ∨ x = cur ∨ x ∈ rwr) → x ∈ l := by
      rintro x (h | h | h)
      · exact hpreL x (hlwr_pre x h)
      · exact h ▸ hcurl
      · exact hsufL x (hrwr_suf x h)
    have hlwr_ov : ∀ x ∈ lwr, x.overlapsB r = true := by
      intro y hy
      rw [hlwrdef] at hy
      have h2 := List.mem_takeWhile_imp hy
      simpa using h2
    have hrwr_ov : ∀ x ∈ rwr, x.overlapsB r = true := by
      intro y hy
      rw [hrwrdef] at hy
      have h2 := List.mem_takeWhile_imp hy
      simpa using h2
    have hrun_ov : ∀ x, (x ∈ lwr ∨ x = cur ∨ x ∈ rwr) → x.overlapsB r = true := by
      rintro x (h | h | h)
      · exact hlwr_ov x h
      · exact h ▸ hcur
      · exact hrwr_ov x h
    -- head and tail decompositions of the overlapped run
    obtain ⟨runTail, hrunT, hrunTmem⟩ := run_head_decomp lwr rwr cur
    rw [← hfirstdef] at hrunT hrunTmem
    obtain ⟨runInit, hrunI, hrunImem⟩ := run_last_decomp lwr rwr cur
    rw [← hlastEdef] at hrunI hrunImem
    have hfirst_run : first ∈ lwr ∨ first = cur ∨ first ∈ rwr := by
      have hx2 : first ∈ lwr.reverse ++ cur :: rwr := by rw [hrunT]; simp
      rcases List.mem_append.mp hx2 with h | h
      · exact Or.inl (List.mem_reverse.mp h)
      · rcases List.mem_cons.mp h with h | h
        · exact Or.inr (Or.inl h)
        · exact Or.inr (Or.inr h)
    have hlastE_run : lastE ∈ lwr ∨ lastE = cur ∨ lastE ∈ rwr := by
      have hx2 : lastE ∈ lwr.reverse ++ cur :: rwr := by rw [hrunI]; simp
      rcases List.mem_append.mp hx2 with h | h
      · exact Or.inl (List.mem_reverse.mp h)
      · rcases List.mem_cons.mp h with h | h
        · exact Or.inr (Or.inl h)
        · exact Or.inr (Or.inr h)
    have hfirstL : first ∈ l := hrun_l first hfirst_run
    have hlastEL : lastE ∈ l := hrun_l lastE hlastE_run
    have hfne : first.ne := hneW first hfirstL
    have hfwf : first.wf := hwfW first hfirstL
    have hEne : lastE.ne := hneW lastE hlastEL
    have hEwf : lastE.wf := hwfW lastE hlastEL
    have hfov := (Range.overlapsB_iff first r).mp (hrun_ov first hfirst_run)
    have hEov := (Range.overlapsB_iff lastE r).mp (hrun_ov lastE hlastE_run)
    have hrun_sub : List.Sublist (lwr.reverse ++ cur :: rwr) l := by
      rw [hldec3]
      exact (List.sublist_append_left _ _).trans (List.sublist_append_right _ _)
    have hrun_pw : (lwr.reverse ++ cur :: rwr).Pairwise gapR := hpw.sublist hrun_sub
    have hrun_bounds : ∀ x, (x ∈ lwr ∨ x = cur ∨ x ∈ rwr) →
        first.base ≤ x.base ∧ x.last ≤ lastE.last := by
      intro x hx
      constructor
      · rcases hrunTmem x hx with h | h
        · rw [h]
        · have hpw2 := hrun_pw
          rw [hrunT] at hpw2
          have hg := (List.pairwise_cons.mp hpw2).1 x h
          unfold gapR Range.ne at *
          omega
      · rcases hrunImem x hx with h | h
        · have hpw2 := hrun_pw
          rw [hrunI] at hpw2
          have hg := (List.pairwise_append.mp hpw2).2.2 x h lastE (by simp)
          unfold gapR Range.ne at *
          omega
        · rw [h]
    -- sublists of the kept parts
    have hsubPR : List.Sublist keptPreRev.reverse l := by
      rw [hldec3]
      exact List.sublist_append_left _ _
    have hsubS : List.Sublist keptSuf l := by
      rw [hldec3]
      exact (List.sublist_append_right _ _).trans (List.sublist_append_right _ _)
    -- bounds on the kept parts
    have hkpr_lt : ∀ x ∈ keptPreRev, x.last < r.base := by
      intro x hx
      cases hk : keptPreRev with
      | nil => rw [hk] at hx; simp at hx
      | cons y0 ys =>
        have hy0ov : y0.overlapsB r = false := by
          have hh := dropWhile_head_not (fun x => x.overlapsB r) pre.reverse y0
          rw [← hkprdef, hk] at hh
          exact hh rfl
        have hy0pre : y0 ∈ pre := hkpr_pre y0 (by rw [hk]; simp)
        have hy0lt : y0.last < r.last := hpre_lt y0 hy0pre
        have hy0ne : y0.ne := hneW y0 (hpreL y0 hy0pre)
        have hy0rb : y0.last < r.base := by
          rw [Bool.eq_false_iff] at hy0ov
          rcases Nat.lt_or_ge y0.last r.base with h | h
          · exact h
          · exact absurd ((Range.overlapsB_iff y0 r).mpr
              ⟨by unfold Range.ne at hy0ne; omega, h⟩) hy0ov
        have hxrev : x ∈ keptPreRev.reverse := List.mem_reverse.mpr hx
        have hle := all_last_le_getLast
          (fun z hz => hneW z (hsubPR.mem hz)) (hpw.sublist hsubPR) x hxrev y0
          (by rw [List.getLast?_reverse, hk]; rfl)
        omega
    have hksf_gt : ∀ z ∈ keptSuf, r.last < z.base := by
      refine all_base_gt_of_head (fun z hz => hneW z (hsubS.mem hz)) (hpw.sublist hsubS)
        r.last ?_
      intro z0 hz0
      have hz0ov : z0.overlapsB r = false := by
        have hh := dropWhile_head_not (fun x => x.overlapsB r) suf z0
        rw [← hksfdef] at hh
        exact hh hz0
      have hz0suf : z0 ∈ suf := hksf_suf z0 (List.mem_of_mem_head? hz0)
      have hz0ge : r.last ≤ z0.last := hsuf_ge z0 hz0suf
      rw [Bool.eq_false_iff] at hz0ov
      rcases Nat.lt_or_ge r.last z0.base with h | h
      · exact h
      · exact absurd ((Range.overlapsB_iff z0 r).mpr
          ⟨h, by unfold Range.ne at hrne; omega⟩) hz0ov
    -- chain and gap structure of the kept parts
    have hckPR : keptPreRev.reverse.Chain' gapR := by
      have hc2 := hc
      rw [hldec3] at hc2
      exact (List.chain'_append.mp hc2).1
    have hckS : keptSuf.Chain' gapR := by
      have hc2 := hc
      rw [hldec3] at hc2
      exact (List.chain'_append.mp (List.chain'_append.mp hc2).2.1).2.1
    have hy0_first : ∀ y ∈ keptPreRev.head?, gapR y first := by
      intro y hy
      have hc2 := hc
      rw [hldec3] at hc2
      refine (List.chain'_append.mp hc2).2.2 y (by rw [List.getLast?_reverse]; exact hy)
        first ?_
      rw [hrunT]
      rfl
    have hlastE_z : ∀ z ∈ keptSuf.head?, gapR lastE z := by
      intro z hz
      have hc2 := hc
      have hl4 : l = (keptPreRev.reverse ++ (runInit ++ [lastE])) ++ keptSuf := by
        rw [hldec3, hrunI]
        simp [List.append_assoc]
      rw [hl4] at hc2
      refine (List.chain'_append.mp hc2).2.2 lastE ?_ z hz
      rw [← List.append_assoc, List.getLast?_concat]
      rfl
    have hy0_z : ∀ y ∈ keptPreRev.head?, ∀ z ∈ keptSuf.head?, gapR y z := by
      intro y hy z hz
      have hpw2 := hpw
      rw [hldec3] at hpw2
      exact (List.pairwise_append.mp hpw2).2.2 y
        (List.mem_reverse.mpr (List.mem_of_mem_head? hy)) z
        (List.mem_append.mpr (Or.inr (List.mem_of_mem_head? hz)))
    -- residual values
    have hlres_val : first.base < r.base → lres = ⟨first.base, r.base - 1⟩ := by
      intro h
      have hb := hrwf.1
      have hmod : (r.base + (W64 - 1)) % W64 = r.base - 1 := by
        rw [W64_eq] at hb ⊢
        omega
      rw [hlresdef, if_pos h]
      unfold Range.from_base_limit Range.from_base_last
      rw [hmod]
    have hhres_val : r.last < lastE.last → hresR = ⟨r.last + 1, lastE.last⟩ := by
      intro h
      have hE := hEwf.2
      have hmod : (r.last + 1) % W64 = r.last + 1 := Nat.mod_eq_of_lt (by omega)
      rw [hhresdef, if_pos h]
      unfold Range.from_base_last
      rw [hmod]
    have hlres_not : ¬ first.base < r.base → lres = Range.emptyR := by
      intro h
      rw [hlresdef, if_neg h]
    have hhres_not : ¬ r.last < lastE.last → hresR = Range.emptyR := by
      intro h
      rw [hhresdef, if_neg h]
    have hemptyE : Range.emptyR.is_empty = true := by
      simp [Range.emptyR, Range.is_empty, W64_eq]
    -- non-membership of r in the kept and residual parts
    have hkpr_nr : ∀ a, SparseRange.covers keptPreRev a → ¬ r.memA a := by
      rintro a ⟨x, hx, hx1, hx2⟩ ⟨hr1, hr2⟩
      have := hkpr_lt x hx
      omega
    have hksf_nr : ∀ a, SparseRange.covers keptSuf a → ¬ r.memA a := by
      rintro a ⟨x, hx, hx1, hx2⟩ ⟨hr1, hr2⟩
      have := hksf_gt x hx
      omega
    have hlres_nr : ∀ a, lres.memA a → ¬ r.memA a := by
      rintro a hm ⟨h1, h2⟩
      by_cases hLg : first.base < r.base
      · rw [hlres_val hLg] at hm
        obtain ⟨m1, m2⟩ := hm
        simp only at m1 m2
        omega
      · rw [hlres_not hLg] at hm
        exact Range.emptyR_not_memA a hm
    have hhres_nr : ∀ a, hresR.memA a → ¬ r.memA a := by
      rintro a hm ⟨h1, h2⟩
      by_cases hHg : r.last < lastE.last
      · rw [hhres_val hHg] at hm
        obtain ⟨m1, m2⟩ := hm
        simp only at m1 m2
        omega
      · rw [hhres_not hHg] at hm
        exact Range.emptyR_not_memA a hm
    -- points of the removed run, minus r, are exactly the residuals
    have hrun_res : ∀ a, ¬ r.memA a →
        ((SparseRange.covers lwr a ∨ cur.memA a ∨ SparseRange.covers rwr a) ↔
          (lres.memA a ∨ hresR.memA a)) := by
      intro a hnr
      constructor
      · intro hx
        obtain ⟨x, hxr, hm⟩ : ∃ x, (x ∈ lwr ∨ x = cur ∨ x ∈ rwr) ∧ x.memA a := by
          rcases hx with ⟨x, hx, hm⟩ | hm | ⟨x, hx, hm⟩
          · exact ⟨x, Or.inl hx, hm⟩
          · exact ⟨cur, Or.inr (Or.inl rfl), hm⟩
          · exact ⟨x, Or.inr (Or.inr hx), hm⟩
        obtain ⟨hx1, hx2⟩ := hm
        have hb := (hrun_bounds x hxr).1
        have hl2 := (hrun_bounds x hxr).2
        unfold Range.memA at hnr
        rcases Nat.lt_or_ge a r.base with hlo | hhi
        · have hLg : first.base < r.base := by omega
          rw [hlres_val hLg]
          exact Or.inl ⟨by simp only; omega, by simp only; omega⟩
        · have hhi2 : r.last < a := by omega
          have hHg : r.last < lastE.last := by omega
          rw [hhres_val hHg]
          exact Or.inr ⟨by simp only; omega, by simp only; omega⟩
      · intro hx
        rcases hx with hm | hm
        · by_cases hLg : first.base < r.base
          · rw [hlres_val hLg] at hm
            obtain ⟨h1, h2⟩ := hm
            simp only at h1 h2
            have hfm : first.memA a := ⟨h1, by unfold Range.ne at hrne; omega⟩
            rcases hfirst_run with h | h | h
            · exact Or.inl ⟨first, h, hfm⟩
            · exact Or.inr (Or.inl (h ▸ hfm))
            · exact Or.inr (Or.inr ⟨first, h, hfm⟩)
          · rw [hlres_not hLg] at hm
            exact absurd hm (Range.emptyR_not_memA a)
        · by_cases hHg : r.last < lastE.last
          · rw [hhres_val hHg] at hm
            obtain ⟨h1, h2⟩ := hm
            simp only at h1 h2
            have hEm : lastE.memA a := ⟨by omega, h2⟩
            rcases hlastE_run with h | h | h
            · exact Or.inl ⟨lastE, h, hEm⟩
            · exact Or.inr (Or.inl (h ▸ hEm))
            · exact Or.inr (Or.inr ⟨lastE, h, hEm⟩)
          · rw [hhres_not hHg] at hm
            exact absurd hm (Range.emptyR_not_memA a)
    -- decomposition of the old coverage
    have hcovL : ∀ a, SparseRange.covers l a ↔
        (SparseRange.covers keptPreRev a ∨
          (SparseRange.covers lwr a ∨ cur.memA a ∨ SparseRange.covers rwr a) ∨
          SparseRange.covers keptSuf a) := by
      intro a
      rw [hldec3, covers_append, covers_append, covers_append, covers_cons, covers_reverse,
        covers_reverse]
    -- wrap-up: from a shape identity to the final coverage identity
    have hwrap : ∀ res : List Range,
        (∀ a, SparseRange.covers res a ↔ (SparseRange.covers keptPreRev a ∨ lres.memA a ∨
          hresR.memA a ∨ SparseRange.covers keptSuf a)) →
        ∀ a, SparseRange.covers res a ↔ SparseRange.covers l a ∧ ¬ r.memA a := by
      intro res hsh a
      rw [hsh a, hcovL a]
      constructor
      · rintro (hk | hm | hm | hk)
        · refine ⟨Or.inl hk, hkpr_nr a hk⟩
        · have hnr := hlres_nr a hm
          exact ⟨Or.inr (Or.inl ((hrun_res a hnr).mpr (Or.inl hm))), hnr⟩
        · have hnr := hhres_nr a hm
          exact ⟨Or.inr (Or.inl ((hrun_res a hnr).mpr (Or.inr hm))), hnr⟩
        · exact ⟨Or.inr (Or.inr hk), hksf_nr a hk⟩
      · rintro ⟨hk | hrn | hk, hnr⟩
        · exact Or.inl hk
        · rcases (hrun_res a hnr).mp hrn with h | h
          · exact Or.inr (Or.inl h)
          · exact Or.inr (Or.inr (Or.inl h))
        · exact Or.inr (Or.inr (Or.inr hk))
    have hPw : ∀ x ∈ keptPreRev.reverse, x.ne ∧ x.wf := fun x hx => hw x (hsubPR.mem hx)
    have hSw : ∀ x ∈ keptSuf, x.ne ∧ x.wf := fun x hx => hw x (hsubS.mem hx)
    by_cases hLg : first.base < r.base
    · have hle : lres.is_empty = false := by
        rw [hlres_val hLg]
        unfold Range.is_empty
        simp only [decide_eq_false_iff_not, Nat.not_lt]
        omega
      have hlresne : lres.ne := by
        rw [hlres_val hLg]
        unfold Range.ne
        simp only
        omega
      have hlreswf : lres.wf := by
        rw [hlres_val hLg]
        exact ⟨hfwf.1, by have := hrwf.1; simp only; omega⟩
      have hgl1 : ∀ y ∈ keptPreRev.reverse.getLast?, gapR y lres := by
        intro y hy
        rw [List.getLast?_reverse] at hy
        have hg := hy0_first y hy
        rw [hlres_val hLg]
        unfold gapR at hg ⊢
        simpa using hg
      have hgr1 : ∀ z ∈ keptSuf.head?, gapR lres z := by
        intro z hz
        have hg := hksf_gt z (List.mem_of_mem_head? hz)
        rw [hlres_val hLg]
        unfold gapR Range.ne at *
        simp only
        omega
      obtain ⟨hins1, hWf1⟩ := assemble keptPreRev.reverse lres keptSuf hPw hckPR hgl1
        hlresne hlreswf hgr1 hckS hSw
      by_cases hHg : r.last < lastE.last
      · -- both residuals are inserted
        have hhe : hresR.is_empty = false := by
          rw [hhres_val hHg]
          unfold Range.is_empty
          simp only [decide_eq_false_iff_not, Nat.not_lt]
          omega
        have hresRne : hresR.ne := by
          rw [hhres_val hHg]
          unfold Range.ne
          simp only
          omega
        have hresRwf : hresR.wf := by
          rw [hhres_val hHg]
          exact ⟨by have := hEwf.2; simp only; omega, hEwf.2⟩
        have hchain2 : (keptPreRev.reverse ++ [lres]).Chain' gapR := by
          rw [List.chain'_append]
          refine ⟨hckPR, by simp, ?_⟩
          intro y hy z hz
          simp at hz
          subst hz
          exact hgl1 y hy
        have hgl2 : ∀ y ∈ (keptPreRev.reverse ++ [lres]).getLast?, gapR y hresR := by
          intro y hy
          rw [List.getLast?_concat] at hy
          simp at hy
          subst hy
          rw [hlres_val hLg, hhres_val hHg]
          unfold gapR Range.ne at *
          simp only
          omega
        have hgr2 : ∀ z ∈ keptSuf.head?, gapR hresR z := by
          intro z hz
          have hg := hlastE_z z hz
          rw [hhres_val hHg]
          unfold gapR at hg ⊢
          simpa using hg
        have hPw2 : ∀ x ∈ keptPreRev.reverse ++ [lres], x.ne ∧ x.wf := by
          intro x hx
          rcases List.mem_append.mp hx with h | h
          · exact hPw x h
          · simp at h
            subst h
            exact ⟨hlresne, hlreswf⟩
        obtain ⟨hins2, hWf2⟩ := assemble (keptPreRev.reverse ++ [lres]) hresR keptSuf hPw2
          hchain2 hgl2 hresRne hresRwf hgr2 hckS hSw
        have hfin : SparseRange.removeGo r l pre cur suf =
            (keptPreRev.reverse ++ [lres]) ++ hresR :: keptSuf := by
          rw [hunf, hle, hhe]
          simp only [Bool.false_eq_true, if_false]
          rw [hins1, ← hins2, List.append_assoc, List.singleton_append]
        rw [hfin]
        refine ⟨hWf2, hwrap _ ?_⟩
        intro a
        rw [covers_append, covers_append, covers_cons, covers_reverse]
        have hnilf : SparseRange.covers ([] : List Range) a ↔ False :=
          iff_false_intro (covers_nil a)
        rw [covers_cons, hnilf]
        generalize SparseRange.covers keptPreRev a = p1
        generalize lres.memA a = p2
        generalize hresR.memA a = p3
        generalize SparseRange.covers keptSuf a = p4
        clear * - p1 p2 p3 p4
        tauto
      · -- only the low residual is inserted
        have hhe : hresR.is_empty = true := by
          rw [hhres_not hHg]
          exact hemptyE
        have hfin : SparseRange.removeGo r l pre cur suf =
            keptPreRev.reverse ++ lres :: keptSuf := by
          rw [hunf, hhe, hle]
          simp only [if_true, Bool.false_eq_true, if_false]
          exact hins1
        rw [hfin]
        refine ⟨hWf1, hwrap _ ?_⟩
        intro a
        rw [covers_append, covers_cons, covers_reverse]
        have h3 : ¬ hresR.memA a := by
          rw [hhres_not hHg]
          exact Range.emptyR_not_memA a
        generalize hp1 : SparseRange.covers keptPreRev a = p1
        generalize hp2 : lres.memA a = p2
        generalize hp3 : hresR.memA a = p3 at h3
        generalize hp4 : SparseRange.covers keptSuf a = p4
        clear * - p1 p2 p3 p4 h3
        tauto
    · -- no low residual
      have hle : lres.is_empty = true := by
        rw [hlres_not hLg]
        exact hemptyE
      have h2 : ∀ a, ¬ lres.memA a := by
        intro a
        rw [hlres_not hLg]
        exact Range.emptyR_not_memA a
      by_cases hHg : r.last < lastE.last
      · -- only the high residual is inserted
        have hhe : hresR.is_empty = false := by
          rw [hhres_val hHg]
          unfold Range.is_empty
          simp only [decide_eq_false_iff_not, Nat.not_lt]
          omega
        have hresRne : hresR.ne := by
          rw [hhres_val hHg]
          unfold Range.ne
          simp only
          omega
        have hresRwf : hresR.wf := by
          rw [hhres_val hHg]
          exact ⟨by have := hEwf.2; simp only; omega, hEwf.2⟩
        have hgl1 : ∀ y ∈ keptPreRev.reverse.getLast?, gapR y hresR := by
          intro y hy
          rw [List.getLast?_reverse] at hy
          have hyk : y ∈ keptPreRev := List.mem_of_mem_head? hy
          have hg := hkpr_lt y hyk
          rw [hhres_val hHg]
          unfold gapR Range.ne at *
          simp only
          omega
        have hgr1 : ∀ z ∈ keptSuf.head?, gapR hresR z := by
          intro z hz
          have hg := hlastE_z z hz
          rw [hhres_val hHg]
          unfold gapR at hg ⊢
          simpa using hg
        obtain ⟨hins1, hWf1⟩ := assemble keptPreRev.reverse hresR keptSuf hPw hckPR hgl1
          hresRne hresRwf hgr1 hckS hSw
        have hfin : SparseRange.removeGo r l pre cur suf =
            keptPreRev.reverse ++ hresR :: keptSuf := by
          rw [hunf, hhe, hle]
          simp only [Bool.false_eq_true, if_false, if_true]
          exact hins1
        rw [hfin]
        refine ⟨hWf1, hwrap _ ?_⟩
        intro a
        rw [covers_append, covers_cons, covers_reverse]
        have h2a := h2 a
        generalize hp1 : SparseRange.covers keptPreRev a = p1
        generalize hp2 : lres.memA a = p2 at h2a
        generalize hp3 : hresR.memA a = p3
        generalize hp4 : SparseRange.covers keptSuf a = p4
        clear * - p1 p2 p3 p4 h2a
        tauto
      · -- neither residual exists
        have hhe : hresR.is_empty = true := by
          rw [hhres_not hHg]
          exact hemptyE
        have h3 : ∀ a, ¬ hresR.memA a := by
          intro a
          rw [hhres_not hHg]
          exact Range.emptyR_not_memA a
        have hfin : SparseRange.removeGo r l pre cur suf =
            keptPreRev.reverse ++ keptSuf := by
          rw [hunf, hhe, hle]
          simp only [if_true]
        rw [hfin]
        constructor
        · refine ⟨?_, ?_⟩
          · intro x hx
            rcases List.mem_append.mp hx with h | h
            · exact hPw x h
            · exact hSw x h
          · rw [List.chain'_append]
            refine ⟨hckPR, hckS, ?_⟩
            intro y hy z hz
            rw [List.getLast?_reverse] at hy
            exact hy0_z y hy z hz
        · refine hwrap _ ?_
          intro a
          rw [covers_append, covers_reverse]
          have h2a := h2 a
          have h3a := h3 a
          generalize hp1 : SparseRange.covers keptPreRev a = p1
          generalize hp2 : lres.memA a = p2 at h2a
          generalize hp3 : hresR.memA a = p3 at h3a
          generalize hp4 : SparseRange.covers keptSuf a = p4
          clear * - p1 p2 p3 p4 h2a h3a
          tauto

/-- Unfolding of `SparseRange::remove` for a non-empty range on a non-empty
set, exposing the iterator-adjustment dispatch. -/
theorem remove_eq_match (l : List Range) (r : Range) (hne : r.is_empty = false)
    (hl : l ≠ []) :
    SparseRange.remove l r =
      (match l.dropWhile (fun x => x.last < r.last) with
       | [] =>
         match (l.takeWhile (fun x => x.last < r.last)).reverse with
         | [] => l
         | aL :: restRev => SparseRange.removeGo r l restRev.reverse aL []
       | b :: bs =>
         if (l.takeWhile (fun x => x.last < r.last)).isEmpty then
           SparseRange.removeGo r l [] b bs
         else if b.overlapsB r then
           SparseRange.removeGo r l (l.takeWhile (fun x => x.last < r.last)) b bs
         else
           match (l.takeWhile (fun x => x.last < r.last)).reverse with
           | [] => l
           | aL :: restRev => SparseRange.removeGo r l restRev.reverse aL (b :: bs)) := by
  unfold SparseRange.remove
  rw [hne]
  match l, hl with
  | x :: xs, _ => rfl

/-- A range ending strictly before `r` begins does not overlap `r`. -/
theorem overlapsB_false_of_last_lt (x r : Range) (h : x.last < r.base) :
    x.overlapsB r = false := by
  cases hov : x.overlapsB r with
  | false => rfl
  | true =>
    have := (Range.overlapsB_iff x r).mp hov
    omega

/-- A range beginning strictly after `r` ends does not overlap `r`. -/
theorem overlapsB_false_of_base_gt (x r : Range) (h : r.last < x.base) :
    x.overlapsB r = false := by
  cases hov : x.overlapsB r with
  | false => rfl
  | true =>
    have := (Range.overlapsB_iff x r).mp hov
    omega

/-- The iterator adjustment of `SparseRange::remove` always designates an
element `cur` splitting the set as `pre ++ cur :: suf` with the prefix
ending below `r.last`, the suffix ending at or above it, and such that if
`cur` fails to overlap `r` then nothing in the set overlaps `r`. -/
theorem remove_dispatch (l : List Range) (r : Range) (hre : r.is_empty = false)
    (hrne : r.ne) (hrwf : r.wf) (hl : l ≠ [])
    (hw : ∀ x ∈ l, x.ne ∧ x.wf) (hc : l.Chain' gapR) :
    ∃ pre cur suf, l = pre ++ cur :: suf ∧
      SparseRange.remove l r = SparseRange.removeGo r l pre cur suf ∧
      (∀ x ∈ pre, x.last < r.last) ∧ (∀ x ∈ suf, r.last ≤ x.last) ∧
      (cur.overlapsB r = false → ∀ x ∈ l, x.overlapsB r = false) := by
  have hwne : ∀ x ∈ l, x.ne := fun x hx => (hw x hx).1
  have hpw : l.Pairwise gapR := chain'_gapR_pairwise hwne hc
  obtain ⟨hA_lt, hB_ge, hcA, hcB, hgAB⟩ := split_facts l r.last hwne hc
  have hAB := List.takeWhile_append_dropWhile (fun x => decide (x.last < r.last)) l
  have hAmem : ∀ x ∈ l.takeWhile (fun x => x.last < r.last), x ∈ l := by
    intro x hx
    exact (List.takeWhile_sublist _).mem hx
  have hBmem : ∀ x ∈ l.dropWhile (fun x => x.last < r.last), x ∈ l := by
    intro x hx
    exact (List.dropWhile_sublist _).mem hx
  have hApw : (l.takeWhile (fun x => x.last < r.last)).Pairwise gapR :=
    hpw.sublist (List.takeWhile_sublist _)
  have hBpw : (l.dropWhile (fun x => x.last < r.last)).Pairwise gapR :=
    hpw.sublist (List.dropWhile_sublist _)
  -- generic part: anything in the takeWhile prefix at or below a
  -- non-overlapping candidate from that prefix fails to overlap r
  have hAfail : ∀ aL, aL ∈ l.takeWhile (fun x => x.last < r.last) →
      (∀ y ∈ (l.takeWhile (fun x => x.last < r.last)).getLast?, y = aL) →
      aL.overlapsB r = false →
      ∀ x ∈ l.takeWhile (fun x => x.last < r.last), x.overlapsB r = false := by
    intro aL haL hgl hfa x hx
    have haLne : aL.ne := hwne aL (hAmem aL haL)
    have haLlt : aL.last < r.last := hA_lt aL haL
    have hblt : aL.last < r.base := by
      rcases Nat.lt_or_ge aL.last r.base with h | h
      · exact h
      · exfalso
        exact (Bool.eq_false_iff.mp hfa)
          ((Range.overlapsB_iff aL r).mpr ⟨by unfold Range.ne at haLne; omega, h⟩)
    have hles := all_last_le_getLast (fun y hy => hwne y (hAmem y hy)) hApw x hx
    have hnnil : l.takeWhile (fun x => x.last < r.last) ≠ [] := by
      intro hcon
      rw [hcon] at haL
      simp at haL
    have hgl2 : (l.takeWhile (fun x => x.last < r.last)).getLast? =
        some ((l.takeWhile (fun x => x.last < r.last)).getLast hnnil) :=
      List.getLast?_eq_getLast _ hnnil
    have hxle : x.last ≤ aL.last := by
      have := hles _ (by rw [hgl2]; rfl)
      have heq := hgl _ (by rw [hgl2]; rfl)
      rw [heq] at this
      exact this
    exact overlapsB_false_of_last_lt x r (by omega)
  -- generic part: the dropWhile tail past a non-overlapping head fails
  have hBfail : ∀ b bs, l.dropWhile (fun x => x.last < r.last) = b :: bs →
      b.overlapsB r = false → ∀ x ∈ bs, x.overlapsB r = false := by
    intro b bs hB hfb x hx
    have hbge : r.last ≤ b.last := hB_ge b (by rw [hB]; simp)
    have hg : gapR b x := by
      have hBpw2 := hBpw
      rw [hB] at hBpw2
      exact (List.pairwise_cons.mp hBpw2).1 x hx
    unfold gapR at hg
    exact overlapsB_false_of_base_gt x r (by omega)
  rcases hB : l.dropWhile (fun x => x.last < r.last) with _ | ⟨b, bs⟩
  · -- lower_bound() == end(): step back to the last element
    have hA_eq : l.takeWhile (fun x => x.last < r.last) = l := by
      conv_rhs => rw [← hAB]
      rw [hB, List.append_nil]
    rcases hAr : (l.takeWhile (fun x => x.last < r.last)).reverse with _ | ⟨aL, restRev⟩
    · exact absurd (hA_eq ▸ List.reverse_eq_nil_iff.mp hAr) hl
    · have hA_dec : l.takeWhile (fun x => x.last < r.last) = restRev.reverse ++ [aL] := by
        rw [← List.reverse_reverse (l.takeWhile (fun x => x.last < r.last)), hAr,
          List.reverse_cons]
      have haL : aL ∈ l.takeWhile (fun x => x.last < r.last) := by
        rw [hA_dec]
        simp
      refine ⟨restRev.reverse, aL, [], ?_, ?_, ?_, by simp, ?_⟩
      · rw [← hA_eq, hA_dec]
      · rw [remove_eq_match l r hre hl, hB, hAr]
      · intro x hx
        exact hA_lt x (by rw [hA_dec]; exact List.mem_append.mpr (Or.inl hx))
      · intro hfa x hx
        have hgl : ∀ y ∈ (l.takeWhile (fun x => x.last < r.last)).getLast?, y = aL := by
          intro y hy
          rw [← List.head?_reverse, hAr] at hy
          have h2 : aL = y := by simpa using hy
          exact h2.symm
        exact hAfail aL haL hgl hfa x (by rwa [hA_eq])
  · by_cases hAe : (l.takeWhile (fun x => x.last < r.last)).isEmpty = true
    · -- lower_bound() == begin(): use it directly
      have hA_nil : l.takeWhile (fun x => x.last < r.last) = [] := List.isEmpty_iff.mp hAe
      have hdec : l = [] ++ b :: bs := by
        rw [List.nil_append, ← hAB, hA_nil, hB, List.nil_append]
      refine ⟨[], b, bs, hdec, ?_, by simp, ?_, ?_⟩
      · rw [remove_eq_match l r hre hl, hB]
        simp only [hAe, if_true]
      · intro x hx
        exact hB_ge x (by rw [hB]; simp [hx])
      · intro hfb x hx
        rw [hdec, List.nil_append] at hx
        rcases List.mem_cons.mp hx with h | h
        · rwa [h]
        · exact hBfail b bs hB hfb x h
    · have hA_ne : l.takeWhile (fun x => x.last < r.last) ≠ [] := by
        intro hcon
        rw [hcon] at hAe
        exact hAe rfl
      have hAe' : (l.takeWhile (fun x => x.last < r.last)).isEmpty = false := by
        rwa [Bool.not_eq_true] at hAe
      by_cases hbo : b.overlapsB r = true
      · -- the lower bound overlaps: use it
        refine ⟨l.takeWhile (fun x => x.last < r.last), b, bs, ?_, ?_, hA_lt, ?_, ?_⟩
        · conv_lhs => rw [← hAB]
          rw [hB]
        · rw [remove_eq_match l r hre hl, hB]
          simp only [hAe', Bool.false_eq_true, if_false, hbo, if_true]
        · intro x hx
          exact hB_ge x (by rw [hB]; simp [hx])
        · intro hf
          exact absurd (hf ▸ hbo) (by decide)
      · -- the lower bound does not overlap: step back
        have hbo' : b.overlapsB r = false := by rwa [Bool.not_eq_true] at hbo
        rcases hAr : (l.takeWhile (fun x => x.last < r.last)).reverse with _ | ⟨aL, restRev⟩
        · exact absurd (List.reverse_eq_nil_iff.mp hAr) hA_ne
        · have hA_dec : l.takeWhile (fun x => x.last < r.last) = restRev.reverse ++ [aL] := by
            rw [← List.reverse_reverse (l.takeWhile (fun x => x.last < r.last)), hAr,
              List.reverse_cons]
          have haL : aL ∈ l.takeWhile (fun x => x.last < r.last) := by
            rw [hA_dec]
            simp
          refine ⟨restRev.reverse, aL, b :: bs, ?_, ?_, ?_, ?_, ?_⟩
          · rw [← hAB, hB, hA_dec]
            simp [List.append_assoc]
          · rw [remove_eq_match l r hre hl, hB]
            simp only [hAe', Bool.false_eq_true, if_false, hbo', hAr]
          · intro x hx
            exact hA_lt x (by rw [hA_dec]; exact List.mem_append.mpr (Or.inl hx))
          · intro x hx
            exact hB_ge x (by rw [hB]; exact hx)
          · intro hfa x hx
            have hgl : ∀ y ∈ (l.takeWhile (fun x => x.last < r.last)).getLast?, y = aL := by
              intro y hy
              rw [← List.head?_reverse, hAr] at hy
              have h2 : aL = y := by simpa using hy
              exact h2.symm
            rw [← hAB, hB] at hx
            rcases List.mem_append.mp hx with h | h
            · exact hAfail aL haL hgl hfa x h
            · rcases List.mem_cons.mp h with h2 | h2
              · rwa [h2]
              · exact hBfail b bs hB hbo' x h2

/-- Master correctness theorem for `SparseRange::remove(Range)`: on a
well-formed sparse range it preserves the invariant and removes exactly the
points of `r`. -/
theorem remove_master (l : List Range) (r : Range) (hW : SparseRange.Wf l)
    (hrwf : r.wf) :
    SparseRange.Wf (SparseRange.remove l r) ∧
      ∀ a, SparseRange.covers (SparseRange.remove l r) a ↔
        SparseRange.covers l a ∧ ¬ r.memA a := by
  obtain ⟨hw, hc⟩ := hW
  by_cases hre : r.is_empty = true
  · have hrem : SparseRange.remove l r = l := by
      unfold SparseRange.remove
      rw [hre]
      rfl
    rw [hrem]
    refine ⟨⟨hw, hc⟩, ?_⟩
    intro a
    have hnr : ¬ r.memA a := by
      rintro ⟨h1, h2⟩
      rw [Range.is_empty_true_iff] at hre
      exact hre (by unfold Range.ne; omega)
    tauto
  · have hre' : r.is_empty = false := by rwa [Bool.not_eq_true] at hre
    have hrne : r.ne := (Range.is_empty_false_iff r).mp hre'
    by_cases hlnil : l = []
    · subst hlnil
      have hrem : SparseRange.remove [] r = [] := by
        unfold SparseRange.remove
        rw [hre']
        rfl
      rw [hrem]
      refine ⟨⟨by simp, by simp⟩, ?_⟩
      intro a
      constructor
      · intro h
        exact absurd h (covers_nil a)
      · rintro ⟨h, h2⟩
        exact absurd h (covers_nil a)
    · obtain ⟨pre, cur, suf, hdec, heq, hpre_lt, hsuf_ge, hcomplete⟩ :=
        remove_dispatch l r hre' hrne hrwf hlnil hw hc
      rw [heq]
      exact removeGo_master r l pre cur suf hrne hrwf hdec hw hc hpre_lt hsuf_ge hcomplete

/-! ## Capabilities, classifier maps and the scan engine (src/capmap.cc) -/

/-- `CHERI_PERM_LOAD` (cheriintrin.h, Morello): bit 17. -/
def CHERI_PERM_LOAD : Nat := 2 ^ 17

/-- `CHERI_PERM_LOAD_CAP` (cheriintrin.h, Morello): bit 14. -/
def CHERI_PERM_LOAD_CAP : Nat := 2 ^ 14

/-- A Morello capability as observed through the cheriintrin accessors used
by the code: `cheri_tag_get`, `cheri_is_sealed`, `cheri_perms_get`,
`cheri_base_get` and `cheri_length_get`. -/
structure Cap where
  tag : Bool
  sealed : Bool
  perms : Nat
  base : Nat
  length : Nat
deriving DecidableEq, Repr

/-- Well-formedness of a capability's observed fields as machine words
(`cheri_length_get` saturates at `2^64 - 1`). -/
def Cap.wfC (c : Cap) : Prop := c.base < W64 ∧ c.length < W64

instance (c : Cap) : Decidable (c.wfC) := by unfold Cap.wfC; infer_instance

/-- `Range::from_cap`: the saturated full-address-space case is special-cased,
otherwise `from_base_length(base, length)`. -/
def Range.from_cap (c : Cap) : Range :=
  if c.base = 0 ∧ c.length = W64 - 1 then Range.from_base_last 0 (W64 - 1)
  else Range.from_base_length c.base c.length

namespace LoadCapMap

/-- `LoadCapMap::try_combine`: accept tagged, unsealed capabilities holding
both Load and LoadCap; combine `Range::from_cap(cap)` (unshrunk) into the
recorded ranges.  Returns the flag and the updated range set. -/
def try_combine (l : List Range) (c : Cap) : Bool × List Range :=
  if c.tag = false then (false, l)
  else if c.sealed = true then (false, l)
  else if c.perms &&& (CHERI_PERM_LOAD ||| CHERI_PERM_LOAD_CAP) ≠
      CHERI_PERM_LOAD ||| CHERI_PERM_LOAD_CAP then (false, l)
  else (true, SparseRange.combine l (Range.from_cap c))

/-- `LoadCapMap::includes_cap(addr, cont)`: look up the lower bound of the
capability word `[addr, addr+16)` and test inclusion; on success write
`addr + 16` through `cont` (modelled as returning the new pointee), on
failure return the pointee unchanged. -/
def includes_cap (l : List Range) (addr : Nat) (cont : Nat) : Bool × Nat :=
  match l.dropWhile (fun x => x.last < (Range.from_base_length addr capW).last) with
  | c :: _ =>
    if c.includesB (Range.from_base_length addr capW) then (true, (addr + capW) % W64)
    else (false, cont)
  | [] => (false, cont)

end LoadCapMap

namespace LoadMap

/-- `LoadMap::try_combine`: accept tagged, unsealed capabilities whose
permissions include Load (a non-zero masked value in the source). -/
def try_combine (l : List Range) (c : Cap) : Bool × List Range :=
  if c.tag = false then (false, l)
  else if c.sealed = true then (false, l)
  else if c.perms &&& CHERI_PERM_LOAD ≠ 0 then
    (true, SparseRange.combine l (Range.from_cap c))
  else (false, l)

end LoadMap

/-- The scan-region computation of `Mapper::scan` (capmap.cc lines 65-74):
`SparseRange(Range::from_cap(cap))`, minus the already-explored LoadCapMap
ranges, minus `exclude_self_`, minus the complement of `include_`. -/
def scanRegion (lcm excludeSelf includeR : List Range) (c : Cap) : List Range :=
  let s1 := SparseRange.combine [] (Range.from_cap c)
  let s2 := SparseRange.removeAll s1 lcm
  let s3 := SparseRange.removeAll s2 excludeSelf
  let excl := SparseRange.removeAll (SparseRange.combine [] Range.full_64bit) includeR
  SparseRange.removeAll s3 excl

/-- `next += sizeof(void *__capability)` in the scan's word loop: 64-bit
wrapping addition of 16. -/
def addrNext (a : Nat) : Nat := (a + capW) % W64

/-- The `n`-th value taken by `next` in the scan's word loop started at
`base`. -/
def addrIter (base : Nat) : Nat → Nat
  | 0 => base
  | n + 1 => addrNext (addrIter base n)

/-- The mutable `Mapper` state: `include_`, `exclude_self_`, the
`load_cap_map_` ranges, an installed `LoadMap`'s ranges (the `maps_`
vector), the depth limits and the named roots. -/
structure MapperSt where
  includeR : List Range
  excludeSelf : List Range
  loadCap : List Range
  loadMap : List Range
  maxScanDepth : Nat
  maxSeenScanDepth : Nat
  roots : List (String × Cap)
deriving DecidableEq, Repr

/-- The three suspended shapes of the recursive scan: a call to
`Mapper::scan(cap, depth)`, the loop over the scan-region parts, and the
word loop `for (next = base; next <= last; next += 16)` inside one part. -/
inductive ScanCmd where
  | go (c : Cap) (depth : Nat)
  | parts (depth : Nat) (ps : List Range)
  | addrs (depth : Nat) (next lst : Nat)

/-- The recursive body of `Mapper::scan(cap, depth)` (capmap.cc lines
56-93), fuel-indexed so that the possibly-divergent loops become total:
`none` means the execution did not complete within `fuel` steps.  `mem`
gives the capability word loaded by the inline `ldr` at each address. -/
def scanRun : Nat → (Nat → Cap) → MapperSt → ScanCmd → Option MapperSt
  | 0, _, _, _ => none
  | f + 1, mem, m, .go c depth =>
    -- if (depth > max_seen_scan_depth_) max_seen_scan_depth_ = depth;
    let m1 := if m.maxSeenScanDepth < depth then { m with maxSeenScanDepth := depth } else m
    -- for (auto &map : maps_) map->try_combine(cap);
    let m2 := { m1 with loadMap := (LoadMap.try_combine m1.loadMap c).2 }
    let region := scanRegion m2.loadCap m2.excludeSelf m2.includeR c
    -- if (load_cap_map_.try_combine(cap) && (depth < max_scan_depth_))
    let res := LoadCapMap.try_combine m2.loadCap c
    let m3 := { m2 with loadCap := res.2 }
    if res.1 = true ∧ depth < m3.maxScanDepth then scanRun f mem m3 (.parts depth region)
    else some m3
  | _ + 1, _, m, .parts _ [] => some m
  | f + 1, mem, m, .parts depth (p :: ps) =>
    -- scan_range.shrink_to_alignment(16); last = align_down(scan_range.last(), 16);
    let sp := p.shrunk_to_alignment capW
    let lst := Range.alignDown sp.last capW
    match scanRun f mem m (.addrs depth sp.base lst) with
    | some m2 => scanRun f mem m2 (.parts depth ps)
    | none => none
  | f + 1, mem, m, .addrs depth next lst =>
    if next ≤ lst then
      match (if (mem next).tag = true then scanRun f mem m (.go (mem next) (depth + 1))
             else some m) with
      | some m2 => scanRun f mem m2 (.addrs depth (addrNext next) lst)
      | none => none
    else some m

/-- `Mapper::scan(cap, depth)`. -/
def scanGo (fuel : Nat) (mem : Nat → Cap) (m : MapperSt) (c : Cap) (depth : Nat) :
    Option MapperSt :=
  scanRun fuel mem m (.go c depth)

/-- The top-level `Mapper::scan(cap, name)` (capmap.h lines 59-65):
refresh `exclude_self_` (`update_self_ranges`, with `selfR` the range of
`Range::from_object(this)`), then, only if the capability is tagged, record
the root and run the recursive scan at depth 0. -/
def scanTop (fuel : Nat) (mem : Nat → Cap) (m : MapperSt) (selfR : Range)
    (c : Cap) (name : String) : Option MapperSt :=
  let m1 := { m with excludeSelf := SparseRange.combine [] selfR }
  if c.tag = true then scanGo fuel mem { m1 with roots := m1.roots ++ [(name, c)] } c 0
  else some m1

/-! ## The test harness (tests/tests.cc) -/

/-- The short-option `do { switch (*c) } while (*(++c) != 0)` loop of
`Options::parse_arg`, entered at `arg[1]`; the empty list is the case
`*c == 0` immediately, which hits the `default:` and returns false. -/
def shortLoop : List Char → Bool
  | [] => false
  | c :: cs => if c = 'v' then (match cs with | [] => true | _ :: _ => shortLoop cs) else false

/-- `Options::parse_arg` (tests.cc lines 115-143), modelling the returned
flag: long options compare against "--verbose", short options run the
character loop, anything else is a positional filter and accepted. -/
def parse_arg (arg : List Char) : Bool :=
  match arg with
  | '-' :: '-' :: rest => if ('-' :: '-' :: rest) = "--verbose".toList then true else false
  | '-' :: rest => shortLoop rest
  | _ => true

/-- The exit status of `main` (tests.cc lines 153-181): the argument loop
calls `exit(1)` at the first argument `parse_arg` rejects; otherwise the
test loop runs and `main` returns 0 whatever the test outcomes. -/
def mainExit : List (List Char) → Nat
  | [] => 0
  | a :: rest => if parse_arg a then mainExit rest else 1

/-- `SparseRange::includes(Range)` succeeds exactly when some part includes
the (non-empty) range; by the gap invariant that part is the lower bound. -/
theorem includesQ_true_iff (l : List Range) (r : Range) (hW : SparseRange.Wf l)
    (hrne : r.ne) :
    SparseRange.includesQ l r = true ↔ ∃ p ∈ l, p.includesB r = true := by
  obtain ⟨hw, hc⟩ := hW
  have hwne : ∀ x ∈ l, x.ne := fun x hx => (hw x hx).1
  have hpw : l.Pairwise gapR := chain'_gapR_pairwise hwne hc
  obtain ⟨hA_lt, hB_ge, hcA, hcB, hgAB⟩ := split_facts l r.last hwne hc
  have hAB := List.takeWhile_append_dropWhile (fun x => decide (x.last < r.last)) l
  have hBmem : ∀ x ∈ l.dropWhile (fun x => x.last < r.last), x ∈ l := by
    intro x hx
    exact (List.dropWhile_sublist _).mem hx
  have hre : r.is_empty = false := (Range.is_empty_false_iff r).mpr hrne
  unfold SparseRange.includesQ
  rw [hre]
  simp only [Bool.false_eq_true, if_false]
  rcases hB : l.dropWhile (fun x => x.last < r.last) with _ | ⟨c, cs⟩
  · rw [hB]
    show false = true ↔ ∃ p ∈ l, p.includesB r = true
    simp only [Bool.false_eq_true, false_iff]
    rintro ⟨p, hp, hpinc⟩
    simp only [Range.includesB, Bool.and_eq_true, decide_eq_true_eq] at hpinc
    have hpA : p ∈ l.takeWhile (fun x => x.last < r.last) := by
      rw [← hAB] at hp
      rw [hB, List.append_nil] at hp
      exact hp
    have := hA_lt p hpA
    omega
  · rw [hB]
    show c.includesB r = true ↔ ∃ p ∈ l, p.includesB r = true
    constructor
    · intro h
      exact ⟨c, hBmem c (by rw [hB]; simp), h⟩
    · rintro ⟨p, hp, hpinc⟩
      simp only [Range.includesB, Bool.and_eq_true, decide_eq_true_eq] at hpinc ⊢
      obtain ⟨hp1, hp2⟩ := hpinc
      rw [← hAB] at hp
      rcases List.mem_append.mp hp with hpA | hpB
      · exact absurd (hA_lt p hpA) (by omega)
      · have hcge : r.last ≤ c.last := hB_ge c (by rw [hB]; simp)
        rw [hB] at hpB
        rcases List.mem_cons.mp hpB with h1 | h1
        · subst h1
          exact ⟨hp1, hp2⟩
        · have hg : gapR c p := by
            have hBpw2 := hpw.sublist (List.dropWhile_sublist
              (fun x => decide (x.last < r.last)))
            rw [hB] at hBpw2
            exact (List.pairwise_cons.mp hBpw2).1 p h1
          have hcne : c.ne := hwne c (hBmem c (by rw [hB]; simp))
          unfold gapR at hg
          unfold Range.ne at hcne
          refine ⟨by omega, hcge⟩

/-- `SparseRange::includes(ptraddr_t)` decides semantic coverage on a
well-formed sparse range. -/
theorem includesAddr_iff (l : List Range) (a : Nat) (hW : SparseRange.Wf l) :
    SparseRange.includesAddr l a = true ↔ SparseRange.covers l a := by
  unfold SparseRange.includesAddr
  rw [includesQ_true_iff l (Range.from_base_last a a) hW
    (by unfold Range.ne Range.from_base_last; simp)]
  unfold SparseRange.covers
  constructor
  · rintro ⟨p, hp, hpinc⟩
    simp only [Range.includesB, Range.from_base_last, Bool.and_eq_true,
      decide_eq_true_eq] at hpinc
    exact ⟨p, hp, hpinc.1, hpinc.2⟩
  · rintro ⟨p, hp, h1, h2⟩
    refine ⟨p, hp, ?_⟩
    simp only [Range.includesB, Range.from_base_last, Bool.and_eq_true,
      decide_eq_true_eq]
    exact ⟨h1, h2⟩

/-- Total version of `combine_master`: the empty range is a no-op (and
covers nothing), so only `wf` is needed. -/
theorem combine_correct (l : List Range) (r : Range) (hW : SparseRange.Wf l)
    (hrwf : r.wf) :
    SparseRange.Wf (SparseRange.combine l r) ∧
      ∀ a, SparseRange.covers (SparseRange.combine l r) a ↔
        SparseRange.covers l a ∨ r.memA a := by
  by_cases hre : r.is_empty = true
  · rw [SparseRange.combine_empty l r hre]
    refine ⟨hW, fun a => ?_⟩
    have hnm : ¬ r.memA a := by
      rintro ⟨h1, h2⟩
      rw [Range.is_empty_true_iff] at hre
      exact hre (by unfold Range.ne; omega)
    tauto
  · have hrne : r.ne := (Range.is_empty_false_iff r).mp
      (by rwa [Bool.not_eq_true] at hre)
    obtain ⟨P, m, S, heq, hWf2, hinc, hcov⟩ := combine_master l r hW hrwf hrne
    rw [heq]
    exact ⟨hWf2, hcov⟩

/-- C1: `SparseRange::combine` and `SparseRange::remove` implement set union
and set difference at the address-membership level: for a well-formed sparse
range `s` and a non-empty 64-bit range `r`, after `combine(r)` the query
`includes(a)` holds iff it held before or `r.includes(a)`, and after
`remove(r)` it holds iff it held before and not `r.includes(a)`. -/
theorem sparse_combine_remove_pointwise (s : List Range) (r : Range)
    (hW : SparseRange.Wf s) (hrwf : r.wf) (hrne : r.ne) :
    (∀ a, SparseRange.includesAddr (SparseRange.combine s r) a = true ↔
      (SparseRange.includesAddr s a = true ∨ r.includesA a = true)) ∧
    (∀ a, SparseRange.includesAddr (SparseRange.remove s r) a = true ↔
      (SparseRange.includesAddr s a = true ∧ ¬ r.includesA a = true)) := by
  obtain ⟨hWc, hcovc⟩ := combine_correct s r hW hrwf
  obtain ⟨hWr, hcovr⟩ := remove_master s r hW hrwf
  have hA : ∀ a, r.includesA a = true ↔ r.memA a := by
    intro a
    simp [Range.includesA, Range.memA]
  constructor
  · intro a
    rw [includesAddr_iff _ _ hWc, includesAddr_iff _ _ hW, hcovc a, hA a]
  · intro a
    rw [includesAddr_iff _ _ hWr, includesAddr_iff _ _ hW, hcovr a, hA a]

theorem sparse_combine_remove_pointwise_witness :
    SparseRange.Wf [] ∧ (Range.from_base_last 2 5).wf ∧ (Range.from_base_last 2 5).ne ∧
      (SparseRange.includesAddr (SparseRange.combine [] (Range.from_base_last 2 5)) 3 = true ↔
        (SparseRange.includesAddr [] 3 = true ∨ (Range.from_base_last 2 5).includesA 3 = true)) :=
  ⟨by decide, by decide, by decide,
    (sparse_combine_remove_pointwise [] (Range.from_base_last 2 5)
      (by decide) (by decide) (by decide)).1 3⟩

/-- One mutation of a `SparseRange`: a `combine(Range)` or a `remove(Range)`
call. -/
inductive SROp where
  | comb (r : Range)
  | rem (r : Range)
deriving DecidableEq, Repr

/-- The range argument of a mutation. -/
def SROp.rangeOf : SROp → Range
  | .comb r => r
  | .rem r => r

/-- Apply one mutation. -/
def applyOp (l : List Range) : SROp → List Range
  | .comb r => SparseRange.combine l r
  | .rem r => SparseRange.remove l r

/-- Apply a call sequence in order. -/
def applyOps (l : List Range) (ops : List SROp) : List Range := ops.foldl applyOp l

theorem applyOps_Wf (ops : List SROp) : ∀ l, SparseRange.Wf l →
    (∀ op ∈ ops, (SROp.rangeOf op).wf) → SparseRange.Wf (applyOps l ops) := by
  induction ops with
  | nil => exact fun l h _ => h
  | cons op rest ih =>
    intro l h hops
    have h1 : SparseRange.Wf (applyOp l op) := by
      cases op with
      | comb r => exact (combine_correct l r h (hops (SROp.comb r) (by simp))).1
      | rem r => exact (remove_master l r h (hops (SROp.rem r) (by simp))).1
    exact ih _ h1 (fun o ho => hops o (by simp [ho]))

/-- C2: every `SparseRange` reachable from the empty one by `combine(Range)`
and `remove(Range)` calls (with 64-bit range arguments) satisfies the
representation invariant: all parts non-empty, pairwise neither overlapping
nor adjacent, and sorted by upper bound. -/
theorem sparse_reachable_invariant (ops : List SROp)
    (hops : ∀ op ∈ ops, (SROp.rangeOf op).wf) :
    (∀ x ∈ applyOps [] ops, Range.ne x) ∧
    (applyOps [] ops).Pairwise (fun x y => x.last + 1 < y.base) ∧
    (applyOps [] ops).Pairwise (fun x y => x.last < y.last) := by
  have hWf : SparseRange.Wf (applyOps [] ops) :=
    applyOps_Wf ops [] ⟨by simp, by simp⟩ hops
  obtain ⟨hw, hc⟩ := hWf
  have hwne : ∀ x ∈ applyOps [] ops, Range.ne x := fun x hx => (hw x hx).1
  have hpw := chain'_gapR_pairwise hwne hc
  refine ⟨hwne, hpw, ?_⟩
  refine List.Pairwise.imp_of_mem ?_ hpw
  intro a b ha hb hg
  have hbne := hwne b hb
  unfold gapR at hg
  unfold Range.ne at hbne
  omega

theorem sparse_reachable_invariant_witness :
    (∀ op ∈ [SROp.comb (Range.from_base_last 2 5), SROp.rem (Range.from_base_last 3 3)],
      (SROp.rangeOf op).wf) ∧
    (∀ x ∈ applyOps [] [SROp.comb (Range.from_base_last 2 5),
      SROp.rem (Range.from_base_last 3 3)], Range.ne x) :=
  ⟨by decide,
    (sparse_reachable_invariant [SROp.comb (Range.from_base_last 2 5),
      SROp.rem (Range.from_base_last 3 3)] (by decide)).1⟩

/-- C7 counterexample: for the (empty) default-constructed `Range`,
`combine(r)` is a no-op and `includes(r)` then returns `false`, not `true`:
`SparseRange::includes` rejects every empty range up front. -/
theorem combine_includes_empty_cex :
    SparseRange.includesQ (SparseRange.combine [] Range.emptyR) Range.emptyR = false := by
  decide

/-- C7 (amended): after `combine(r)` with a non-empty 64-bit range `r` on a
well-formed `SparseRange`, `includes(r)` returns `true`. -/
theorem combine_includes (s : List Range) (r : Range) (hW : SparseRange.Wf s)
    (hrwf : r.wf) (hrne : r.ne) :
    SparseRange.includesQ (SparseRange.combine s r) r = true := by
  obtain ⟨P, m, S, heq, hWf2, hinc, hcov⟩ := combine_master s r hW hrwf hrne
  rw [heq, includesQ_true_iff _ _ hWf2 hrne]
  exact ⟨m, by simp, hinc⟩

theorem combine_includes_witness :
    SparseRange.includesQ (SparseRange.combine [] (Range.from_base_last 2 5))
      (Range.from_base_last 2 5) = true :=
  combine_includes [] (Range.from_base_last 2 5) (by decide) (by decide) (by decide)

/-- C8 counterexample: the canonical empty range is not a left identity for
`Range::try_combine`: combining it with `[5, 10]` fails the combinability
test and leaves the receiver equal to the empty range, not `[5, 10]`. -/
theorem try_combine_empty_left_cex :
    (Range.emptyR.try_combine (Range.from_base_last 5 10)).2 ≠
      Range.from_base_last 5 10 := by
  decide

/-- C8 (amended): the canonical empty range is a right identity for the
value computed by `Range::try_combine`: for every 64-bit range `x`,
`x.try_combine(empty)` leaves `x`'s value unchanged (whether or not the
combinability test succeeds). -/
theorem try_combine_empty_right (x : Range) (hx : x.wf) :
    (x.try_combine Range.emptyR).2 = x := by
  obtain ⟨h1, h2⟩ := hx
  unfold Range.try_combine
  cases ht : x.touchB Range.emptyR with
  | false => rfl
  | true =>
    show x.mrg Range.emptyR = x
    unfold Range.mrg Range.emptyR
    rw [W64_eq] at h1 h2 ⊢
    have hm1 : min x.base (18446744073709551616 - 1) = x.base := by omega
    have hm2 : max x.last 0 = x.last := by omega
    rw [hm1, hm2]

theorem try_combine_empty_right_witness :
    (Range.from_base_last 5 10).wf ∧
      ((Range.from_base_last 5 10).try_combine Range.emptyR).2 =
        Range.from_base_last 5 10 :=
  ⟨by decide, try_combine_empty_right (Range.from_base_last 5 10) (by decide)⟩

/-- C9 counterexample: the harness does not always exit 0: an unrecognised
option such as "-x" makes the argument loop call `exit(1)`. -/
theorem tests_main_exit_cex : mainExit [['-', 'x']] = 1 := by decide

/-- C9 (amended): the harness exits 0 iff every command-line argument
parses (test outcomes never affect the exit status); an argument
`Options::parse_arg` rejects makes it exit 1. -/
theorem tests_main_exit (args : List (List Char)) :
    mainExit args = if args.all parse_arg then 0 else 1 := by
  induction args with
  | nil => rfl
  | cons a rest ih =>
    unfold mainExit
    cases hp : parse_arg a with
    | true => simp [List.all_cons, hp, ih]
    | false => simp [List.all_cons, hp]

/-- C10: `LoadCapMap::includes_cap(addr, cont)` writes `addr + 16` through
`cont` exactly on the `true` branch; when it returns `false` the pointee is
left unmodified. -/
theorem includes_cap_frame (l : List Range) (addr cont : Nat) :
    ((LoadCapMap.includes_cap l addr cont).1 = false →
      (LoadCapMap.includes_cap l addr cont).2 = cont) ∧
    ((LoadCapMap.includes_cap l addr cont).1 = true →
      (LoadCapMap.includes_cap l addr cont).2 = (addr + capW) % W64) := by
  rcases hB : l.dropWhile
      (fun x => x.last < (Range.from_base_length addr capW).last) with _ | ⟨c, cs⟩
  · have h : LoadCapMap.includes_cap l addr cont = (false, cont) := by
      unfold LoadCapMap.includes_cap
      rw [hB]
    rw [h]
    exact ⟨fun _ => rfl, fun hcon => Bool.noConfusion hcon⟩
  · by_cases hin : c.includesB (Range.from_base_length addr capW) = true
    · have h : LoadCapMap.includes_cap l addr cont = (true, (addr + capW) % W64) := by
        unfold LoadCapMap.includes_cap
        rw [hB]
        simp [hin]
      rw [h]
      exact ⟨fun hcon => Bool.noConfusion hcon, fun _ => rfl⟩
    · have hin' : c.includesB (Range.from_base_length addr capW) = false := by
        rwa [Bool.not_eq_true] at hin
      have h : LoadCapMap.includes_cap l addr cont = (false, cont) := by
        unfold LoadCapMap.includes_cap
        rw [hB]
        simp [hin']
      rw [h]
      exact ⟨fun _ => rfl, fun hcon => Bool.noConfusion hcon⟩

theorem includes_cap_frame_witness :
    (LoadCapMap.includes_cap [] 5 7).1 = false ∧
      (LoadCapMap.includes_cap [] 5 7).2 = 7 :=
  ⟨by decide, (includes_cap_frame [] 5 7).1 (by decide)⟩

/-- C4: `LoadCapMap::try_combine` does not shrink the accepted bounds.  For
the tagged, unsealed Load+LoadCap capability with `base = 8, length = 16`
it returns true and records the unaligned range `[8, 23]`, although
shrinking those bounds to 16-byte alignment (as documented) yields an empty
range, i.e. nothing should have been recorded. -/
theorem load_cap_map_no_shrink_bug :
    (LoadCapMap.try_combine []
      ⟨true, false, CHERI_PERM_LOAD ||| CHERI_PERM_LOAD_CAP, 8, 16⟩).1 = true ∧
    (LoadCapMap.try_combine []
      ⟨true, false, CHERI_PERM_LOAD ||| CHERI_PERM_LOAD_CAP, 8, 16⟩).2 =
      [Range.from_base_last 8 23] ∧
    ((Range.from_cap
      ⟨true, false, CHERI_PERM_LOAD ||| CHERI_PERM_LOAD_CAP, 8, 16⟩).shrunk_to_alignment
        capW).is_empty = true :=
  ⟨by decide, by decide, by decide⟩

theorem Range.from_cap_wf (c : Cap) (hc : c.wfC) : (Range.from_cap c).wf := by
  obtain ⟨h1, h2⟩ := hc
  unfold Range.from_cap
  by_cases hs : c.base = 0 ∧ c.length = W64 - 1
  · rw [if_pos hs]
    show 0 < W64 ∧ W64 - 1 < W64
    rw [W64_eq]
    omega
  · rw [if_neg hs]
    unfold Range.wf Range.from_base_length Range.from_base_last
    refine ⟨h1, ?_⟩
    exact Nat.mod_lt _ (by rw [W64_eq]; omega)

/-- The branch structure of `LoadCapMap::try_combine`: it either rejects and
returns the set unchanged, or all three checks pass and it combines the
capability's (unshrunk) bounds. -/
theorem lcm_try_combine_eq (l : List Range) (c : Cap) :
    (LoadCapMap.try_combine l c).2 = l ∨
    ((LoadCapMap.try_combine l c).2 = SparseRange.combine l (Range.from_cap c) ∧
      c.tag = true ∧ c.sealed = false ∧
      c.perms &&& (CHERI_PERM_LOAD ||| CHERI_PERM_LOAD_CAP) =
        CHERI_PERM_LOAD ||| CHERI_PERM_LOAD_CAP) := by
  unfold LoadCapMap.try_combine
  by_cases h1 : c.tag = false
  · rw [if_pos h1]
    exact Or.inl rfl
  · rw [if_neg h1]
    by_cases h2 : c.sealed = true
    · rw [if_pos h2]
      exact Or.inl rfl
    · rw [if_neg h2]
      by_cases h3 : c.perms &&& (CHERI_PERM_LOAD ||| CHERI_PERM_LOAD_CAP) ≠
          CHERI_PERM_LOAD ||| CHERI_PERM_LOAD_CAP
      · rw [if_pos h3]
        exact Or.inl rfl
      · rw [if_neg h3]
        refine Or.inr ⟨rfl, ?_, ?_, not_not.mp h3⟩
        · cases hct : c.tag with
          | true => rfl
          | false => exact absurd hct h1
        · cases hcs : c.sealed with
          | false => rfl
          | true => exact absurd hcs h2

/-- The branch structure of `LoadMap::try_combine`. -/
theorem lm_try_combine_eq (l : List Range) (c : Cap) :
    (LoadMap.try_combine l c).2 = l ∨
    (LoadMap.try_combine l c).2 = SparseRange.combine l (Range.from_cap c) := by
  unfold LoadMap.try_combine
  by_cases h1 : c.tag = false
  · rw [if_pos h1]
    exact Or.inl rfl
  · rw [if_neg h1]
    by_cases h2 : c.sealed = true
    · rw [if_pos h2]
      exact Or.inl rfl
    · rw [if_neg h2]
      by_cases h3 : c.perms &&& CHERI_PERM_LOAD ≠ 0
      · rw [if_pos h3]
        exact Or.inr rfl
      · rw [if_neg h3]
        exact Or.inl rfl

/-- When `LoadCapMap::try_combine`'s checks pass, `LoadMap::try_combine`
also accepts (its permission test only needs the Load bit). -/
theorem lm_try_combine_of (l : List Range) (c : Cap) (h1 : c.tag = true)
    (h2 : c.sealed = false)
    (h3 : c.perms &&& (CHERI_PERM_LOAD ||| CHERI_PERM_LOAD_CAP) =
      CHERI_PERM_LOAD ||| CHERI_PERM_LOAD_CAP) :
    (LoadMap.try_combine l c).2 = SparseRange.combine l (Range.from_cap c) := by
  have hbit : c.perms &&& CHERI_PERM_LOAD ≠ 0 := by
    intro h0
    have h17 : c.perms.testBit 17 = true := by
      have hc := congrArg (fun x => x.testBit 17) h3
      simp only [Nat.testBit_land] at hc
      have hM : (CHERI_PERM_LOAD ||| CHERI_PERM_LOAD_CAP).testBit 17 = true := by decide
      rw [hM, Bool.and_true] at hc
      exact hc
    have hz := congrArg (fun x => x.testBit 17) h0
    simp only [Nat.testBit_land, Nat.zero_testBit] at hz
    have hL : CHERI_PERM_LOAD.testBit 17 = true := by decide
    rw [hL, Bool.and_true, h17] at hz
    exact Bool.noConfusion hz
  unfold LoadMap.try_combine
  rw [if_neg (by rw [h1]; exact fun hcon => Bool.noConfusion hcon),
    if_neg (by rw [h2]; exact fun hcon => Bool.noConfusion hcon), if_pos hbit]

theorem lcm_try_combine_Wf (l : List Range) (c : Cap)
    (hW : SparseRange.Wf l) (hc : c.wfC) :
    SparseRange.Wf (LoadCapMap.try_combine l c).2 := by
  rcases lcm_try_combine_eq l c with h | ⟨h, _⟩ <;> rw [h]
  · exact hW
  · exact (combine_correct l _ hW (Range.from_cap_wf c hc)).1

theorem lm_try_combine_Wf (l : List Range) (c : Cap)
    (hW : SparseRange.Wf l) (hc : c.wfC) :
    SparseRange.Wf (LoadMap.try_combine l c).2 := by
  rcases lm_try_combine_eq l c with h | h <;> rw [h]
  · exact hW
  · exact (combine_correct l _ hW (Range.from_cap_wf c hc)).1

theorem lm_try_combine_mono (l : List Range) (c : Cap)
    (hW : SparseRange.Wf l) (hc : c.wfC) :
    ∀ a, SparseRange.covers l a → SparseRange.covers (LoadMap.try_combine l c).2 a := by
  rcases lm_try_combine_eq l c with h | h <;> rw [h]
  · exact fun a ha => ha
  · intro a ha
    exact ((combine_correct l _ hW (Range.from_cap_wf c hc)).2 a).mpr (Or.inl ha)

/-- The two classifiers' recorded range sets after feeding a capability
sequence to both, starting from empty maps (what a scan does). -/
def feedLCM (caps : List Cap) : List Range :=
  caps.foldl (fun l c => (LoadCapMap.try_combine l c).2) []

def feedLM (caps : List Cap) : List Range :=
  caps.foldl (fun l c => (LoadMap.try_combine l c).2) []

theorem feed_subset_aux (caps : List Cap) :
    ∀ lcm lm, SparseRange.Wf lcm → SparseRange.Wf lm →
    (∀ c ∈ caps, c.wfC) →
    (∀ a, SparseRange.covers lcm a → SparseRange.covers lm a) →
    ∀ a, SparseRange.covers
        (caps.foldl (fun l c => (LoadCapMap.try_combine l c).2) lcm) a →
      SparseRange.covers (caps.foldl (fun l c => (LoadMap.try_combine l c).2) lm) a := by
  induction caps with
  | nil => exact fun lcm lm _ _ _ hsub a => hsub a
  | cons c rest ih =>
    intro lcm lm hWc hWm hcw hsub a
    simp only [List.foldl_cons]
    have hcwf : c.wfC := hcw c (by simp)
    refine ih _ _ (lcm_try_combine_Wf lcm c hWc hcwf)
      (lm_try_combine_Wf lm c hWm hcwf)
      (fun x hx => hcw x (by simp [hx])) ?_ a
    intro x hx
    rcases lcm_try_combine_eq lcm c with h | ⟨h, h1, h2, h3⟩
    · rw [h] at hx
      exact lm_try_combine_mono lm c hWm hcwf x (hsub x hx)
    · rw [h] at hx
      rw [lm_try_combine_of lm c h1 h2 h3]
      rw [(combine_correct lcm _ hWc (Range.from_cap_wf c hcwf)).2 x] at hx
      rw [(combine_correct lm _ hWm (Range.from_cap_wf c hcwf)).2 x]
      rcases hx with hx | hx
      · exact Or.inl (hsub x hx)
      · exact Or.inr hx

/-- C5: over any capability sequence fed to both classifiers, the LoadMap's
recorded set includes the LoadCapMap's: every address the LoadCapMap covers
is covered by the LoadMap, because LoadMap accepts every tagged unsealed
capability with Load while LoadCapMap additionally requires LoadCap. -/
theorem load_map_supseteq_load_cap_map (caps : List Cap)
    (h : ∀ c ∈ caps, c.wfC) :
    ∀ a, SparseRange.covers (feedLCM caps) a → SparseRange.covers (feedLM caps) a :=
  feed_subset_aux caps [] [] ⟨by simp, by simp⟩ ⟨by simp, by simp⟩ h (fun _ ha => ha)

theorem load_map_supseteq_load_cap_map_witness :
    (∀ c ∈ [(⟨true, false, CHERI_PERM_LOAD ||| CHERI_PERM_LOAD_CAP, 0, 32⟩ : Cap)],
      c.wfC) ∧
    SparseRange.covers
      (feedLM [⟨true, false, CHERI_PERM_LOAD ||| CHERI_PERM_LOAD_CAP, 0, 32⟩]) 5 :=
  ⟨by decide,
    load_map_supseteq_load_cap_map
      [⟨true, false, CHERI_PERM_LOAD ||| CHERI_PERM_LOAD_CAP, 0, 32⟩] (by decide) 5
      (by decide)⟩

/-- C6: a top-level `Mapper::scan(cap, name)` on an untagged capability only
refreshes `exclude_self_` (via `update_self_ranges`) and returns: for every
fuel and memory, no root is recorded, no map (LoadCapMap or installed
LoadMap) changes, the depth statistic is untouched, and no address is
dereferenced (the result does not depend on `mem`). -/
theorem scan_untagged_noop (fuel : Nat) (mem : Nat → Cap) (m : MapperSt)
    (selfR : Range) (c : Cap) (name : String) (h : c.tag = false) :
    scanTop fuel mem m selfR c name =
      some { m with excludeSelf := SparseRange.combine [] selfR } := by
  unfold scanTop
  rw [h]
  rfl

theorem scan_untagged_noop_witness :
    (Cap.tag ⟨false, false, 0, 0, 0⟩ = false) ∧
    scanTop 3 (fun _ => ⟨false, false, 0, 0, 0⟩)
        ⟨[], [], [], [], 0, 0, []⟩ (Range.from_base_last 0 15)
        ⟨false, false, 0, 0, 0⟩ "root" =
      some { (⟨[], [], [], [], 0, 0, []⟩ : MapperSt) with
        excludeSelf := SparseRange.combine [] (Range.from_base_last 0 15) } :=
  ⟨rfl, scan_untagged_noop 3 (fun _ => ⟨false, false, 0, 0, 0⟩)
    ⟨[], [], [], [], 0, 0, []⟩ (Range.from_base_last 0 15)
    ⟨false, false, 0, 0, 0⟩ "root" rfl⟩

/-- One-step unfolding of the scan engine at a `.parts` cons cell. -/
theorem scanRun_parts_cons (f : Nat) (mem : Nat → Cap) (m : MapperSt) (depth : Nat)
    (p : Range) (ps : List Range) :
    scanRun (f + 1) mem m (.parts depth (p :: ps)) =
      match scanRun f mem m (.addrs depth (p.shrunk_to_alignment capW).base
          (Range.alignDown (p.shrunk_to_alignment capW).last capW)) with
      | some m2 => scanRun f mem m2 (.parts depth ps)
      | none => none := rfl

/-- One-step unfolding of the scan engine at a word-loop iteration. -/
theorem scanRun_addrs_succ (f : Nat) (mem : Nat → Cap) (m : MapperSt) (depth : Nat)
    (next lst : Nat) :
    scanRun (f + 1) mem m (.addrs depth next lst) =
      if next ≤ lst then
        match (if (mem next).tag = true then scanRun f mem m (.go (mem next) (depth + 1))
               else some m) with
        | some m2 => scanRun f mem m2 (.addrs depth (addrNext next) lst)
        | none => none
      else some m := rfl

/-- Closed form of the word-loop iterates. -/
theorem addrIter_eq (base : Nat) (hb : base < W64) :
    ∀ n, addrIter base n = (base + capW * n) % W64 := by
  intro n
  induction n with
  | zero =>
    show base = (base + capW * 0) % W64
    rw [Nat.mul_zero, Nat.add_zero, Nat.mod_eq_of_lt hb]
  | succ k ih =>
    show addrNext (addrIter base k) = (base + capW * (k + 1)) % W64
    rw [ih]
    unfold addrNext
    rw [Nat.mod_add_mod]
    have h2 : base + capW * k + capW = base + capW * (k + 1) := by ring
    rw [h2]

/-- If the word-loop bound reaches the top capability word, the loop guard
holds at every iteration (the 64-bit increment wraps), so the
`for (next = base; next <= last; next += 16)` loop never exits and the
modelled scan exhausts any amount of fuel. -/
theorem scanRun_addrs_diverges (mem : Nat → Cap) (hmem : ∀ a, (mem a).tag = false)
    (depth lst : Nat) (hlst : W64 - capW ≤ lst) :
    ∀ fuel m next, next % capW = 0 → next < W64 →
      scanRun fuel mem m (.addrs depth next lst) = none := by
  intro fuel
  induction fuel with
  | zero => intro m next _ _; rfl
  | succ f ih =>
    intro m next h1 h2
    rw [scanRun_addrs_succ]
    have hg : next ≤ lst := by
      unfold capW at h1 hlst
      rw [W64_eq] at h2 hlst
      omega
    rw [if_pos hg, hmem next]
    simp only [Bool.false_eq_true, if_false]
    have hdvd : capW ∣ W64 := by
      refine ⟨2 ^ 60, ?_⟩
      unfold capW W64
      norm_num
    refine ih m (addrNext next) ?_ ?_
    · unfold addrNext
      rw [Nat.mod_mod_of_dvd _ hdvd]
      unfold capW at h1 ⊢
      omega
    · exact Nat.mod_lt _ (by rw [W64_eq]; omega)

/-- The all-untagged memory: every loaded capability word has tag 0. -/
def memU : Nat → Cap := fun _ => ⟨false, false, 0, 0, 0⟩

/-- A full-address-space root capability: tagged, unsealed, Load + LoadCap,
`base = 0` with saturated length. -/
def cap3 : Cap := ⟨true, false, CHERI_PERM_LOAD ||| CHERI_PERM_LOAD_CAP, 0, W64 - 1⟩

/-- A freshly constructed `Mapper(SparseRange(Range::full_64bit()))`:
everything included, nothing scanned yet, default depth limit. -/
def mSt3 : MapperSt :=
  { includeR := [Range.full_64bit], excludeSelf := [], loadCap := [], loadMap := [],
    maxScanDepth := W64 - 1, maxSeenScanDepth := 0, roots := [] }

/-- The state just after the untagged-root check of the counterexample scan:
`exclude_self_` holds the mapper's own 16-byte object at 32 and the root is
recorded. -/
def mG3 : MapperSt :=
  { includeR := [Range.full_64bit], excludeSelf := [Range.from_base_last 32 47],
    loadCap := [], loadMap := [], maxScanDepth := W64 - 1, maxSeenScanDepth := 0,
    roots := [("root", cap3)] }

/-- The state after the first recursive call's map updates: both classifiers
absorbed the full-space root. -/
def mG4 : MapperSt :=
  { includeR := [Range.full_64bit], excludeSelf := [Range.from_base_last 32 47],
    loadCap := [Range.from_base_last 0 (W64 - 1)],
    loadMap := [Range.from_base_last 0 (W64 - 1)], maxScanDepth := W64 - 1,
    maxSeenScanDepth := 0, roots := [("root", cap3)] }

/-- C3 counterexample: scanning a full-address-space root (tagged, unsealed,
Load+LoadCap, include = everything, memory holding no valid capabilities)
never terminates: the word loop of the scan part `[48, 2^64-1]` wraps at the
top of the address space, so the modelled scan exhausts every fuel bound;
moreover the loop revisits its starting address after `2^60` iterations, so
that capability-word address is examined more than once. -/
theorem scan_diverges_cex :
    (∀ fuel, scanTop fuel memU mSt3 (Range.from_base_last 32 47) cap3 "root" = none) ∧
      addrIter 48 (2 ^ 60) = addrIter 48 0 := by
  have hmem : ∀ a, (memU a).tag = false := fun _ => rfl
  constructor
  · have hdiv : ∀ f m, scanRun f memU m (.addrs 0 48 (W64 - capW)) = none := by
      intro f m
      exact scanRun_addrs_diverges memU hmem 0 (W64 - capW) (le_refl _) f m 48
        (by decide) (by rw [W64_eq]; omega)
    have hparts1 : ∀ f m,
        scanRun f memU m (.parts 0 [Range.from_base_last 48 (W64 - 1)]) = none := by
      intro f m
      cases f with
      | zero => rfl
      | succ g =>
        rw [scanRun_parts_cons]
        have hb : ((Range.from_base_last 48 (W64 - 1)).shrunk_to_alignment capW).base
            = 48 := by decide
        have hl : Range.alignDown
            ((Range.from_base_last 48 (W64 - 1)).shrunk_to_alignment capW).last capW
            = W64 - capW := by decide
        rw [hb, hl, hdiv g m]
    have hparts2 : ∀ f m, scanRun f memU m
        (.parts 0 [Range.from_base_last 0 31, Range.from_base_last 48 (W64 - 1)])
        = none := by
      intro f m
      cases f with
      | zero => rfl
      | succ g =>
        rw [scanRun_parts_cons]
        cases h1 : scanRun g memU m (.addrs 0
            ((Range.from_base_last 0 31).shrunk_to_alignment capW).base
            (Range.alignDown
              ((Range.from_base_last 0 31).shrunk_to_alignment capW).last capW)) with
        | none => rfl
        | some m2 => exact hparts1 g m2
    intro fuel
    have hTop : scanTop fuel memU mSt3 (Range.from_base_last 32 47) cap3 "root" =
        scanRun fuel memU mG3 (.go cap3 0) := rfl
    rw [hTop]
    cases fuel with
    | zero => rfl
    | succ f =>
      have hgo : scanRun (f + 1) memU mG3 (.go cap3 0) = scanRun f memU mG4
          (.parts 0 [Range.from_base_last 0 31, Range.from_base_last 48 (W64 - 1)]) :=
        rfl
      rw [hgo]
      exact hparts2 f mG4
  · rw [addrIter_eq 48 (by rw [W64_eq]; omega) (2 ^ 60),
      addrIter_eq 48 (by rw [W64_eq]; omega) 0]
    decide

/-- C3 (amended): as long as the word-loop bound stays strictly below the
top capability word (`last + 16 < 2^64`), the loop
`for (next = base; next <= last; next += 16)` exits after finitely many
iterations and the capability-word addresses it examines are pairwise
distinct — each address is examined at most once. -/
theorem scan_word_loop_at_most_once (b L : Nat) (hL : L + capW < W64) :
    ∃ n, L < addrIter b n ∧ (∀ m < n, addrIter b m ≤ L) ∧
      ((List.range n).map (addrIter b)).Nodup := by
  by_cases hbL : b ≤ L
  · have haux : ∀ m, b + capW * m ≤ L + capW → addrIter b m = b + capW * m := by
      intro m
      induction m with
      | zero =>
        intro hm
        show b = b + capW * 0
        rw [Nat.mul_zero, Nat.add_zero]
      | succ k ih =>
        intro hm
        have hk : b + capW * k ≤ L + capW := by
          unfold capW at *
          omega
        show addrNext (addrIter b k) = b + capW * (k + 1)
        rw [ih hk]
        unfold addrNext
        rw [Nat.mod_eq_of_lt (by unfold capW at *; omega)]
        ring
    refine ⟨(L - b) / capW + 1, ?_, ?_, ?_⟩
    · rw [haux _ (by unfold capW at *; omega)]
      unfold capW at *
      omega
    · intro m hm
      rw [haux _ (by unfold capW at *; omega)]
      unfold capW at *
      omega
    · have hmapeq : (List.range ((L - b) / capW + 1)).map (addrIter b) =
          (List.range ((L - b) / capW + 1)).map (fun m => b + capW * m) := by
        refine List.map_congr_left ?_
        intro m hm
        rw [List.mem_range] at hm
        exact haux m (by unfold capW at *; omega)
      rw [hmapeq]
      refine (List.nodup_range _).map ?_
      intro m1 m2 h
      simp only at h
      unfold capW at h
      omega
  · refine ⟨0, ?_, by omega, by simp⟩
    show L < b
    omega

theorem scan_word_loop_at_most_once_witness :
    255 + capW < W64 ∧ ∃ n, 255 < addrIter 0 n ∧ (∀ m < n, addrIter 0 m ≤ 255) ∧
      ((List.range n).map (addrIter 0)).Nodup :=
  ⟨by decide, scan_word_loop_at_most_once 0 255 (by decide)⟩

/-- C4 (amended): `LoadCapMap::try_combine(cap)` returns true iff `cap` is
tagged, not sealed, and its permissions include Load and LoadCap; when it
accepts, it combines `cap`'s exact bounds `Range::from_cap(cap)` into its
`SparseRange` with no alignment shrinking, and when it rejects, its
`SparseRange` is unchanged. -/
theorem load_cap_map_try_combine_spec (l : List Range) (c : Cap) :
    ((LoadCapMap.try_combine l c).1 = true ↔
      (c.tag = true ∧ c.sealed = false ∧
        c.perms &&& (CHERI_PERM_LOAD ||| CHERI_PERM_LOAD_CAP) =
          CHERI_PERM_LOAD ||| CHERI_PERM_LOAD_CAP)) ∧
    ((LoadCapMap.try_combine l c).1 = true →
      (LoadCapMap.try_combine l c).2 = SparseRange.combine l (Range.from_cap c)) ∧
    ((LoadCapMap.try_combine l c).1 = false → (LoadCapMap.try_combine l c).2 = l) := by
  unfold LoadCapMap.try_combine
  by_cases h1 : c.tag = false
  · rw [if_pos h1]
    refine ⟨⟨fun hcon => Bool.noConfusion hcon, ?_⟩, fun hcon => Bool.noConfusion hcon,
      fun _ => rfl⟩
    rintro ⟨ht, _, _⟩
    rw [ht] at h1
    exact Bool.noConfusion h1
  · rw [if_neg h1]
    by_cases h2 : c.sealed = true
    · rw [if_pos h2]
      refine ⟨⟨fun hcon => Bool.noConfusion hcon, ?_⟩, fun hcon => Bool.noConfusion hcon,
        fun _ => rfl⟩
      rintro ⟨_, hs, _⟩
      rw [hs] at h2
      exact Bool.noConfusion h2
    · rw [if_neg h2]
      by_cases h3 : c.perms &&& (CHERI_PERM_LOAD ||| CHERI_PERM_LOAD_CAP) ≠
          CHERI_PERM_LOAD ||| CHERI_PERM_LOAD_CAP
      · rw [if_pos h3]
        refine ⟨⟨fun hcon => Bool.noConfusion hcon, ?_⟩, fun hcon => Bool.noConfusion hcon,
          fun _ => rfl⟩
        rintro ⟨_, _, hp⟩
        exact absurd hp h3
      · rw [if_neg h3]
        refine ⟨⟨fun _ => ⟨?_, ?_, not_not.mp h3⟩, fun _ => rfl⟩, fun _ => rfl,
          fun hcon => Bool.noConfusion hcon⟩
        · cases hct : c.tag with
          | true => rfl
          | false => exact absurd hct h1
        · cases hcs : c.sealed with
          | false => rfl
          | true => exact absurd hcs h2

theorem load_cap_map_try_combine_spec_witness :
    (LoadCapMap.try_combine []
        ⟨true, false, CHERI_PERM_LOAD ||| CHERI_PERM_LOAD_CAP, 8, 16⟩).1 = true ∧
    (LoadCapMap.try_combine []
        ⟨true, false, CHERI_PERM_LOAD ||| CHERI_PERM_LOAD_CAP, 8, 16⟩).2 =
      SparseRange.combine [] (Range.from_cap
        ⟨true, false, CHERI_PERM_LOAD ||| CHERI_PERM_LOAD_CAP, 8, 16⟩) :=
  ⟨by decide,
    (load_cap_map_try_combine_spec []
      ⟨true, false, CHERI_PERM_LOAD ||| CHERI_PERM_LOAD_CAP, 8, 16⟩).2.1 (by decide)⟩

/-- The scan engine instrumented with the ghost trace of every
capability-word address it examines (loads through): `scanRunT` is
`scanRun` step for step, additionally returning, in order, each address
`next` at which the word loop performs its `ldr`. -/
def scanRunT : Nat → (Nat → Cap) → MapperSt → ScanCmd → Option (MapperSt × List Nat)
  | 0, _, _, _ => none
  | f + 1, mem, m, .go c depth =>
    let m1 := if m.maxSeenScanDepth < depth then { m with maxSeenScanDepth := depth } else m
    let m2 := { m1 with loadMap := (LoadMap.try_combine m1.loadMap c).2 }
    let region := scanRegion m2.loadCap m2.excludeSelf m2.includeR c
    let res := LoadCapMap.try_combine m2.loadCap c
    let m3 := { m2 with loadCap := res.2 }
    if res.1 = true ∧ depth < m3.maxScanDepth then scanRunT f mem m3 (.parts depth region)
    else some (m3, [])
  | _ + 1, _, m, .parts _ [] => some (m, [])
  | f + 1, mem, m, .parts depth (p :: ps) =>
    let sp := p.shrunk_to_alignment capW
    let lst := Range.alignDown sp.last capW
    match scanRunT f mem m (.addrs depth sp.base lst) with
    | some (m2, t1) =>
      match scanRunT f mem m2 (.parts depth ps) with
      | some (m3, t2) => some (m3, t1 ++ t2)
      | none => none
    | none => none
  | f + 1, mem, m, .addrs depth next lst =>
    if next ≤ lst then
      match (if (mem next).tag = true then scanRunT f mem m (.go (mem next) (depth + 1))
             else some (m, [])) with
      | some (m2, t1) =>
        match scanRunT f mem m2 (.addrs depth (addrNext next) lst) with
        | some (m3, t2) => some (m3, next :: (t1 ++ t2))
        | none => none
      | none => none
    else some (m, [])

/-- The top-level `Mapper::scan(cap, name)` with the examined-address
trace. -/
def scanTopT (fuel : Nat) (mem : Nat → Cap) (m : MapperSt) (selfR : Range)
    (c : Cap) (name : String) : Option (MapperSt × List Nat) :=
  let m1 := { m with excludeSelf := SparseRange.combine [] selfR }
  if c.tag = true then
    scanRunT fuel mem { m1 with roots := m1.roots ++ [(name, c)] } (.go c 0)
  else some (m1, [])

theorem scanRun_go_succ (f : Nat) (mem : Nat → Cap) (m : MapperSt) (c : Cap)
    (depth : Nat) :
    scanRun (f + 1) mem m (.go c depth) =
      (let m1 := if m.maxSeenScanDepth < depth then { m with maxSeenScanDepth := depth }
                 else m
       let m2 := { m1 with loadMap := (LoadMap.try_combine m1.loadMap c).2 }
       let region := scanRegion m2.loadCap m2.excludeSelf m2.includeR c
       let res := LoadCapMap.try_combine m2.loadCap c
       let m3 := { m2 with loadCap := res.2 }
       if res.1 = true ∧ depth < m3.maxScanDepth then scanRun f mem m3 (.parts depth region)
       else some m3) := rfl

theorem scanRunT_go_succ (f : Nat) (mem : Nat → Cap) (m : MapperSt) (c : Cap)
    (depth : Nat) :
    scanRunT (f + 1) mem m (.go c depth) =
      (let m1 := if m.maxSeenScanDepth < depth then { m with maxSeenScanDepth := depth }
                 else m
       let m2 := { m1 with loadMap := (LoadMap.try_combine m1.loadMap c).2 }
       let region := scanRegion m2.loadCap m2.excludeSelf m2.includeR c
       let res := LoadCapMap.try_combine m2.loadCap c
       let m3 := { m2 with loadCap := res.2 }
       if res.1 = true ∧ depth < m3.maxScanDepth then scanRunT f mem m3 (.parts depth region)
       else some (m3, [])) := rfl

theorem scanRunT_parts_cons (f : Nat) (mem : Nat → Cap) (m : MapperSt) (depth : Nat)
    (p : Range) (ps : List Range) :
    scanRunT (f + 1) mem m (.parts depth (p :: ps)) =
      match scanRunT f mem m (.addrs depth (p.shrunk_to_alignment capW).base
          (Range.alignDown (p.shrunk_to_alignment capW).last capW)) with
      | some (m2, t1) =>
        match scanRunT f mem m2 (.parts depth ps) with
        | some (m3, t2) => some (m3, t1 ++ t2)
        | none => none
      | none => none := rfl

theorem scanRunT_addrs_succ (f : Nat) (mem : Nat → Cap) (m : MapperSt) (depth : Nat)
    (next lst : Nat) :
    scanRunT (f + 1) mem m (.addrs depth next lst) =
      (if next ≤ lst then
        match (if (mem next).tag = true then scanRunT f mem m (.go (mem next) (depth + 1))
               else some (m, [])) with
        | some (m2, t1) =>
          match scanRunT f mem m2 (.addrs depth (addrNext next) lst) with
          | some (m3, t2) => some (m3, next :: (t1 ++ t2))
          | none => none
        | none => none
      else some (m, [])) := rfl

/-- The instrumented engine agrees with `scanRun` on the returned state. -/
theorem scanRunT_fst : ∀ (fuel : Nat) (mem : Nat → Cap) (m : MapperSt) (cmd : ScanCmd),
    (scanRunT fuel mem m cmd).map Prod.fst = scanRun fuel mem m cmd := by
  intro fuel
  induction fuel with
  | zero => intro mem m cmd; rfl
  | succ f ih =>
    intro mem m cmd
    match cmd with
    | .go c depth =>
      rw [scanRun_go_succ, scanRunT_go_succ]
      simp only
      split
      all_goals
        split
        next h2 =>
          first
          | exact ih mem _ _
          | (rw [if_pos h2]; exact ih mem _ _)
        next h2 =>
          first
          | rfl
          | (rw [if_neg h2]; rfl)
    | .parts depth ps =>
      match ps with
      | [] => rfl
      | p :: ps =>
        rw [scanRunT_parts_cons]
        show _ = (match scanRun f mem m (.addrs depth (p.shrunk_to_alignment capW).base
            (Range.alignDown (p.shrunk_to_alignment capW).last capW)) with
          | some m2 => scanRun f mem m2 (.parts depth ps)
          | none => none)
        rw [← ih mem m (.addrs depth (p.shrunk_to_alignment capW).base
          (Range.alignDown (p.shrunk_to_alignment capW).last capW))]
        cases h1 : scanRunT f mem m (.addrs depth (p.shrunk_to_alignment capW).base
            (Range.alignDown (p.shrunk_to_alignment capW).last capW)) with
        | none => rfl
        | some x =>
          obtain ⟨m2, t1⟩ := x
          show (match scanRunT f mem m2 (.parts depth ps) with
            | some (m3, t2) => some (m3, t1 ++ t2)
            | none => none).map Prod.fst = scanRun f mem m2 (.parts depth ps)
          rw [← ih mem m2 (.parts depth ps)]
          cases h2 : scanRunT f mem m2 (.parts depth ps) with
          | none => rfl
          | some y =>
            obtain ⟨m3, t2⟩ := y
            rfl
    | .addrs depth next lst =>
      rw [scanRunT_addrs_succ]
      show _ = (if next ≤ lst then
          match (if (mem next).tag = true then scanRun f mem m (.go (mem next) (depth + 1))
                 else some m) with
          | some m2 => scanRun f mem m2 (.addrs depth (addrNext next) lst)
          | none => none
        else some m)
      by_cases hg : next ≤ lst
      · rw [if_pos hg, if_pos hg]
        cases ht : (mem next).tag with
        | false =>
          simp only [Bool.false_eq_true, if_false]
          rw [← ih mem m (.addrs depth (addrNext next) lst)]
          cases h2 : scanRunT f mem m (.addrs depth (addrNext next) lst) with
          | none => rfl
          | some y =>
            obtain ⟨m3, t2⟩ := y
            rfl
        | true =>
          simp only [if_true]
          rw [← ih mem m (.go (mem next) (depth + 1))]
          cases h1 : scanRunT f mem m (.go (mem next) (depth + 1)) with
          | none => rfl
          | some x =>
            obtain ⟨m2, t1⟩ := x
            show (match scanRunT f mem m2 (.addrs depth (addrNext next) lst) with
              | some (m3, t2) => some (m3, next :: (t1 ++ t2))
              | none => none).map Prod.fst =
              scanRun f mem m2 (.addrs depth (addrNext next) lst)
            rw [← ih mem m2 (.addrs depth (addrNext next) lst)]
            cases h2 : scanRunT f mem m2 (.addrs depth (addrNext next) lst) with
            | none => rfl
            | some y =>
              obtain ⟨m3, t2⟩ := y
              rfl
      · rw [if_neg hg, if_neg hg]
        rfl

theorem covers_forall_not (L : List Range) (a : Nat) :
    (∀ r ∈ L, ¬ r.memA a) ↔ ¬ SparseRange.covers L a := by
  constructor
  · rintro h ⟨x, hx, hm⟩
    exact h x hx hm
  · intro h r hr hm
    exact h ⟨r, hr, hm⟩

/-- `SparseRange::remove(SparseRange)` removes exactly the union of the
parts, preserving the invariant. -/
theorem removeAll_correct (parts : List Range) : ∀ l, SparseRange.Wf l →
    (∀ r ∈ parts, r.wf) →
    SparseRange.Wf (SparseRange.removeAll l parts) ∧
    ∀ a, SparseRange.covers (SparseRange.removeAll l parts) a ↔
      SparseRange.covers l a ∧ ¬ SparseRange.covers parts a := by
  induction parts with
  | nil =>
    intro l hW _
    refine ⟨hW, fun a => ?_⟩
    have : ¬ SparseRange.covers ([] : List Range) a := covers_nil a
    unfold SparseRange.removeAll
    simp only [List.foldl_nil]
    tauto
  | cons r rest ih =>
    intro l hW hwf
    have hstep := remove_master l r hW (hwf r (by simp))
    have hrec := ih (SparseRange.remove l r) hstep.1 (fun x hx => hwf x (by simp [hx]))
    have hfold : SparseRange.removeAll l (r :: rest) =
        SparseRange.removeAll (SparseRange.remove l r) rest := by
      unfold SparseRange.removeAll
      rw [List.foldl_cons]
    rw [hfold]
    refine ⟨hrec.1, fun a => ?_⟩
    rw [hrec.2 a, hstep.2 a]
    constructor
    · rintro ⟨⟨h1, h2⟩, h3⟩
      refine ⟨h1, ?_⟩
      rintro ⟨x, hx, hm⟩
      rcases List.mem_cons.mp hx with h | h
      · exact h2 (h ▸ hm)
      · exact h3 ⟨x, h, hm⟩
    · rintro ⟨h1, h2⟩
      refine ⟨⟨h1, fun hm => h2 ⟨r, by simp, hm⟩⟩, ?_⟩
      rintro ⟨x, hx, hm⟩
      exact h2 ⟨x, by simp [hx], hm⟩

theorem Range.from_cap_lt (c : Cap) (hc : c.wfC) (a : Nat)
    (h : (Range.from_cap c).memA a) : a < W64 := by
  have hw := (Range.from_cap_wf c hc).2
  obtain ⟨h1, h2⟩ := h
  omega

/-- Pointwise characterisation of the scan-region computation of
`Mapper::scan`: an address is scanned iff it is inside the capability's
bounds, not already explored by the LoadCapMap, not in `exclude_self_`,
and inside `include_`. -/
theorem scanRegion_spec (lcm excl inc : List Range) (c : Cap)
    (hWl : SparseRange.Wf lcm) (hex : ∀ r ∈ excl, r.wf) (hin : ∀ r ∈ inc, r.wf)
    (hc : c.wfC) :
    SparseRange.Wf (scanRegion lcm excl inc c) ∧
    ∀ a, SparseRange.covers (scanRegion lcm excl inc c) a ↔
      ((Range.from_cap c).memA a ∧ ¬ SparseRange.covers lcm a ∧
        ¬ SparseRange.covers excl a ∧ SparseRange.covers inc a) := by
  have h1 := combine_correct [] (Range.from_cap c) ⟨by simp, by simp⟩ (Range.from_cap_wf c hc)
  have hlwf : ∀ r ∈ lcm, r.wf := fun r hr => (hWl.1 r hr).2
  have h2 := removeAll_correct lcm _ h1.1 hlwf
  have h3 := removeAll_correct excl _ h2.1 hex
  have hfullWf : SparseRange.Wf [Range.full_64bit] := by
    constructor
    · intro x hx
      simp only [List.mem_singleton] at hx
      subst hx
      refine ⟨?_, ?_, ?_⟩
      · show (0 : Nat) ≤ W64 - 1
        omega
      · show (0 : Nat) < W64
        rw [W64_eq]; omega
      · show W64 - 1 < W64
        rw [W64_eq]; omega
    · simp
  have hfe : Range.full_64bit.is_empty = false := by
    rw [Range.is_empty_false_iff]
    show (0 : Nat) ≤ W64 - 1
    exact Nat.zero_le _
  have hcomb : SparseRange.combine [] Range.full_64bit = [Range.full_64bit] := by
    unfold SparseRange.combine
    rw [hfe]
    rfl
  have h4 := removeAll_correct inc [Range.full_64bit] hfullWf hin
  have h5 := removeAll_correct (SparseRange.removeAll [Range.full_64bit] inc) _ h3.1 
    (fun r hr => ((h4.1).1 r hr).2)
  have hreg : scanRegion lcm excl inc c =
      SparseRange.removeAll
        (SparseRange.removeAll (SparseRange.removeAll
          (SparseRange.combine [] (Range.from_cap c)) lcm) excl)
        (SparseRange.removeAll [Range.full_64bit] inc) := by
    unfold scanRegion
    rw [hcomb]
  refine ⟨by rw [hreg]; exact h5.1, fun a => ?_⟩
  rw [hreg, h5.2 a, h3.2 a, h2.2 a, h1.2 a, h4.2 a]
  have hnil : ¬ SparseRange.covers ([] : List Range) a := covers_nil a
  constructor
  · rintro ⟨⟨⟨hc1, hc2⟩, hc3⟩, hc4⟩
    have hmem : (Range.from_cap c).memA a := by tauto
    have haW : a < W64 := Range.from_cap_lt c hc a hmem
    refine ⟨hmem, hc2, hc3, ?_⟩
    by_contra hni
    refine hc4 ⟨⟨Range.full_64bit, by simp, ?_, ?_⟩, hni⟩
    · show (0 : Nat) ≤ a
      exact Nat.zero_le a
    · show a ≤ W64 - 1
      omega
  · rintro ⟨hmem, hc2, hc3, hc4⟩
    refine ⟨⟨⟨Or.inr hmem, hc2⟩, hc3⟩, ?_⟩
    rintro ⟨hfull, hni⟩
    exact hni hc4

theorem lcm_try_combine_true (l : List Range) (c : Cap)
    (h : (LoadCapMap.try_combine l c).1 = true) :
    (LoadCapMap.try_combine l c).2 = SparseRange.combine l (Range.from_cap c) := by
  unfold LoadCapMap.try_combine at h ⊢
  by_cases h1 : c.tag = false
  · rw [if_pos h1] at h
    exact Bool.noConfusion h
  · rw [if_neg h1] at h ⊢
    by_cases h2 : c.sealed = true
    · rw [if_pos h2] at h
      exact Bool.noConfusion h
    · rw [if_neg h2] at h ⊢
      by_cases h3 : c.perms &&& (CHERI_PERM_LOAD ||| CHERI_PERM_LOAD_CAP) ≠
          CHERI_PERM_LOAD ||| CHERI_PERM_LOAD_CAP
      · rw [if_pos h3] at h
        exact Bool.noConfusion h
      · rw [if_neg h3]

/-- Arithmetic facts about one part's word loop when the part avoids the
bottom and top capability words: `shrink_to_alignment` does not wrap, the
loop window sits inside the part, and the loop bound stays below the top
word. -/
theorem shrink_window_facts (p : Range) (hw : p.wf) (hne : p.ne)
    (hlo : capW ≤ p.last) (hhi : p.last + capW < W64) :
    p.base ≤ (p.shrunk_to_alignment capW).base ∧
    Range.alignDown (p.shrunk_to_alignment capW).last capW + capW < W64 ∧
    (∀ a, (p.shrunk_to_alignment capW).base ≤ a →
      a ≤ Range.alignDown (p.shrunk_to_alignment capW).last capW → p.memA a) := by
  obtain ⟨hb, hl⟩ := hw
  have hre : p.is_empty = false := (Range.is_empty_false_iff p).mpr hne
  have hbase : (p.shrunk_to_alignment capW).base = Range.alignUp p.base capW := by
    unfold Range.shrunk_to_alignment
    rw [hre]
    rfl
  have hlast : (p.shrunk_to_alignment capW).last =
      (Range.alignDown ((p.last + 1) % W64) capW + (W64 - 1)) % W64 := by
    unfold Range.shrunk_to_alignment
    rw [hre]
    rfl
  rw [hbase, hlast]
  have e1 : ∀ x, Range.alignUp x capW = (x + capW - 1) % W64 / capW * capW := fun x => rfl
  have e2 : ∀ x, Range.alignDown x capW = x / capW * capW := fun x => rfl
  have e3 : ∀ a, p.memA a ↔ (p.base ≤ a ∧ a ≤ p.last) := fun a => Iff.rfl
  simp only [e1, e2, e3]
  unfold Range.ne at hne
  unfold capW at hlo hhi ⊢
  rw [W64_eq] at hb hl hhi ⊢
  have h1 : (p.last + 1) % 18446744073709551616 = p.last + 1 := by omega
  rw [h1]
  have h5 : ((p.last + 1) / 16 * 16) % 16 = 0 := by omega
  have h2a : 16 ≤ (p.last + 1) / 16 * 16 := by omega
  have h2b : (p.last + 1) / 16 * 16 ≤ p.last + 1 := by omega
  have h3 : ((p.last + 1) / 16 * 16 + (18446744073709551616 - 1)) % 18446744073709551616 =
      (p.last + 1) / 16 * 16 - 1 := by omega
  rw [h3]
  have h4 : ((p.last + 1) / 16 * 16 - 1) / 16 * 16 = (p.last + 1) / 16 * 16 - 16 := by omega
  rw [h4]
  have h6 : (p.base + 16 - 1) % 18446744073709551616 = p.base + 15 := by omega
  rw [h6]
  refine ⟨by omega, by omega, ?_⟩
  intro a ha1 ha2
  exact ⟨by omega, by omega⟩

theorem some_pair_inj {A B : Type} {x1 x2 : A} {y1 y2 : B}
    (h : (some (x1, y1) : Option (A × B)) = some (x2, y2)) : x1 = x2 ∧ y1 = y2 := by
  have h2 := Option.some.inj h
  exact ⟨congrArg Prod.fst h2, congrArg Prod.snd h2⟩

theorem nodup_append_disjoint (T1 T2 : List Nat) (h1 : T1.Nodup) (h2 : T2.Nodup)
    (hd : ∀ a ∈ T1, ∀ b ∈ T2, a ≠ b) : (T1 ++ T2).Nodup := by
  rw [List.nodup_append]
  exact ⟨h1, h2, fun a ha hb => hd a ha a hb rfl⟩

/-- Precondition of one engine step: a `.go` capability is well-formed; the
remaining `.parts` are mutually gapped region parts, clear of the bottom
and top capability words, whose points are already recorded in the
LoadCapMap; an `.addrs` word-loop window is below the top word and already
recorded. -/
def preT (m : MapperSt) : ScanCmd → Prop
  | .go c _ => c.wfC
  | .parts _ ps => (∀ p ∈ ps, p.wf ∧ p.ne ∧ capW ≤ p.last ∧ p.last + capW < W64 ∧
      (∀ a, p.memA a → SparseRange.covers m.loadCap a)) ∧ ps.Pairwise gapR
  | .addrs _ next lst => lst + capW < W64 ∧
      (∀ a, next ≤ a → a ≤ lst → SparseRange.covers m.loadCap a)

/-- Postcondition of a completed engine step: the LoadCapMap only grows and
stays well-formed, `include_`/`exclude_self_`/the depth limit are untouched,
every examined address ends up recorded in the LoadCapMap, the examined
addresses are pairwise distinct, and each examined address was either in
the step's own window or unrecorded on entry. -/
def postT (m : MapperSt) (cmd : ScanCmd) (m' : MapperSt) (T : List Nat) : Prop :=
  (∀ a, SparseRange.covers m.loadCap a → SparseRange.covers m'.loadCap a) ∧
  SparseRange.Wf m'.loadCap ∧
  m'.includeR = m.includeR ∧ m'.excludeSelf = m.excludeSelf ∧
  m'.maxScanDepth = m.maxScanDepth ∧
  (∀ a ∈ T, SparseRange.covers m'.loadCap a) ∧
  T.Nodup ∧
  (match cmd with
   | .go _ _ => ∀ a ∈ T, ¬ SparseRange.covers m.loadCap a
   | .parts _ ps => ∀ a ∈ T, (∃ p ∈ ps, p.memA a) ∨ ¬ SparseRange.covers m.loadCap a
   | .addrs _ next lst => ∀ a ∈ T, (next ≤ a ∧ a ≤ lst) ∨ ¬ SparseRange.covers m.loadCap a)

/-- Master safety invariant of the scan engine: on any completed run, the
examined capability-word addresses are pairwise distinct.  The mechanism is
the one the code relies on: each `Mapper::scan` call subtracts the
already-explored LoadCapMap ranges from its scan region *before* combining
the current capability's bounds, so everything it goes on to examine was
unexplored on entry, and everything examined ends up explored. -/
theorem scanT_master (mem : Nat → Cap) (hmem : ∀ a, (mem a).wfC) :
    ∀ (fuel : Nat) (m : MapperSt) (cmd : ScanCmd) (m' : MapperSt) (T : List Nat),
      SparseRange.Wf m.loadCap →
      (∀ r ∈ m.excludeSelf, r.wf) →
      (∀ r ∈ m.includeR, r.wf) →
      (∀ a, SparseRange.covers m.includeR a → capW ≤ a ∧ a + capW < W64) →
      preT m cmd →
      scanRunT fuel mem m cmd = some (m', T) →
      postT m cmd m' T := by
  intro fuel
  induction fuel with
  | zero =>
    intro m cmd m' T _ _ _ _ _ hrun
    exact Option.noConfusion hrun
  | succ f ih =>
    intro m cmd m' T hWf hex hin hinc hpre hrun
    match cmd with
    | .go c depth =>
      rw [scanRunT_go_succ] at hrun
      simp only at hrun
      set m1 : MapperSt :=
        if m.maxSeenScanDepth < depth then { m with maxSeenScanDepth := depth } else m
        with hm1def
      have hm1lc : m1.loadCap = m.loadCap := by rw [hm1def]; split <;> rfl
      have hm1in : m1.includeR = m.includeR := by rw [hm1def]; split <;> rfl
      have hm1ex : m1.excludeSelf = m.excludeSelf := by rw [hm1def]; split <;> rfl
      have hm1md : m1.maxScanDepth = m.maxScanDepth := by rw [hm1def]; split <;> rfl
      have hWf1 : SparseRange.Wf m1.loadCap := by rw [hm1lc]; exact hWf
      have hcwf : c.wfC := hpre
      have hcc := combine_correct m1.loadCap (Range.from_cap c) hWf1 (Range.from_cap_wf c hcwf)
      have hcov3 : ∀ a, SparseRange.covers m1.loadCap a →
          SparseRange.covers (LoadCapMap.try_combine m1.loadCap c).2 a := by
        rcases lcm_try_combine_eq m1.loadCap c with h | ⟨h, _⟩ <;> rw [h]
        · exact fun a ha => ha
        · exact fun a ha => (hcc.2 a).mpr (Or.inl ha)
      have hWf3 : SparseRange.Wf (LoadCapMap.try_combine m1.loadCap c).2 :=
        lcm_try_combine_Wf m1.loadCap c hWf1 hcwf
      by_cases hcond : ((LoadCapMap.try_combine m1.loadCap c).1 = true ∧ depth < m1.maxScanDepth)
      · rw [if_pos hcond] at hrun
        have hlc3eq : (LoadCapMap.try_combine m1.loadCap c).2 =
            SparseRange.combine m1.loadCap (Range.from_cap c) :=
          lcm_try_combine_true _ _ hcond.1
        have hfc3 : ∀ a, (Range.from_cap c).memA a →
            SparseRange.covers (LoadCapMap.try_combine m1.loadCap c).2 a := by
          intro a ha
          rw [hlc3eq]
          exact ((hcc.2 a)).mpr (Or.inr ha)
        have hreg := scanRegion_spec m1.loadCap m1.excludeSelf m1.includeR c hWf1
          (by rw [hm1ex]; exact hex) (by rw [hm1in]; exact hin) hcwf
        have hpre3 : (∀ p ∈ scanRegion m1.loadCap m1.excludeSelf m1.includeR c,
            p.wf ∧ p.ne ∧ capW ≤ p.last ∧ p.last + capW < W64 ∧
            (∀ a, p.memA a →
              SparseRange.covers (LoadCapMap.try_combine m1.loadCap c).2 a)) ∧
            (scanRegion m1.loadCap m1.excludeSelf m1.includeR c).Pairwise gapR := by
          obtain ⟨hRW, hRcov⟩ := hreg
          refine ⟨?_, chain'_gapR_pairwise (fun x hx => (hRW.1 x hx).1) hRW.2⟩
          intro p hp
          obtain ⟨hpne, hpwf⟩ := hRW.1 p hp
          have hcovp : ∀ a, p.memA a →
              SparseRange.covers (scanRegion m1.loadCap m1.excludeSelf m1.includeR c) a :=
            fun a ha => ⟨p, hp, ha⟩
          have hlaP := (hRcov p.last).mp (hcovp p.last ⟨hpne, le_refl _⟩)
          have hbnd := hinc p.last (by rw [← hm1in]; exact hlaP.2.2.2)
          refine ⟨hpwf, hpne, hbnd.1, hbnd.2, ?_⟩
          intro a ha
          exact hfc3 a ((hRcov a).mp (hcovp a ha)).1
        set mc : MapperSt :=
          { includeR := m1.includeR, excludeSelf := m1.excludeSelf,
            loadCap := (LoadCapMap.try_combine m1.loadCap c).2,
            loadMap := (LoadMap.try_combine m1.loadMap c).2,
            maxScanDepth := m1.maxScanDepth,
            maxSeenScanDepth := m1.maxSeenScanDepth, roots := m1.roots }
          with hmcdef
        have hmclc : mc.loadCap = (LoadCapMap.try_combine m1.loadCap c).2 := by
          rw [hmcdef]
        have hmcin : mc.includeR = m1.includeR := by
          rw [hmcdef]
        have hmcex : mc.excludeSelf = m1.excludeSelf := by
          rw [hmcdef]
        have hmcmd : mc.maxScanDepth = m1.maxScanDepth := by
          rw [hmcdef]
        have hpost := ih mc (.parts depth
            (scanRegion m1.loadCap m1.excludeSelf m1.includeR c)) m' T
          (by rw [hmclc]; exact hWf3)
          (by rw [hmcex, hm1ex]; exact hex)
          (by rw [hmcin, hm1in]; exact hin)
          (by rw [hmcin, hm1in]; exact hinc)
          (by
            show (∀ p ∈ scanRegion m1.loadCap m1.excludeSelf m1.includeR c,
                p.wf ∧ p.ne ∧ capW ≤ p.last ∧ p.last + capW < W64 ∧
                (∀ a, p.memA a → SparseRange.covers mc.loadCap a)) ∧
              (scanRegion m1.loadCap m1.excludeSelf m1.includeR c).Pairwise gapR
            rw [hmclc]
            exact hpre3)
          hrun
        obtain ⟨hmono3, hWf', hin', hex', hmd', hcov', hnd', hspec'⟩ := hpost
        refine ⟨?_, hWf', ?_, ?_, ?_, hcov', hnd', ?_⟩
        · intro a ha
          refine hmono3 a ?_
          rw [hmclc]
          exact hcov3 a (by rw [hm1lc]; exact ha)
        · rw [hin', hmcin, hm1in]
        · rw [hex', hmcex, hm1ex]
        · rw [hmd', hmcmd, hm1md]
        · intro a haT
          rcases hspec' a haT with ⟨p, hp, hma⟩ | hnc
          · have h5 := (hreg.2 a).mp ⟨p, hp, hma⟩
            intro hcon
            exact h5.2.1 (by rw [hm1lc]; exact hcon)
          · intro hcon
            exact hnc (hcov3 a (by rw [hm1lc]; exact hcon))
      · rw [if_neg hcond] at hrun
        obtain ⟨hm'eq, hTeq⟩ := some_pair_inj hrun
        refine ⟨?_, ?_, ?_, ?_, ?_, ?_, ?_, ?_⟩
        · intro a ha
          rw [← hm'eq]
          exact hcov3 a (by rw [hm1lc]; exact ha)
        · rw [← hm'eq]
          exact hWf3
        · rw [← hm'eq]
          exact hm1in
        · rw [← hm'eq]
          exact hm1ex
        · rw [← hm'eq]
          exact hm1md
        · rw [← hTeq]
          simp
        · rw [← hTeq]
          simp
        · show ∀ a ∈ T, ¬ SparseRange.covers m.loadCap a
          rw [← hTeq]
          simp
    | .parts depth ps =>
      match ps with
      | [] =>
        obtain ⟨hm'eq, hTeq⟩ := some_pair_inj hrun
        refine ⟨?_, ?_, ?_, ?_, ?_, ?_, ?_, ?_⟩
        · intro a ha
          rw [← hm'eq]
          exact ha
        · rw [← hm'eq]
          exact hWf
        · rw [← hm'eq]
        · rw [← hm'eq]
        · rw [← hm'eq]
        · rw [← hTeq]
          simp
        · rw [← hTeq]
          simp
        · show ∀ a ∈ T, (∃ p ∈ ([] : List Range), p.memA a) ∨
            ¬ SparseRange.covers m.loadCap a
          rw [← hTeq]
          simp
      | p :: ps2 =>
        rw [scanRunT_parts_cons] at hrun
        obtain ⟨hparts, hppw⟩ := hpre
        have hp0 := hparts p (by simp)
        obtain ⟨hpwf, hpne, hplo, hphi, hpcov⟩ := hp0
        have hwin := shrink_window_facts p hpwf hpne hplo hphi
        cases h1 : scanRunT f mem m (.addrs depth (p.shrunk_to_alignment capW).base
            (Range.alignDown (p.shrunk_to_alignment capW).last capW)) with
        | none =>
          rw [h1] at hrun
          exact Option.noConfusion hrun
        | some x =>
          obtain ⟨m2, t1⟩ := x
          rw [h1] at hrun
          simp only at hrun
          cases h2 : scanRunT f mem m2 (.parts depth ps2) with
          | none =>
            rw [h2] at hrun
            exact Option.noConfusion hrun
          | some y =>
            obtain ⟨m3, t2⟩ := y
            rw [h2] at hrun
            simp only at hrun
            obtain ⟨hm'eq, hTeq⟩ := some_pair_inj hrun
            have hpreA : Range.alignDown (p.shrunk_to_alignment capW).last capW + capW
                < W64 ∧
                (∀ a, (p.shrunk_to_alignment capW).base ≤ a →
                  a ≤ Range.alignDown (p.shrunk_to_alignment capW).last capW →
                  SparseRange.covers m.loadCap a) :=
              ⟨hwin.2.1, fun a ha1 ha2 => hpcov a (hwin.2.2 a ha1 ha2)⟩
            have hpostA := ih m (.addrs depth (p.shrunk_to_alignment capW).base
                (Range.alignDown (p.shrunk_to_alignment capW).last capW)) m2 t1
              hWf hex hin hinc hpreA h1
            obtain ⟨hmonoA, hWfA, hinA, hexA, hmdA, hcovA, hndA, hspecA⟩ := hpostA
            have hpreP : (∀ q ∈ ps2, q.wf ∧ q.ne ∧ capW ≤ q.last ∧ q.last + capW < W64 ∧
                (∀ a, q.memA a → SparseRange.covers m2.loadCap a)) ∧
                ps2.Pairwise gapR := by
              refine ⟨?_, (List.pairwise_cons.mp hppw).2⟩
              intro q hq
              have h3 := hparts q (by simp [hq])
              exact ⟨h3.1, h3.2.1, h3.2.2.1, h3.2.2.2.1,
                fun a ha => hmonoA a (h3.2.2.2.2 a ha)⟩
            have hpostP := ih m2 (.parts depth ps2) m3 t2 hWfA
              (by rw [hexA]; exact hex) (by rw [hinA]; exact hin)
              (by rw [hinA]; exact hinc) hpreP h2
            obtain ⟨hmonoP, hWfP, hinP, hexP, hmdP, hcovP, hndP, hspecP⟩ := hpostP
            refine ⟨?_, ?_, ?_, ?_, ?_, ?_, ?_, ?_⟩
            · intro a ha
              rw [← hm'eq]
              exact hmonoP a (hmonoA a ha)
            · rw [← hm'eq]
              exact hWfP
            · rw [← hm'eq, hinP, hinA]
            · rw [← hm'eq, hexP, hexA]
            · rw [← hm'eq, hmdP, hmdA]
            · rw [← hTeq, ← hm'eq]
              intro a ha
              rcases List.mem_append.mp ha with h | h
              · exact hmonoP a (hcovA a h)
              · exact hcovP a h
            · rw [← hTeq]
              refine nodup_append_disjoint t1 t2 hndA hndP ?_
              intro a ha b hb
              rcases hspecA a ha with hwa | hnca
              · rcases hspecP b hb with ⟨q, hq, hmb⟩ | hncb
                · have hma : p.memA a := hwin.2.2 a hwa.1 hwa.2
                  have hg : gapR p q := (List.pairwise_cons.mp hppw).1 q hq
                  unfold gapR at hg
                  obtain ⟨hma1, hma2⟩ := hma
                  obtain ⟨hmb1, hmb2⟩ := hmb
                  omega
                · have hca : SparseRange.covers m2.loadCap a :=
                    hmonoA a (hpcov a (hwin.2.2 a hwa.1 hwa.2))
                  intro hab
                  exact hncb (hab ▸ hca)
              · rcases hspecP b hb with ⟨q, hq, hmb⟩ | hncb
                · have hcb : SparseRange.covers m.loadCap b :=
                    (hparts q (by simp [hq])).2.2.2.2 b hmb
                  intro hab
                  exact hnca (hab ▸ hcb) |>.elim
                · have hca : SparseRange.covers m2.loadCap a := hcovA a ha
                  intro hab
                  exact hncb (hab ▸ hca)
            · show ∀ a ∈ T, (∃ q ∈ p :: ps2, q.memA a) ∨ ¬ SparseRange.covers m.loadCap a
              rw [← hTeq]
              intro a ha
              rcases List.mem_append.mp ha with h | h
              · rcases hspecA a h with hwa | hnca
                · exact Or.inl ⟨p, by simp, hwin.2.2 a hwa.1 hwa.2⟩
                · exact Or.inr hnca
              · rcases hspecP a h with ⟨q, hq, hma⟩ | hnca
                · exact Or.inl ⟨q, by simp [hq], hma⟩
                · exact Or.inr (fun hcon => hnca (hmonoA a hcon))
    | .addrs depth next lst =>
      rw [scanRunT_addrs_succ] at hrun
      obtain ⟨hlstW, hwcov⟩ := hpre
      by_cases hg : next ≤ lst
      · rw [if_pos hg] at hrun
        have hnlt : next + capW < W64 := by
          unfold capW at hlstW ⊢
          omega
        have hnext16 : addrNext next = next + capW := by
          unfold addrNext
          exact Nat.mod_eq_of_lt hnlt
        have hnextcov : SparseRange.covers m.loadCap next := hwcov next (le_refl _) hg
        cases ht : (mem next).tag with
        | false =>
          rw [ht] at hrun
          simp only [Bool.false_eq_true, if_false] at hrun
          cases h2 : scanRunT f mem m (.addrs depth (addrNext next) lst) with
          | none =>
            rw [h2] at hrun
            exact Option.noConfusion hrun
          | some y =>
            obtain ⟨m3, t2⟩ := y
            rw [h2] at hrun
            simp only [List.nil_append] at hrun
            obtain ⟨hm'eq, hTeq⟩ := some_pair_inj hrun
            have hpreR : lst + capW < W64 ∧
                (∀ a, addrNext next ≤ a → a ≤ lst → SparseRange.covers m.loadCap a) := by
              refine ⟨hlstW, ?_⟩
              intro a ha1 ha2
              rw [hnext16] at ha1
              exact hwcov a (by unfold capW at *; omega) ha2
            have hpostR := ih m (.addrs depth (addrNext next) lst) m3 t2
              hWf hex hin hinc hpreR h2
            obtain ⟨hmonoR, hWfR, hinR, hexR, hmdR, hcovR, hndR, hspecR⟩ := hpostR
            refine ⟨?_, ?_, ?_, ?_, ?_, ?_, ?_, ?_⟩
            · intro a ha
              rw [← hm'eq]
              exact hmonoR a ha
            · rw [← hm'eq]
              exact hWfR
            · rw [← hm'eq, hinR]
            · rw [← hm'eq, hexR]
            · rw [← hm'eq, hmdR]
            · rw [← hTeq, ← hm'eq]
              intro a ha
              rcases List.mem_cons.mp ha with h | h
              · subst h
                exact hmonoR a hnextcov
              · exact hcovR a h
            · rw [← hTeq]
              rw [List.nodup_cons]
              refine ⟨?_, hndR⟩
              intro hmem2
              rcases hspecR next hmem2 with hwn | hncn
              · rw [hnext16] at hwn
                unfold capW at hwn
                omega
              · exact hncn hnextcov
            · show ∀ a ∈ T, (next ≤ a ∧ a ≤ lst) ∨ ¬ SparseRange.covers m.loadCap a
              rw [← hTeq]
              intro a ha
              rcases List.mem_cons.mp ha with h | h
              · subst h
                exact Or.inl ⟨le_refl _, hg⟩
              · rcases hspecR a h with hwa | hnca
                · rw [hnext16] at hwa
                  exact Or.inl ⟨by unfold capW at hwa; omega, hwa.2⟩
                · exact Or.inr hnca
        | true =>
          rw [ht] at hrun
          simp only [if_true] at hrun
          cases h1 : scanRunT f mem m (.go (mem next) (depth + 1)) with
          | none =>
            rw [h1] at hrun
            exact Option.noConfusion hrun
          | some x =>
            obtain ⟨m2, t1⟩ := x
            rw [h1] at hrun
            simp only at hrun
            have hpostG := ih m (.go (mem next) (depth + 1)) m2 t1
              hWf hex hin hinc (hmem next) h1
            obtain ⟨hmonoG, hWfG, hinG, hexG, hmdG, hcovG, hndG, hspecG⟩ := hpostG
            cases h2 : scanRunT f mem m2 (.addrs depth (addrNext next) lst) with
            | none =>
              rw [h2] at hrun
              exact Option.noConfusion hrun
            | some y =>
              obtain ⟨m3, t2⟩ := y
              rw [h2] at hrun
              simp only at hrun
              obtain ⟨hm'eq, hTeq⟩ := some_pair_inj hrun
              have hpreR : lst + capW < W64 ∧
                  (∀ a, addrNext next ≤ a → a ≤ lst →
                    SparseRange.covers m2.loadCap a) := by
                refine ⟨hlstW, ?_⟩
                intro a ha1 ha2
                rw [hnext16] at ha1
                exact hmonoG a (hwcov a (by unfold capW at *; omega) ha2)
              have hpostR := ih m2 (.addrs depth (addrNext next) lst) m3 t2
                hWfG (by rw [hexG]; exact hex) (by rw [hinG]; exact hin)
                (by rw [hinG]; exact hinc) hpreR h2
              obtain ⟨hmonoR, hWfR, hinR, hexR, hmdR, hcovR, hndR, hspecR⟩ := hpostR
              refine ⟨?_, ?_, ?_, ?_, ?_, ?_, ?_, ?_⟩
              · intro a ha
                rw [← hm'eq]
                exact hmonoR a (hmonoG a ha)
              · rw [← hm'eq]
                exact hWfR
              · rw [← hm'eq, hinR, hinG]
              · rw [← hm'eq, hexR, hexG]
              · rw [← hm'eq, hmdR, hmdG]
              · rw [← hTeq, ← hm'eq]
                intro a ha
                rcases List.mem_cons.mp ha with h | h
                · subst h
                  exact hmonoR a (hmonoG a hnextcov)
                · rcases List.mem_append.mp h with h3 | h3
                  · exact hmonoR a (hcovG a h3)
                  · exact hcovR a h3
              · rw [← hTeq]
                rw [List.nodup_cons]
                constructor
                · intro hmem2
                  rcases List.mem_append.mp hmem2 with h3 | h3
                  · exact hspecG next h3 hnextcov
                  · rcases hspecR next h3 with hwn | hncn
                    · rw [hnext16] at hwn
                      unfold capW at hwn
                      omega
                    · exact hncn (hmonoG next hnextcov)
                · refine nodup_append_disjoint t1 t2 hndG hndR ?_
                  intro a ha b hb
                  rcases hspecR b hb with hwb | hncb
                  · have hcb : SparseRange.covers m.loadCap b := by
                      rw [hnext16] at hwb
                      exact hwcov b (by unfold capW at hwb; omega) hwb.2
                    intro hab
                    exact hspecG a ha (hab ▸ hcb)
                  · have hca : SparseRange.covers m2.loadCap a := hcovG a ha
                    intro hab
                    exact hncb (hab ▸ hca)
              · show ∀ a ∈ T, (next ≤ a ∧ a ≤ lst) ∨ ¬ SparseRange.covers m.loadCap a
                rw [← hTeq]
                intro a ha
                rcases List.mem_cons.mp ha with h | h
                · subst h
                  exact Or.inl ⟨le_refl _, hg⟩
                · rcases List.mem_append.mp h with h3 | h3
                  · exact Or.inr (hspecG a h3)
                  · rcases hspecR a h3 with hwa | hnca
                    · rw [hnext16] at hwa
                      exact Or.inl ⟨by unfold capW at hwa; omega, hwa.2⟩
                    · exact Or.inr (fun hcon => hnca (hmonoG a hcon))
      · rw [if_neg hg] at hrun
        obtain ⟨hm'eq, hTeq⟩ := some_pair_inj hrun
        refine ⟨?_, ?_, ?_, ?_, ?_, ?_, ?_, ?_⟩
        · intro a ha
          rw [← hm'eq]
          exact ha
        · rw [← hm'eq]
          exact hWf
        · rw [← hm'eq]
        · rw [← hm'eq]
        · rw [← hm'eq]
        · rw [← hTeq]
          simp
        · rw [← hTeq]
          simp
        · show ∀ a ∈ T, (next ≤ a ∧ a ≤ lst) ∨ ¬ SparseRange.covers m.loadCap a
          rw [← hTeq]
          simp

theorem scanRunT_parts_nil (f : Nat) (mem : Nat → Cap) (m : MapperSt) (depth : Nat) :
    scanRunT (f + 1) mem m (.parts depth []) = some (m, []) := rfl

/-- Fuel monotonicity of the instrumented engine: a completed run stays
completed (with the same result) when one more unit of fuel is supplied. -/
theorem scanRunT_mono (mem : Nat → Cap) :
    ∀ (fuel : Nat) (m : MapperSt) (cmd : ScanCmd) (x : MapperSt × List Nat),
      scanRunT fuel mem m cmd = some x → scanRunT (fuel + 1) mem m cmd = some x := by
  intro fuel
  induction fuel with
  | zero => intro m cmd x h; exact Option.noConfusion h
  | succ f ih =>
    intro m cmd x h
    match cmd with
    | .go c depth =>
      rw [scanRunT_go_succ] at h
      rw [scanRunT_go_succ]
      simp only at h ⊢
      set m1 : MapperSt :=
        if m.maxSeenScanDepth < depth then { m with maxSeenScanDepth := depth } else m
        with hm1def
      by_cases hcond : ((LoadCapMap.try_combine m1.loadCap c).1 = true ∧
          depth < m1.maxScanDepth)
      · rw [if_pos hcond] at h ⊢
        exact ih _ _ _ h
      · rw [if_neg hcond] at h ⊢
        exact h
    | .parts depth ps =>
      match ps with
      | [] => exact h
      | p :: ps2 =>
        rw [scanRunT_parts_cons] at h
        rw [scanRunT_parts_cons]
        cases h1 : scanRunT f mem m (.addrs depth (p.shrunk_to_alignment capW).base
            (Range.alignDown (p.shrunk_to_alignment capW).last capW)) with
        | none =>
          rw [h1] at h
          exact Option.noConfusion h
        | some y =>
          obtain ⟨m2, t1⟩ := y
          rw [h1] at h
          simp only at h
          rw [ih _ _ _ h1]
          simp only
          cases h2 : scanRunT f mem m2 (.parts depth ps2) with
          | none =>
            rw [h2] at h
            exact Option.noConfusion h
          | some z =>
            obtain ⟨m3, t2⟩ := z
            rw [h2] at h
            simp only at h
            rw [ih _ _ _ h2]
            simp only
            exact h
    | .addrs depth next lst =>
      rw [scanRunT_addrs_succ] at h
      rw [scanRunT_addrs_succ]
      by_cases hg : next ≤ lst
      · rw [if_pos hg] at h ⊢
        cases ht : (mem next).tag with
        | false =>
          rw [ht] at h
          simp only [Bool.false_eq_true, if_false] at h ⊢
          cases h2 : scanRunT f mem m (.addrs depth (addrNext next) lst) with
          | none =>
            rw [h2] at h
            exact Option.noConfusion h
          | some z =>
            obtain ⟨m3, t2⟩ := z
            rw [h2] at h
            simp only at h
            rw [ih _ _ _ h2]
            simp only
            exact h
        | true =>
          rw [ht] at h
          simp only [if_true] at h ⊢
          cases h1 : scanRunT f mem m (.go (mem next) (depth + 1)) with
          | none =>
            rw [h1] at h
            exact Option.noConfusion h
          | some y =>
            obtain ⟨m2, t1⟩ := y
            rw [h1] at h
            simp only at h
            rw [ih _ _ _ h1]
            simp only
            cases h2 : scanRunT f mem m2 (.addrs depth (addrNext next) lst) with
            | none =>
              rw [h2] at h
              exact Option.noConfusion h
            | some z =>
              obtain ⟨m3, t2⟩ := z
              rw [h2] at h
              simp only at h
              rw [ih _ _ _ h2]
              simp only
              exact h
      · rw [if_neg hg] at h ⊢
        exact h

/-- Fuel monotonicity, `≤` form. -/
theorem scanRunT_le_mono (mem : Nat → Cap) {f f' : Nat} (m : MapperSt)
    (cmd : ScanCmd) (x : MapperSt × List Nat) (hle : f ≤ f')
    (h : scanRunT f mem m cmd = some x) : scanRunT f' mem m cmd = some x := by
  induction f', hle using Nat.le_induction with
  | base => exact h
  | succ g hg ih => exact scanRunT_mono mem g m cmd x ih

/-- The number of addresses covered by a `SparseRange`'s parts: the measure
that the scan's explored-region subtraction makes strictly increase at every
productive recursive call. -/
def covCount (l : List Range) : Nat :=
  ((Finset.range W64).filter (fun a => SparseRange.covers l a)).card

theorem covCount_le (l : List Range) : covCount l ≤ W64 := by
  unfold covCount
  calc ((Finset.range W64).filter (fun a => SparseRange.covers l a)).card
      ≤ (Finset.range W64).card := Finset.card_filter_le _ _
    _ = W64 := Finset.card_range _

theorem covCount_mono (l l' : List Range)
    (h : ∀ a, SparseRange.covers l a → SparseRange.covers l' a) :
    covCount l ≤ covCount l' := by
  unfold covCount
  apply Finset.card_le_card
  intro a ha
  rw [Finset.mem_filter] at ha ⊢
  exact ⟨ha.1, h a ha.2⟩

theorem covCount_lt (l l' : List Range) (a : Nat) (haW : a < W64)
    (h : ∀ b, SparseRange.covers l b → SparseRange.covers l' b)
    (hna : ¬ SparseRange.covers l a) (hya : SparseRange.covers l' a) :
    covCount l < covCount l' := by
  unfold covCount
  apply Finset.card_lt_card
  have hsub : (Finset.range W64).filter (fun b => SparseRange.covers l b) ⊆
      (Finset.range W64).filter (fun b => SparseRange.covers l' b) := by
    intro b hb
    rw [Finset.mem_filter] at hb ⊢
    exact ⟨hb.1, h b hb.2⟩
  rw [Finset.ssubset_iff_of_subset hsub]
  refine ⟨a, ?_, ?_⟩
  · rw [Finset.mem_filter]
    exact ⟨Finset.mem_range.mpr haW, hya⟩
  · rw [Finset.mem_filter]
    intro hc
    exact hna hc.2

/-- Totality of the recursive scan under the include-window proviso: because
each call subtracts the already-explored `LoadCapMap` ranges from its scan
region before recursing, the number of explored addresses strictly grows at
every productive call, so some finite fuel completes the whole scan. -/
theorem scanRunT_go_total (mem : Nat → Cap) (hmem : ∀ a, (mem a).wfC) :
    ∀ (k : Nat) (m : MapperSt) (c : Cap) (depth : Nat),
      SparseRange.Wf m.loadCap →
      (∀ r ∈ m.excludeSelf, r.wf) →
      (∀ r ∈ m.includeR, r.wf) →
      (∀ a, SparseRange.covers m.includeR a → capW ≤ a ∧ a + capW < W64) →
      c.wfC →
      W64 - covCount m.loadCap < k →
      ∃ (fuel : Nat) (x : MapperSt × List Nat),
        scanRunT fuel mem m (.go c depth) = some x := by
  intro k
  induction k with
  | zero =>
    intro m c depth _ _ _ _ _ hk
    exact absurd hk (Nat.not_lt_zero _)
  | succ k ih =>
    intro m c depth hWf hex hin hinc hcwf hk
    set m1 : MapperSt :=
      if m.maxSeenScanDepth < depth then { m with maxSeenScanDepth := depth } else m
      with hm1def
    have hm1lc : m1.loadCap = m.loadCap := by rw [hm1def]; split <;> rfl
    have hm1in : m1.includeR = m.includeR := by rw [hm1def]; split <;> rfl
    have hm1ex : m1.excludeSelf = m.excludeSelf := by rw [hm1def]; split <;> rfl
    have hWf1 : SparseRange.Wf m1.loadCap := by rw [hm1lc]; exact hWf
    set mc : MapperSt :=
      { includeR := m1.includeR, excludeSelf := m1.excludeSelf,
        loadCap := (LoadCapMap.try_combine m1.loadCap c).2,
        loadMap := (LoadMap.try_combine m1.loadMap c).2,
        maxScanDepth := m1.maxScanDepth,
        maxSeenScanDepth := m1.maxSeenScanDepth, roots := m1.roots }
      with hmcdef
    have hmclc : mc.loadCap = (LoadCapMap.try_combine m1.loadCap c).2 := by
      rw [hmcdef]
    have hmcin : mc.includeR = m1.includeR := by
      rw [hmcdef]
    have hmcex : mc.excludeSelf = m1.excludeSelf := by
      rw [hmcdef]
    have hstep : ∀ f : Nat, scanRunT (f + 1) mem m (.go c depth) =
        if (LoadCapMap.try_combine m1.loadCap c).1 = true ∧ depth < m1.maxScanDepth then
          scanRunT f mem mc
            (.parts depth (scanRegion m1.loadCap m1.excludeSelf m1.includeR c))
        else some (mc, []) := by
      intro f
      rw [hmcdef, hm1def]
      rfl
    by_cases hcond : ((LoadCapMap.try_combine m1.loadCap c).1 = true ∧
        depth < m1.maxScanDepth)
    · have hcc := combine_correct m1.loadCap (Range.from_cap c) hWf1
        (Range.from_cap_wf c hcwf)
      have hlc3eq : (LoadCapMap.try_combine m1.loadCap c).2 =
          SparseRange.combine m1.loadCap (Range.from_cap c) :=
        lcm_try_combine_true _ _ hcond.1
      have hWfmc : SparseRange.Wf mc.loadCap := by
        rw [hmclc]
        exact lcm_try_combine_Wf m1.loadCap c hWf1 hcwf
      have hcovmc : ∀ a, SparseRange.covers m1.loadCap a →
          SparseRange.covers mc.loadCap a := by
        intro a ha
        rw [hmclc, hlc3eq]
        exact (hcc.2 a).mpr (Or.inl ha)
      have hfcmc : ∀ a, (Range.from_cap c).memA a → SparseRange.covers mc.loadCap a := by
        intro a ha
        rw [hmclc, hlc3eq]
        exact (hcc.2 a).mpr (Or.inr ha)
      have hreg := scanRegion_spec m1.loadCap m1.excludeSelf m1.includeR c hWf1
        (by rw [hm1ex]; exact hex) (by rw [hm1in]; exact hin) hcwf
      obtain ⟨R, hRc⟩ : ∃ R', scanRegion m1.loadCap m1.excludeSelf m1.includeR c = R' :=
        ⟨_, rfl⟩
      rw [hRc] at hreg hstep
      have hRfacts : ∀ p ∈ R, p.wf ∧ p.ne ∧ capW ≤ p.last ∧ p.last + capW < W64 ∧
          (∀ a, p.memA a → SparseRange.covers mc.loadCap a) := by
        intro p hp
        obtain ⟨hpne, hpwf⟩ := hreg.1.1 p hp
        have hcovp : ∀ a, p.memA a → SparseRange.covers R a := fun a ha => ⟨p, hp, ha⟩
        have hlaP := (hreg.2 p.last).mp (hcovp p.last ⟨hpne, le_refl _⟩)
        have hbnd := hinc p.last (by rw [← hm1in]; exact hlaP.2.2.2)
        refine ⟨hpwf, hpne, hbnd.1, hbnd.2, ?_⟩
        intro a ha
        exact hfcmc a ((hreg.2 a).mp (hcovp a ha)).1
      cases R with
      | nil =>
        refine ⟨2, (mc, []), ?_⟩
        calc scanRunT (1 + 1) mem m (.go c depth)
            = scanRunT 1 mem mc (.parts depth []) := by rw [hstep 1, if_pos hcond]
          _ = some (mc, []) := scanRunT_parts_nil 0 mem mc depth
      | cons p ps =>
        have hp0 := hRfacts p (by simp)
        have hpbW : p.base < W64 := (hp0.1).1
        have hbmem : p.memA p.base := ⟨le_refl _, hp0.2.1⟩
        have hcovR : SparseRange.covers (p :: ps) p.base := ⟨p, by simp, hbmem⟩
        have hspec := (hreg.2 p.base).mp hcovR
        have hnotm : ¬ SparseRange.covers m.loadCap p.base := by
          rw [← hm1lc]
          exact hspec.2.1
        have hyes : SparseRange.covers mc.loadCap p.base := hp0.2.2.2.2 p.base hbmem
        have hlt : covCount m.loadCap < covCount mc.loadCap :=
          covCount_lt _ _ p.base hpbW
            (fun b hb => hcovmc b (by rw [hm1lc]; exact hb)) hnotm hyes
        have hkc : W64 - covCount mc.loadCap < k := by
          have h1 := covCount_le mc.loadCap
          omega
        have haddrs : ∀ (n : Nat) (next lst : Nat) (mSt : MapperSt),
            SparseRange.Wf mSt.loadCap →
            (∀ r ∈ mSt.excludeSelf, r.wf) →
            (∀ r ∈ mSt.includeR, r.wf) →
            (∀ a, SparseRange.covers mSt.includeR a → capW ≤ a ∧ a + capW < W64) →
            lst + capW < W64 →
            (∀ a, next ≤ a → a ≤ lst → SparseRange.covers mSt.loadCap a) →
            W64 - covCount mSt.loadCap < k →
            lst + 1 - next ≤ n →
            ∃ (fuel : Nat) (x : MapperSt × List Nat),
              scanRunT fuel mem mSt (.addrs depth next lst) = some x := by
          intro n
          induction n with
          | zero =>
            intro next lst mSt _ _ _ _ _ _ _ hle
            refine ⟨1, (mSt, []), ?_⟩
            show scanRunT (0 + 1) mem mSt (.addrs depth next lst) = some (mSt, [])
            rw [scanRunT_addrs_succ, if_neg (by omega)]
          | succ n ihn =>
            intro next lst mSt hWfS hexS hinS hincS hlstW hwcov hkS hle
            by_cases hg : next ≤ lst
            · have hnlt : next + capW < W64 := by
                unfold capW at hlstW ⊢
                omega
              have hnext16 : addrNext next = next + capW := by
                unfold addrNext
                exact Nat.mod_eq_of_lt hnlt
              cases ht : (mem next).tag with
              | false =>
                obtain ⟨fr, xr, hr⟩ := ihn (addrNext next) lst mSt hWfS hexS hinS hincS
                  hlstW
                  (by
                    intro a h1 h2
                    rw [hnext16] at h1
                    exact hwcov a (by unfold capW at h1; omega) h2)
                  hkS (by rw [hnext16]; unfold capW; omega)
                obtain ⟨mr, tr⟩ := xr
                refine ⟨fr + 1, (mr, next :: ([] ++ tr)), ?_⟩
                rw [scanRunT_addrs_succ, if_pos hg, ht]
                simp only [Bool.false_eq_true, if_false]
                rw [hr]
              | true =>
                obtain ⟨fg, xg, hgo⟩ := ih mSt (mem next) (depth + 1) hWfS hexS hinS
                  hincS (hmem next) hkS
                obtain ⟨mg, tg⟩ := xg
                have hpostG := scanT_master mem hmem fg mSt (.go (mem next) (depth + 1))
                  mg tg hWfS hexS hinS hincS (hmem next) hgo
                obtain ⟨hmonoG, hWfG, hinG, hexG, _, _, _, _⟩ := hpostG
                have hccG : covCount mSt.loadCap ≤ covCount mg.loadCap :=
                  covCount_mono _ _ hmonoG
                obtain ⟨fr, xr, hr⟩ := ihn (addrNext next) lst mg hWfG
                  (by rw [hexG]; exact hexS) (by rw [hinG]; exact hinS)
                  (by rw [hinG]; exact hincS) hlstW
                  (by
                    intro a h1 h2
                    rw [hnext16] at h1
                    exact hmonoG a (hwcov a (by unfold capW at h1; omega) h2))
                  (by omega) (by rw [hnext16]; unfold capW; omega)
                obtain ⟨mr, tr⟩ := xr
                refine ⟨max fg fr + 1, (mr, next :: (tg ++ tr)), ?_⟩
                rw [scanRunT_addrs_succ, if_pos hg, ht]
                simp only [if_true]
                rw [scanRunT_le_mono mem mSt (.go (mem next) (depth + 1)) (mg, tg)
                  (le_max_left fg fr) hgo]
                simp only
                rw [scanRunT_le_mono mem mg (.addrs depth (addrNext next) lst) (mr, tr)
                  (le_max_right fg fr) hr]
            · refine ⟨1, (mSt, []), ?_⟩
              show scanRunT (0 + 1) mem mSt (.addrs depth next lst) = some (mSt, [])
              rw [scanRunT_addrs_succ, if_neg hg]
        have hparts : ∀ (ps' : List Range) (mSt : MapperSt),
            SparseRange.Wf mSt.loadCap →
            (∀ r ∈ mSt.excludeSelf, r.wf) →
            (∀ r ∈ mSt.includeR, r.wf) →
            (∀ a, SparseRange.covers mSt.includeR a → capW ≤ a ∧ a + capW < W64) →
            (∀ q ∈ ps', q.wf ∧ q.ne ∧ capW ≤ q.last ∧ q.last + capW < W64 ∧
              (∀ a, q.memA a → SparseRange.covers mSt.loadCap a)) →
            W64 - covCount mSt.loadCap < k →
            ∃ (fuel : Nat) (x : MapperSt × List Nat),
              scanRunT fuel mem mSt (.parts depth ps') = some x := by
          intro ps'
          induction ps' with
          | nil =>
            intro mSt _ _ _ _ _ _
            exact ⟨1, (mSt, []), scanRunT_parts_nil 0 mem mSt depth⟩
          | cons q qs ihq =>
            intro mSt hWfS hexS hinS hincS hqs hkS
            obtain ⟨hqwf, hqne, hqlo, hqhi, hqcov⟩ := hqs q (by simp)
            have hwin := shrink_window_facts q hqwf hqne hqlo hqhi
            obtain ⟨fa, xa, ha⟩ := haddrs
              (Range.alignDown (q.shrunk_to_alignment capW).last capW + 1)
              (q.shrunk_to_alignment capW).base
              (Range.alignDown (q.shrunk_to_alignment capW).last capW)
              mSt hWfS hexS hinS hincS hwin.2.1
              (fun a h1 h2 => hqcov a (hwin.2.2 a h1 h2)) hkS (by omega)
            obtain ⟨ma, ta⟩ := xa
            have hpostA := scanT_master mem hmem fa mSt
              (.addrs depth (q.shrunk_to_alignment capW).base
                (Range.alignDown (q.shrunk_to_alignment capW).last capW)) ma ta
              hWfS hexS hinS hincS
              ⟨hwin.2.1, fun a h1 h2 => hqcov a (hwin.2.2 a h1 h2)⟩ ha
            obtain ⟨hmonoA, hWfA, hinA, hexA, _, _, _, _⟩ := hpostA
            have hccA : covCount mSt.loadCap ≤ covCount ma.loadCap :=
              covCount_mono _ _ hmonoA
            obtain ⟨fp, xp, hp2⟩ := ihq ma hWfA (by rw [hexA]; exact hexS)
              (by rw [hinA]; exact hinS) (by rw [hinA]; exact hincS)
              (by
                intro q2 hq2
                obtain ⟨h1, h2, h3, h4, h5⟩ := hqs q2 (by simp [hq2])
                exact ⟨h1, h2, h3, h4, fun a ha2 => hmonoA a (h5 a ha2)⟩)
              (by omega)
            obtain ⟨mq, tq⟩ := xp
            refine ⟨max fa fp + 1, (mq, ta ++ tq), ?_⟩
            rw [scanRunT_parts_cons]
            rw [scanRunT_le_mono mem mSt (.addrs depth (q.shrunk_to_alignment capW).base
              (Range.alignDown (q.shrunk_to_alignment capW).last capW)) (ma, ta)
              (le_max_left fa fp) ha]
            simp only
            rw [scanRunT_le_mono mem ma (.parts depth qs) (mq, tq)
              (le_max_right fa fp) hp2]
        obtain ⟨fp, xp, hp2⟩ := hparts (p :: ps) mc hWfmc
          (by rw [hmcex, hm1ex]; exact hex)
          (by rw [hmcin, hm1in]; exact hin)
          (by rw [hmcin, hm1in]; exact hinc)
          hRfacts hkc
        obtain ⟨mq, tq⟩ := xp
        refine ⟨fp + 1, (mq, tq), ?_⟩
        rw [hstep fp, if_pos hcond]
        exact hp2
    · refine ⟨1, (mc, []), ?_⟩
      show scanRunT (0 + 1) mem m (.go c depth) = some (mc, [])
      rw [hstep 0, if_neg hcond]

/-- C3: at-most-once and termination for the whole recursive scan.  Because
every `Mapper::scan` call subtracts the already-explored `load_cap_map_`
ranges from its scan region before recursing, a completed top-level scan
examines each capability-word address at most once (the instrumented trace
`T` of examined addresses has no duplicates); and provided the configured
include ranges keep clear of the bottom and the top capability word of the
address space — the two places where the code's wrapping 64-bit arithmetic
(`shrink_to_alignment`'s `- 1` and the word loop's `next += 16`) wraps —
some finite fuel completes the whole scan, with the uninstrumented scan
reaching the same final state. -/
theorem scan_whole_at_most_once_and_terminates (mem : Nat → Cap) (m : MapperSt)
    (selfR : Range) (c : Cap) (name : String)
    (hmem : ∀ a, (mem a).wfC) (hc : c.wfC) (hself : selfR.wf)
    (hWf : SparseRange.Wf m.loadCap)
    (hin : ∀ r ∈ m.includeR, r.wf)
    (hinc : ∀ a, SparseRange.covers m.includeR a → capW ≤ a ∧ a + capW < W64) :
    ∃ (fuel : Nat) (m' : MapperSt) (T : List Nat),
      scanTopT fuel mem m selfR c name = some (m', T) ∧
      T.Nodup ∧
      scanTop fuel mem m selfR c name = some m' := by
  cases htag : c.tag with
  | false =>
    refine ⟨0, { m with excludeSelf := SparseRange.combine [] selfR }, [],
      ?_, List.nodup_nil, ?_⟩
    · simp only [scanTopT]
      rw [htag]
      simp only [Bool.false_eq_true, if_false]
    · simp only [scanTop, scanGo]
      rw [htag]
      simp only [Bool.false_eq_true, if_false]
  | true =>
    obtain ⟨mr, hmrdef⟩ : ∃ mr : MapperSt,
        ({ m with
            excludeSelf := SparseRange.combine [] selfR,
            roots := m.roots ++ [(name, c)] } : MapperSt) = mr := ⟨_, rfl⟩
    have hmrlc : mr.loadCap = m.loadCap := by rw [← hmrdef]
    have hmrin : mr.includeR = m.includeR := by rw [← hmrdef]
    have hmrex : mr.excludeSelf = SparseRange.combine [] selfR := by rw [← hmrdef]
    have htop : ∀ f : Nat, scanTopT f mem m selfR c name =
        if c.tag = true then scanRunT f mem mr (.go c 0)
        else some ({ m with excludeSelf := SparseRange.combine [] selfR }, []) := by
      intro f
      rw [← hmrdef]
      rfl
    have htopU : ∀ f : Nat, scanTop f mem m selfR c name =
        if c.tag = true then scanRun f mem mr (.go c 0)
        else some { m with excludeSelf := SparseRange.combine [] selfR } := by
      intro f
      rw [← hmrdef]
      rfl
    have hcWf := combine_correct [] selfR ⟨by simp, by simp⟩ hself
    have hexr : ∀ r ∈ SparseRange.combine [] selfR, r.wf :=
      fun r hr => (hcWf.1.1 r hr).2
    obtain ⟨fuel, x, hrun⟩ := scanRunT_go_total mem hmem
      (W64 - covCount mr.loadCap + 1) mr c 0
      (by rw [hmrlc]; exact hWf) (by rw [hmrex]; exact hexr)
      (by rw [hmrin]; exact hin) (by rw [hmrin]; exact hinc) hc (Nat.lt_succ_self _)
    obtain ⟨m', T⟩ := x
    have hpost := scanT_master mem hmem fuel mr (.go c 0) m' T
      (by rw [hmrlc]; exact hWf) (by rw [hmrex]; exact hexr)
      (by rw [hmrin]; exact hin) (by rw [hmrin]; exact hinc) hc hrun
    refine ⟨fuel, m', T, ?_, hpost.2.2.2.2.2.2.1, ?_⟩
    · rw [htop fuel, if_pos htag]
      exact hrun
    · rw [htopU fuel, if_pos htag, ← scanRunT_fst, hrun]
      rfl

/-- Witness for the C3 theorem: a concrete memory of untagged words, an
empty mapper state, a one-byte self range and an untagged root. -/
theorem scan_whole_at_most_once_and_terminates_witness :
    (∀ a : Nat, ((fun _ : Nat => Cap.mk false false 0 0 0) a).wfC) ∧
    (∃ (fuel : Nat) (m' : MapperSt) (T : List Nat),
      scanTopT fuel (fun _ : Nat => Cap.mk false false 0 0 0)
          (MapperSt.mk [] [] [] [] 1 0 []) (Range.from_base_last 0 0)
          (Cap.mk false false 0 0 0) "root" = some (m', T) ∧
      T.Nodup ∧
      scanTop fuel (fun _ : Nat => Cap.mk false false 0 0 0)
          (MapperSt.mk [] [] [] [] 1 0 []) (Range.from_base_last 0 0)
          (Cap.mk false false 0 0 0) "root" = some m') :=
  ⟨fun _ => (by decide : (Cap.mk false false 0 0 0).wfC),
   scan_whole_at_most_once_and_terminates _ _ _ _ _
     (fun _ => (by decide : (Cap.mk false false 0 0 0).wfC)) ⟨by decide, by decide⟩
     ⟨by decide, by decide⟩ (by decide)
     (fun r hr => absurd hr (List.not_mem_nil r))
     (fun _ h => absurd h (fun hcv =>
       match hcv with
       | ⟨x, hx, _⟩ => absurd hx (List.not_mem_nil x)))⟩
